import Mathlib

/-!
# Quotient filter (sysprog21/quotient-filter): embedding of `quotient-filter.c`

Machine integers are natural numbers reduced modulo `2^w` wherever the C
arithmetic can wrap.  The table is the list of its 64-bit words.  Loops carry
a fuel argument and return `none` when the fuel runs out; the theorems show
that enough fuel always gives a result.

Shifts of 64-bit values take the shift count modulo 64 and shifts of `int`
values modulo 32, as x86-64 and AArch64 do (C leaves larger counts undefined).
-/

namespace QF

/-! ## Words -/

/-- Left shift of a `uint64_t`. -/
def shl64 (x n : Nat) : Nat := (x <<< (n % 64)) % 2 ^ 64

/-- Right shift of a `uint64_t`. -/
def shr64 (x n : Nat) : Nat := x >>> (n % 64)

/-- Bitwise complement of a `uint64_t`. -/
def not64 (x : Nat) : Nat := 2 ^ 64 - 1 - x % 2 ^ 64

/-- The macro `LOW_MASK(n)`, that is `(1ULL << (n)) - 1ULL`. -/
def LOW_MASK (n : Nat) : Nat := (shl64 1 n + 2 ^ 64 - 1) % 2 ^ 64

/-- The `int` expression `1 << q` as a 32-bit pattern. -/
def int_one_shl (q : Nat) : Nat := (1 <<< (q % 32)) % 2 ^ 32

/-- Conversion of a 32-bit `int` pattern to `uint64_t` (sign extension). -/
def sext32 (v : Nat) : Nat := if v < 2 ^ 31 then v else v + (2 ^ 64 - 2 ^ 32)

/-! ## The filter -/

/-- The struct `quotient_filter`; `table` is the array of 64-bit words. -/
structure quotient_filter where
  qbits : Nat
  rbits : Nat
  elem_bits : Nat
  entries : Nat
  index_mask : Nat
  rmask : Nat
  elem_mask : Nat
  max_size : Nat
  table : List Nat
deriving DecidableEq, Repr

/-- The function `qf_table_size`: the multiplication is done in `unsigned int`. -/
def qf_table_size (q r : Nat) : Nat :=
  let bits := (int_one_shl q * ((r + 3) % 2 ^ 32)) % 2 ^ 32
  let bytes := bits / 8
  if bits % 8 ≠ 0 then bytes + 1 else bytes

/-- The field assignments of `qf_init`, for a given table. -/
def init_fields (q r : Nat) (table : List Nat) : quotient_filter :=
  let qbits := q % 256
  let rbits := r % 256
  let elem_bits := (rbits + 3) % 256
  { qbits := qbits
    rbits := rbits
    elem_bits := elem_bits
    index_mask := LOW_MASK q
    rmask := LOW_MASK r
    elem_mask := LOW_MASK elem_bits
    entries := 0
    max_size := sext32 (int_one_shl q)
    table := table }

/-- A zeroed allocation of `bytes` bytes, seen as whole 64-bit words. -/
def calloc_words (bytes : Nat) : List Nat := List.replicate ((bytes + 7) / 8) 0

/-- The function `qf_init` with a successful allocation; `none` is the `false` return. -/
def qf_init (q r : Nat) : Option quotient_filter :=
  if q = 0 ∨ r = 0 ∨ (q + r) % 2 ^ 32 > 64 then none
  else some (init_fields q r (calloc_words (qf_table_size q r)))

/-- The function `get_elem`. -/
def get_elem (qf : quotient_filter) (idx : Nat) : Nat :=
  let bitpos := (qf.elem_bits * idx) % 2 ^ 64
  let tabpos := bitpos / 64
  let slotpos := bitpos % 64
  -- `spillbits > 0` exactly when `slotpos + elem_bits > 64`
  let spillbits := slotpos + qf.elem_bits - 64
  let elt := shr64 (qf.table.getD tabpos 0) slotpos &&& qf.elem_mask
  if slotpos + qf.elem_bits > 64 then
    let x := qf.table.getD (tabpos + 1) 0 &&& LOW_MASK spillbits
    elt ||| shl64 x (qf.elem_bits - spillbits)
  else elt

/-- The function `set_elem`. -/
def set_elem (qf : quotient_filter) (idx elt : Nat) : quotient_filter :=
  let bitpos := (qf.elem_bits * idx) % 2 ^ 64
  let tabpos := bitpos / 64
  let slotpos := bitpos % 64
  let spillbits := slotpos + qf.elem_bits - 64
  let elt := elt &&& qf.elem_mask
  let w0 := qf.table.getD tabpos 0 &&& not64 (shl64 qf.elem_mask slotpos)
  let w0 := w0 ||| shl64 elt slotpos
  let t0 := qf.table.set tabpos w0
  if slotpos + qf.elem_bits > 64 then
    let w1 := t0.getD (tabpos + 1) 0 &&& not64 (LOW_MASK spillbits)
    let w1 := w1 ||| shr64 elt (qf.elem_bits - spillbits)
    { qf with table := t0.set (tabpos + 1) w1 }
  else { qf with table := t0 }

/-- The function `incr`. -/
def incr (qf : quotient_filter) (idx : Nat) : Nat := ((idx + 1) % 2 ^ 64) &&& qf.index_mask

/-- The function `decr`. -/
def decr (qf : quotient_filter) (idx : Nat) : Nat := ((idx + 2 ^ 64 - 1) % 2 ^ 64) &&& qf.index_mask

def is_occupied (elt : Nat) : Bool := elt &&& 1 != 0
def set_occupied (elt : Nat) : Nat := elt ||| 1
def clr_occupied (elt : Nat) : Nat := elt &&& not64 1
def is_continuation (elt : Nat) : Bool := elt &&& 2 != 0
def set_continuation (elt : Nat) : Nat := elt ||| 2
def clr_continuation (elt : Nat) : Nat := elt &&& not64 2
def is_shifted (elt : Nat) : Bool := elt &&& 4 != 0
def set_shifted (elt : Nat) : Nat := elt ||| 4
def clr_shifted (elt : Nat) : Nat := elt &&& not64 4
def get_remainder (elt : Nat) : Nat := elt >>> 3
def is_empty_element (elt : Nat) : Bool := elt &&& 7 == 0

def is_cluster_start (elt : Nat) : Bool :=
  is_occupied elt && !is_continuation elt && !is_shifted elt

def is_run_start (elt : Nat) : Bool :=
  !is_continuation elt && (is_occupied elt || is_shifted elt)

/-- The function `hash_to_quotient`. -/
def hash_to_quotient (qf : quotient_filter) (hash : Nat) : Nat :=
  shr64 hash qf.rbits &&& qf.index_mask

/-- The function `hash_to_remainder`. -/
def hash_to_remainder (qf : quotient_filter) (hash : Nat) : Nat := hash &&& qf.rmask

/-- The loop `while (is_shifted(get_elem(qf, b))) b = decr(qf, b);`. -/
def cluster_start_loop (qf : quotient_filter) : Nat → Nat → Option Nat
  | 0, _ => none
  | fuel + 1, b =>
    if is_shifted (get_elem qf b) then cluster_start_loop qf fuel (decr qf b) else some b

/-- The loop `do s = incr(qf, s); while (is_continuation(get_elem(qf, s)));`. -/
def next_run_loop (qf : quotient_filter) : Nat → Nat → Option Nat
  | 0, _ => none
  | fuel + 1, s =>
    let s1 := incr qf s
    if is_continuation (get_elem qf s1) then next_run_loop qf fuel s1 else some s1

/-- The loop `do b = incr(qf, b); while (!is_occupied(get_elem(qf, b)));`. -/
def next_occupied_loop (qf : quotient_filter) : Nat → Nat → Option Nat
  | 0, _ => none
  | fuel + 1, b =>
    let b1 := incr qf b
    if !is_occupied (get_elem qf b1) then next_occupied_loop qf fuel b1 else some b1

/-- The loop `while (b != fq) ...` of `find_run_index`. -/
def run_index_loop (qf : quotient_filter) (fq : Nat) : Nat → Nat → Nat → Option Nat
  | 0, _, _ => none
  | fuel + 1, b, s =>
    if b ≠ fq then
      match next_run_loop qf fuel s, next_occupied_loop qf fuel b with
      | some s1, some b1 => run_index_loop qf fq fuel b1 s1
      | _, _ => none
    else some s

/-- The function `find_run_index`. -/
def find_run_index (fuel : Nat) (qf : quotient_filter) (fq : Nat) : Option Nat :=
  match cluster_start_loop qf fuel fq with
  | none => none
  | some b => run_index_loop qf fq fuel b b

/-- The function `insert_into`. -/
def insert_into : Nat → quotient_filter → Nat → Nat → Option quotient_filter
  | 0, _, _, _ => none
  | fuel + 1, qf, s, curr =>
    let prev := get_elem qf s
    let empty := is_empty_element prev
    let prev1 := if !empty then set_shifted prev else prev
    let move := !empty && is_occupied prev1
    let curr1 := if move then set_occupied curr else curr
    let prev2 := if move then clr_occupied prev1 else prev1
    let qf1 := set_elem qf s curr1
    if !empty then insert_into fuel qf1 (incr qf1 s) prev2 else some qf1

/-- How the scan of a run for a remainder ends. -/
inductive Scan where
  /-- Leaves the loop at `rem == fr`, cursor at that slot. -/
  | found (s : Nat)
  /-- Leaves the loop at `rem > fr`, cursor at that slot. -/
  | greater (s : Nat)
  /-- The loop condition `is_continuation(get_elem(qf, s))` failed at cursor `s`. -/
  | ended (s : Nat)
deriving DecidableEq, Repr

/-- The do-while loop over a run shared by `qf_insert`, `qf_may_contain` and `qf_remove`. -/
def scan_run (qf : quotient_filter) (fr : Nat) : Nat → Nat → Option Scan
  | 0, _ => none
  | fuel + 1, s =>
    let rem := get_remainder (get_elem qf s)
    if rem = fr then some (Scan.found s)
    else if rem > fr then some (Scan.greater s)
    else
      let s1 := incr qf s
      if is_continuation (get_elem qf s1) then scan_run qf fr fuel s1 else some (Scan.ended s1)

/-- The function `qf_insert`: the returned flag and the filter afterwards. -/
def qf_insert (fuel : Nat) (qf : quotient_filter) (hash : Nat) :
    Option (Bool × quotient_filter) :=
  if qf.entries ≥ qf.max_size then some (false, qf)
  else
    let fq := hash_to_quotient qf hash
    let fr := hash_to_remainder qf hash
    let T_fq := get_elem qf fq
    let entry := shl64 fr 3 &&& not64 7
    if is_empty_element T_fq then
      let qf1 := set_elem qf fq (set_occupied entry)
      some (true, { qf1 with entries := (qf1.entries + 1) % 2 ^ 32 })
    else
      let qf1 := if !is_occupied T_fq then set_elem qf fq (set_occupied T_fq) else qf
      match find_run_index fuel qf1 fq with
      | none => none
      | some start =>
        let place (qf2 : quotient_filter) (s entry : Nat) : Option (Bool × quotient_filter) :=
          let entry1 := if s ≠ fq then set_shifted entry else entry
          match insert_into fuel qf2 s entry1 with
          | none => none
          | some qf3 => some (true, { qf3 with entries := (qf3.entries + 1) % 2 ^ 32 })
        if is_occupied T_fq then
          match scan_run qf1 fr fuel start with
          | none => none
          | some (Scan.found _) => some (true, qf1)
          | some (Scan.greater s) | some (Scan.ended s) =>
            if s = start then
              let old_head := get_elem qf1 start
              place (set_elem qf1 start (set_continuation old_head)) s entry
            else place qf1 s (set_continuation entry)
        else place qf1 start entry

/-- The function `qf_may_contain`. -/
def qf_may_contain (fuel : Nat) (qf : quotient_filter) (hash : Nat) : Option Bool :=
  let fq := hash_to_quotient qf hash
  let fr := hash_to_remainder qf hash
  let T_fq := get_elem qf fq
  if !is_occupied T_fq then some false
  else
    match find_run_index fuel qf fq with
    | none => none
    | some s =>
      match scan_run qf fr fuel s with
      | none => none
      | some (Scan.found _) => some true
      | some (Scan.greater _) => some false
      | some (Scan.ended _) => some false

/-- The function `delete_entry`; `s`, `sp`, `curr`, `quot` are the loop variables. -/
def delete_entry_loop (orig : Nat) :
    Nat → quotient_filter → Nat → Nat → Nat → Nat → Option quotient_filter
  | 0, _, _, _, _, _ => none
  | fuel + 1, qf, s, sp, curr, quot =>
    let next := get_elem qf sp
    let curr_occupied := is_occupied curr
    if is_empty_element next || is_cluster_start next || sp = orig then
      some (set_elem qf s 0)
    else
      let step (quot1 updated_next : Nat) : Option quotient_filter :=
        let qf1 := set_elem qf s
          (if curr_occupied then set_occupied updated_next else clr_occupied updated_next)
        delete_entry_loop orig fuel qf1 sp (incr qf1 sp) next quot1
      if is_run_start next then
        match next_occupied_loop qf fuel quot with
        | none => none
        | some quot1 =>
          step quot1 (if curr_occupied && quot1 = s then clr_shifted next else next)
      else step quot next

/-- The function `delete_entry`. -/
def delete_entry (fuel : Nat) (qf : quotient_filter) (s quot : Nat) : Option quotient_filter :=
  delete_entry_loop s fuel qf s (incr qf s) (get_elem qf s) quot

/-- The function `qf_remove`; both blocks marked "Write your code here" are empty. -/
def qf_remove (fuel : Nat) (qf : quotient_filter) (hash : Nat) :
    Option (Bool × quotient_filter) :=
  let highbits := shr64 hash (qf.qbits + qf.rbits)
  if highbits ≠ 0 then some (false, qf)
  else
    let fq := hash_to_quotient qf hash
    let fr := hash_to_remainder qf hash
    let T_fq := get_elem qf fq
    if !is_occupied T_fq || qf.entries = 0 then some (true, qf)
    else
      match find_run_index fuel qf fq with
      | none => none
      | some start =>
        match scan_run qf fr fuel start with
        | none => none
        | some (Scan.greater _) => some (true, qf)
        | some (Scan.ended _) => some (true, qf)
        | some (Scan.found s) =>
          match delete_entry fuel qf s fq with
          | none => none
          | some qf1 => some (true, { qf1 with entries := (qf1.entries + 2 ^ 32 - 1) % 2 ^ 32 })

/-- The function `qf_clear`; the table keeps its length. -/
def qf_clear (qf : quotient_filter) : quotient_filter :=
  { qf with entries := 0, table := List.replicate qf.table.length 0 }

/-- The struct `__qf_iterator`. -/
structure qf_iterator where
  index : Nat
  quotient : Nat
  visited : Nat
deriving DecidableEq, Repr

/-- The `for` loop of `qfi_start`, from `start` with `n` slots left before `max_size`. -/
def cluster_scan (qf : quotient_filter) : Nat → Nat → Nat
  | 0, start => start
  | n + 1, start =>
    if is_cluster_start (get_elem qf start) then start else cluster_scan qf n (start + 1)

/-- The function `qfi_start`; `i` is the iterator as the caller left it. -/
def qfi_start (qf : quotient_filter) (i : qf_iterator) : qf_iterator :=
  let i1 := { i with visited := qf.entries }
  if qf.entries = 0 then i1
  else
    let start := cluster_scan qf qf.max_size 0
    { i1 with visited := 0, index := start }

/-- The function `qfi_done`. -/
def qfi_done (qf : quotient_filter) (i : qf_iterator) : Bool := qf.entries = i.visited

/-- The function `qfi_next`; `none` is `abort()` or the end of the fuel. -/
def qfi_next (qf : quotient_filter) : Nat → qf_iterator → Option (Nat × qf_iterator)
  | 0, _ => none
  | fuel + 1, i =>
    if qfi_done qf i then none
    else
      let elt := get_elem qf i.index
      let quotient :=
        if is_cluster_start elt then some i.index
        else if is_run_start elt then next_occupied_loop qf fuel i.quotient
        else some i.quotient
      match quotient with
      | none => none
      | some quot =>
        let i1 := { i with quotient := quot, index := incr qf i.index }
        if !is_empty_element elt then
          let hash := shl64 quot qf.rbits ||| get_remainder elt
          some (hash, { i1 with visited := (i1.visited + 1) % 2 ^ 64 })
        else qfi_next qf fuel i1


/-! ## Specification vocabulary -/

/-- Bit `k` of the table read as one bit string. -/
def tbit (t : List Nat) (k : Nat) : Bool := (t[k / 64]?.getD 0).testBit (k % 64)

/-- The slot layout is usable: slot width below 64, mask of that width, 64-bit words. -/
structure TableOK (qf : quotient_filter) : Prop where
  eb_pos : 1 ≤ qf.elem_bits
  eb_le : qf.elem_bits ≤ 63
  mask : qf.elem_mask = 2 ^ qf.elem_bits - 1
  words : ∀ w ∈ qf.table, w < 2 ^ 64

/-- The filter has the fields `qf_init` gives for `q` and `r`, and a table of 64-bit words
holding all `2^q` slots. -/
structure WF (q r : Nat) (qf : quotient_filter) : Prop where
  q_pos : 1 ≤ q
  q_le : q ≤ 30
  r_pos : 1 ≤ r
  r_le : r ≤ 60
  qbits_eq : qf.qbits = q
  rbits_eq : qf.rbits = r
  elem_bits_eq : qf.elem_bits = r + 3
  index_mask_eq : qf.index_mask = 2 ^ q - 1
  rmask_eq : qf.rmask = 2 ^ r - 1
  elem_mask_eq : qf.elem_mask = 2 ^ (r + 3) - 1
  max_size_eq : qf.max_size = 2 ^ q
  table_len : 2 ^ q * (r + 3) ≤ 64 * qf.table.length
  words : ∀ w ∈ qf.table, w < 2 ^ 64

/-- The slot at position `p` of the circular table of `2^q` slots. -/
def slot (q : Nat) (qf : quotient_filter) (p : Nat) : Nat := get_elem qf (p % 2 ^ q)

/-- The structural invariant of the table.  The ghost function `D` gives, for the entry stored
at position `p`, how many slots it sits after its canonical slot (0 at an empty slot).  An
empty slot holds the remainder 0. -/
structure Inv (q r : Nat) (qf : quotient_filter) (D : Nat → Nat) : Prop where
  wf : WF q r qf
  per : ∀ p, D (p + 2 ^ q) = D p
  anchor : ∃ a, D a = 0
  emp : ∀ p, is_empty_element (slot q qf p) = true → D p = 0
  shf : ∀ p, is_empty_element (slot q qf p) = false →
    (is_shifted (slot q qf p) = true ↔ D p ≠ 0)
  adj : ∀ p, D (p + 1) ≠ 0 → is_empty_element (slot q qf p) = false ∧ D (p + 1) ≤ D p + 1
  cont : ∀ p, is_empty_element (slot q qf (p + 1)) = false →
    (is_continuation (slot q qf (p + 1)) = true ↔ D (p + 1) = D p + 1)
  rem : ∀ p, is_continuation (slot q qf (p + 1)) = true →
    get_remainder (slot q qf p) < get_remainder (slot q qf (p + 1))
  occ : ∀ p, is_occupied (slot q qf p) = true ↔
    ∃ k, is_empty_element (slot q qf (p + k)) = false ∧ D (p + k) = k
  count : qf.entries
    = ((Finset.range (2 ^ q)).filter (fun i => is_empty_element (slot q qf i) = false)).card
  clean : ∀ p, is_empty_element (slot q qf p) = true → get_remainder (slot q qf p) = 0

/-- The fingerprint with quotient `fq` and remainder `fr` is stored in the table. -/
def Stored (q : Nat) (qf : quotient_filter) (D : Nat → Nat) (fq fr : Nat) : Prop :=
  ∃ k, is_empty_element (slot q qf (fq + k)) = false ∧ D (fq + k) = k ∧
    get_remainder (slot q qf (fq + k)) = fr

/-- A fresh filter: the fields of `qf_init` and a zeroed table holding all `2^q` slots. -/
def fresh (q r : Nat) : quotient_filter :=
  init_fields q r (List.replicate ((2 ^ q * (r + 3) + 63) / 64) 0)

/-- The filter `qf1` is `qf` with the `occupied` bit of slot `fq` set. -/
structure OccView (q : Nat) (qf qf1 : quotient_filter) (fq : Nat) : Prop where
  sh : ∀ p, is_shifted (slot q qf1 p) = is_shifted (slot q qf p)
  ct : ∀ p, is_continuation (slot q qf1 p) = is_continuation (slot q qf p)
  oc : ∀ p, is_occupied (slot q qf1 p) = (is_occupied (slot q qf p) || decide (p % 2 ^ q = fq))
  rm : ∀ p, get_remainder (slot q qf1 p) = get_remainder (slot q qf p)

/-- The loop invariant of `find_run_index`: with the cluster start at position `b`, the
quotient cursor is at `b + β` and the run cursor at `b + σ`. -/
structure RunInv (q : Nat) (qf qf1 : quotient_filter) (D : Nat → Nat) (b φ β σ : Nat) :
    Prop where
  le : β ≤ φ
  occ1 : is_occupied (slot q qf1 (b + β)) = true
  before : ∀ j, j < σ → is_empty_element (slot q qf (b + j)) = false ∧ j < D (b + j) + β
  here : is_empty_element (slot q qf (b + σ)) = false → D (b + σ) + β ≤ σ
  run : β < φ → is_empty_element (slot q qf (b + σ)) = false ∧ D (b + σ) + β = σ

/-- What `insert_into` writes to a slot holding `old` when `curr` comes in. -/
def put (old curr : Nat) : Nat :=
  if !is_empty_element old && is_occupied (set_shifted old) then set_occupied curr else curr

/-- What `insert_into` carries on to the next slot from a non-empty slot holding `prev`. -/
def carry (prev : Nat) : Nat :=
  if is_occupied (set_shifted prev) then clr_occupied (set_shifted prev) else set_shifted prev

/-- The ghost function after an insertion at position `s` that shifts `m` entries: the new
entry sits `δ` slots after its canonical slot, each shifted entry one slot further than before. -/
def insD (q : Nat) (D : Nat → Nat) (s m δ : Nat) : Nat → Nat := fun p =>
  let x := (p + (2 ^ q - s % 2 ^ q)) % 2 ^ q
  if x = 0 then δ else if x ≤ m then D (p + 2 ^ q - 1) + 1 else D p

/-- The effect of a successful insertion of the fingerprint `(fq, fr)` on the slots: the new
entry is written at position `s`, the `m` entries from `s` on move one slot up into the empty
slot at `s + m`, slot `fq` (at position `fqp`) is marked occupied, and `h` tells whether the
old head of the run became a continuation. -/
structure InsertShape (q : Nat) (qf qf' : quotient_filter) (D : Nat → Nat)
    (fq fr fqp s m : Nat) (c0 h : Bool) : Prop where
  fq_pos : fqp % 2 ^ q = fq
  le_s : fqp ≤ s
  lt_n : s + m < fqp + 2 ^ q
  full : ∀ p, fqp ≤ p → p < s + m → is_empty_element (slot q qf p) = false
  hole : is_empty_element (slot q qf (s + m)) = true
  occ : ∀ p, is_occupied (slot q qf' p) = (is_occupied (slot q qf p) || decide (p % 2 ^ q = fq))
  rem_s : get_remainder (slot q qf' s) = fr
  cont_s : is_continuation (slot q qf' s) = c0
  shf_s : is_shifted (slot q qf' s) = decide (s ≠ fqp)
  rem_in : ∀ j, j < m →
    get_remainder (slot q qf' (s + j + 1)) = get_remainder (slot q qf (s + j))
  cont_in : ∀ j, j < m → is_continuation (slot q qf' (s + j + 1))
    = (is_continuation (slot q qf (s + j)) || (decide (j = 0) && h))
  shf_in : ∀ j, j < m → is_shifted (slot q qf' (s + j + 1)) = true
  rem_out : ∀ x, m < x → x < 2 ^ q →
    get_remainder (slot q qf' (s + x)) = get_remainder (slot q qf (s + x))
  cont_out : ∀ x, m < x → x < 2 ^ q →
    is_continuation (slot q qf' (s + x)) = is_continuation (slot q qf (s + x))
  shf_out : ∀ x, m < x → x < 2 ^ q →
    is_shifted (slot q qf' (s + x)) = is_shifted (slot q qf (s + x))
  pred : fqp < s → s ≤ D (s - 1) + fqp + 1
  succ : 0 < m → D s + fqp ≤ s
  c0_iff : c0 = true ↔ (fqp < s ∧ D (s - 1) + fqp + 1 = s)
  h_iff : 0 < m → ((is_continuation (slot q qf s) || h) = true ↔ D s + fqp = s)
  r1 : c0 = true → get_remainder (slot q qf (s - 1)) < fr
  r2 : 0 < m → (is_continuation (slot q qf s) || h) = true → fr < get_remainder (slot q qf s)

/-- How the slot `z` positions after the insertion position looks after the insertion. -/
inductive NewAt (q : Nat) (qf qf' : quotient_filter) (D D' : Nat → Nat)
    (fr fqp s m : Nat) (c0 h : Bool) (z : Nat) : Prop where
  | start : z % 2 ^ q = 0 → D' (s + z) = s - fqp → get_remainder (slot q qf' (s + z)) = fr →
      is_continuation (slot q qf' (s + z)) = c0 →
      is_shifted (slot q qf' (s + z)) = decide (s ≠ fqp) →
      is_empty_element (slot q qf' (s + z)) = false → NewAt q qf qf' D D' fr fqp s m c0 h z
  | moved (z' : Nat) : z = z' + 1 → z' % 2 ^ q < m → D' (s + z) = D (s + z') + 1 →
      get_remainder (slot q qf' (s + z)) = get_remainder (slot q qf (s + z')) →
      is_continuation (slot q qf' (s + z))
        = (is_continuation (slot q qf (s + z')) || (decide (z' % 2 ^ q = 0) && h)) →
      is_shifted (slot q qf' (s + z)) = true →
      is_empty_element (slot q qf' (s + z)) = false →
      is_empty_element (slot q qf (s + z')) = false → NewAt q qf qf' D D' fr fqp s m c0 h z
  | same : m < z % 2 ^ q → D' (s + z) = D (s + z) →
      get_remainder (slot q qf' (s + z)) = get_remainder (slot q qf (s + z)) →
      is_continuation (slot q qf' (s + z)) = is_continuation (slot q qf (s + z)) →
      is_shifted (slot q qf' (s + z)) = is_shifted (slot q qf (s + z)) →
      is_empty_element (slot q qf' (s + z)) = is_empty_element (slot q qf (s + z)) →
      NewAt q qf qf' D D' fr fqp s m c0 h z

/-- The filter `qf2` on which `insert_into` runs, compared with the filter `qf` before the
insertion: slot `fq` is marked occupied and, when `h` holds, slot `s` is a continuation. -/
structure PreView (q : Nat) (qf qf2 : quotient_filter) (fq s : Nat) (h : Bool) : Prop where
  oc : ∀ p, is_occupied (slot q qf2 p) = (is_occupied (slot q qf p) || decide (p % 2 ^ q = fq))
  sh : ∀ p, is_shifted (slot q qf2 p) = is_shifted (slot q qf p)
  rm : ∀ p, get_remainder (slot q qf2 p) = get_remainder (slot q qf p)
  ct : ∀ p, is_continuation (slot q qf2 p)
    = (is_continuation (slot q qf p) || (h && decide (p % 2 ^ q = s % 2 ^ q)))
  em : ∀ p, is_empty_element (slot q qf2 p) = is_empty_element (slot q qf p)

/-- The outcome of a successful `qf_insert`: the invariant holds again, the stored
fingerprints are the old ones and the fingerprint of the hash, and nothing changes when that
fingerprint was stored already. -/
def InsertOK (q r : Nat) (qf : quotient_filter) (D : Nat → Nat) (fuel hash : Nat) : Prop :=
  ∃ qf' D', qf_insert fuel qf hash = some (true, qf') ∧ Inv q r qf' D' ∧
    (∀ c fr', Stored q qf' D' c fr' ↔
      (Stored q qf D c fr' ∨
        (c % 2 ^ q = hash_to_quotient qf hash ∧ fr' = hash_to_remainder qf hash))) ∧
    (Stored q qf D (hash_to_quotient qf hash) (hash_to_remainder qf hash) → qf' = qf) ∧
    qf.entries ≤ qf'.entries ∧ qf'.entries ≤ qf.entries + 1

/-- The states reached from a fresh filter by `qf_insert` calls, together with the hashes whose
call returned `true` (latest first).  The fresh filter has the fields `qf_init` sets and a
zeroed table of `words` 64-bit words holding all `2^q` slots. -/
inductive Reach (q r : Nat) : quotient_filter → List Nat → Prop where
  | init (words : Nat) (h : 2 ^ q * (r + 3) ≤ 64 * words) :
      Reach q r (init_fields q r (List.replicate words 0)) []
  | insert_true {qf qf' : quotient_filter} {ok : List Nat} (fuel hash : Nat) :
      Reach q r qf ok → qf_insert fuel qf hash = some (true, qf') → Reach q r qf' (hash :: ok)
  | insert_false {qf qf' : quotient_filter} {ok : List Nat} (fuel hash : Nat) :
      Reach q r qf ok → qf_insert fuel qf hash = some (false, qf') → Reach q r qf' ok

/-- The filter with `q = r = 3` after inserting the hashes 0 and 1. -/
def example_filter : quotient_filter :=
  { qbits := 3, rbits := 3, elem_bits := 6, entries := 2, index_mask := 7, rmask := 7,
    elem_mask := 63, max_size := 8, table := [897] }

/-- The filter with `q = r = 3` after inserting the hash 0. -/
def example_filter_one : quotient_filter :=
  { qbits := 3, rbits := 3, elem_bits := 6, entries := 1, index_mask := 7, rmask := 7,
    elem_mask := 63, max_size := 8, table := [1] }

/-- The filter `example_filter` after `qf_remove` of the hash 0. -/
def example_filter_removed : quotient_filter :=
  { qbits := 3, rbits := 3, elem_bits := 6, entries := 1, index_mask := 7, rmask := 7,
    elem_mask := 63, max_size := 8, table := [15] }

/-- The filter `example_filter` after inserting the hash 8. -/
def example_filter_three : quotient_filter :=
  { qbits := 3, rbits := 3, elem_bits := 6, entries := 3, index_mask := 7, rmask := 7,
    elem_mask := 63, max_size := 8, table := [17345] }

/-- The filter `example_filter_three` after `qf_remove` of the hash 8. -/
def example_filter_round_trip : quotient_filter :=
  { qbits := 3, rbits := 3, elem_bits := 6, entries := 2, index_mask := 7, rmask := 7,
    elem_mask := 63, max_size := 8, table := [961] }

/-- The `(q+r)`-bit fingerprint of a hash as the iterator reports it:
`(quotient << rbits) | remainder`. -/
def fingerprint (qf : quotient_filter) (hash : Nat) : Nat :=
  shl64 (hash_to_quotient qf hash) qf.rbits ||| hash_to_remainder qf hash

/-- The loop `while (!qfi_done(qf, i)) ... qfi_next(qf, i)` of a caller of the iterator,
collecting the values; `steps` bounds the number of turns. -/
def qfi_collect (qf : quotient_filter) (fuel : Nat) : Nat → qf_iterator → Option (List Nat)
  | 0, _ => none
  | steps + 1, i =>
    if qfi_done qf i then some []
    else
      match qfi_next qf fuel i with
      | none => none
      | some (v, i1) =>
        match qfi_collect qf fuel steps i1 with
        | none => none
        | some vs => some (v :: vs)

/-- The calls `qfi_start` and then `qfi_next` until `qfi_done`, on an iterator `i0` as the
caller declared it. -/
def qfi_all (fuel : Nat) (qf : quotient_filter) (i0 : qf_iterator) : Option (List Nat) :=
  qfi_collect qf fuel fuel (qfi_start qf i0)

/-- The value the iterator reports for the entry at position `p`. -/
def fpAt (q r : Nat) (qf : quotient_filter) (D : Nat → Nat) (p : Nat) : Nat :=
  shl64 ((p - D p) % 2 ^ q) r ||| get_remainder (slot q qf p)

/-- The values of the entries on the `len` positions from `p` on, in order. -/
def yieldsFrom (q r : Nat) (qf : quotient_filter) (D : Nat → Nat) : Nat → Nat → List Nat
  | _, 0 => []
  | p, len + 1 =>
    if is_empty_element (slot q qf p) = false then fpAt q r qf D p :: yieldsFrom q r qf D (p + 1) len
    else yieldsFrom q r qf D (p + 1) len


/-- The number of slots whose three metadata bits are not all zero. -/
def nonempty_slots (qf : quotient_filter) : Nat :=
  ((List.range qf.max_size).filter (fun i => !is_empty_element (get_elem qf i))).length

/-- A call of the public interface that changes the filter. -/
inductive Call where
  | insert (hash : Nat)
  | remove (hash : Nat)
  | clear
deriving DecidableEq, Repr

/-- The calls made in order on a filter; the returned flags are dropped. -/
def run_calls (fuel : Nat) : quotient_filter → List Call → Option quotient_filter
  | qf, [] => some qf
  | qf, Call.insert hash :: cs =>
    match qf_insert fuel qf hash with
    | none => none
    | some (_, qf1) => run_calls fuel qf1 cs
  | qf, Call.remove hash :: cs =>
    match qf_remove fuel qf hash with
    | none => none
    | some (_, qf1) => run_calls fuel qf1 cs
  | qf, Call.clear :: cs => run_calls fuel (qf_clear qf) cs

/-- The table indices `tabpos` that `get_elem` and `set_elem` dereference for slot `idx`. -/
def elem_words (qf : quotient_filter) (idx : Nat) : List Nat :=
  let bitpos := (qf.elem_bits * idx) % 2 ^ 64
  let tabpos := bitpos / 64
  let slotpos := bitpos % 64
  if slotpos + qf.elem_bits > 64 then [tabpos, tabpos + 1] else [tabpos]

/-- The 64-bit word `w` of the table lies within the first `bytes` bytes of the table. -/
def word_within (bytes w : Nat) : Bool := decide (8 * (w + 1) ≤ bytes)

/-- The filter with `q = r = 3` after inserting the hashes 0, 8 and 16. -/
def example_filter_0_8_16 : quotient_filter :=
  { qbits := 3, rbits := 3, elem_bits := 6, entries := 3, index_mask := 7, rmask := 7,
    elem_mask := 63, max_size := 8, table := [4161] }

/-- The filter with `q = r = 3` after inserting the hashes 0, 1 and 2. -/
def example_filter_0_1_2 : quotient_filter :=
  { qbits := 3, rbits := 3, elem_bits := 6, entries := 3, index_mask := 7, rmask := 7,
    elem_mask := 63, max_size := 8, table := [91009] }

/-- The filter with `q = r = 3` after inserting the hashes 1, 2, 3 and 9. -/
def example_filter_1_2_3_9 : quotient_filter :=
  { qbits := 3, rbits := 3, elem_bits := 6, entries := 4, index_mask := 7, rmask := 7,
    elem_mask := 63, max_size := 8, table := [3270089] }

/-- The table of `qf'` has the length of the table of `qf` and the same bits after the `2^q`
slots of `r + 3` bits. -/
def Frame (q r : Nat) (qf qf' : quotient_filter) : Prop :=
  qf'.table.length = qf.table.length ∧
    ∀ k, 2 ^ q * (r + 3) ≤ k → tbit qf'.table k = tbit qf.table k

theorem LOW_MASK_eq {n : Nat} (h : n < 64) : LOW_MASK n = 2 ^ n - 1 := by
  unfold LOW_MASK shl64
  rw [Nat.mod_eq_of_lt h, Nat.one_shiftLeft]
  have h1 : 2 ^ n < 2 ^ 64 := Nat.pow_lt_pow_right (by decide) h
  have h2 : 0 < 2 ^ n := Nat.two_pow_pos n
  rw [Nat.mod_eq_of_lt h1]
  omega

theorem testBit_not64 (x i : Nat) :
    (not64 x).testBit i = (decide (i < 64) && !(decide (i < 64) && x.testBit i)) := by
  unfold not64
  have h : x % 2 ^ 64 < 2 ^ 64 := Nat.mod_lt _ (Nat.two_pow_pos 64)
  have e : 2 ^ 64 - 1 - x % 2 ^ 64 = 2 ^ 64 - (x % 2 ^ 64 + 1) := by omega
  rw [e, Nat.testBit_two_pow_sub_succ h, Nat.testBit_mod_two_pow]

theorem testBit_shl64 (x n i : Nat) (hn : n < 64) :
    (shl64 x n).testBit i = (decide (i < 64) && (decide (i ≥ n) && x.testBit (i - n))) := by
  unfold shl64
  rw [Nat.mod_eq_of_lt hn, Nat.testBit_mod_two_pow, Nat.testBit_shiftLeft]

theorem testBit_shr64 (x n i : Nat) (hn : n < 64) :
    (shr64 x n).testBit i = x.testBit (n + i) := by
  unfold shr64
  rw [Nat.mod_eq_of_lt hn, Nat.testBit_shiftRight]

theorem getD_lt_of_words {t : List Nat} (h : ∀ w ∈ t, w < 2 ^ 64) (i : Nat) :
    t[i]?.getD 0 < 2 ^ 64 := by
  cases hi : t[i]? with
  | none => simp
  | some w =>
    simp
    exact h w (List.getElem?_mem hi)

theorem testBit_word_high {t : List Nat} (h : ∀ w ∈ t, w < 2 ^ 64) (i c : Nat) (hc : 64 ≤ c) :
    (t[i]?.getD 0).testBit c = false :=
  Nat.testBit_lt_two_pow
    (Nat.lt_of_lt_of_le (getD_lt_of_words h i) (Nat.pow_le_pow_right (by decide) hc))

theorem get_elem_testBit {qf : quotient_filter} (ok : TableOK qf) {idx : Nat}
    (hidx : qf.elem_bits * idx < 2 ^ 64) (j : Nat) :
    (get_elem qf idx).testBit j
      = (decide (j < qf.elem_bits) && tbit qf.table (qf.elem_bits * idx + j)) := by
  have hb := ok.eb_pos
  have hl := ok.eb_le
  unfold get_elem tbit
  simp only [Nat.mod_eq_of_lt hidx, ok.mask, List.getD_eq_getElem?_getD]
  generalize hB : qf.elem_bits * idx = B
  have hs : B % 64 < 64 := Nat.mod_lt _ (by decide)
  split
  · rename_i hsp
    have hlm : B % 64 + qf.elem_bits - 64 < 64 := by omega
    rw [LOW_MASK_eq hlm]
    have e1 : qf.elem_bits - (B % 64 + qf.elem_bits - 64) = 64 - B % 64 := by omega
    have e2 : 64 - B % 64 < 64 := by omega
    simp only [e1, testBit_shl64 _ _ _ e2, testBit_shr64 _ _ _ hs, Nat.testBit_or,
      Nat.testBit_and, Nat.testBit_two_pow_sub_one]
    by_cases hj : j < 64 - B % 64
    · have e3 : (B + j) / 64 = B / 64 := by omega
      have e4 : (B + j) % 64 = B % 64 + j := by omega
      have : j < qf.elem_bits := by omega
      have : ¬ (j ≥ 64 - B % 64) := by omega
      simp [*]
    · have hz := testBit_word_high ok.words (B / 64) (B % 64 + j) (by omega)
      by_cases hj2 : j < qf.elem_bits
      · have e3 : (B + j) / 64 = B / 64 + 1 := by omega
        have e4 : (B + j) % 64 = j - (64 - B % 64) := by omega
        have : j - (64 - B % 64) < B % 64 + qf.elem_bits - 64 := by omega
        have : j ≥ 64 - B % 64 := by omega
        have : j < 64 := by omega
        simp [*]
      · have : ¬ (j - (64 - B % 64) < B % 64 + qf.elem_bits - 64) := by omega
        simp [*]
  · rename_i hsp
    simp only [testBit_shr64 _ _ _ hs, Nat.testBit_and, Nat.testBit_two_pow_sub_one]
    by_cases hj : j < qf.elem_bits
    · have e3 : (B + j) / 64 = B / 64 := by omega
      have e4 : (B + j) % 64 = B % 64 + j := by omega
      simp [*]
    · simp [*]

theorem getD_set (t : List Nat) (i j a : Nat) :
    (t.set i a)[j]?.getD 0 = if i = j ∧ i < t.length then a else t[j]?.getD 0 := by
  by_cases h : i = j
  · subst h
    by_cases hl : i < t.length
    · simp [hl]
    · have h1 : (t.set i a)[i]? = none := List.getElem?_eq_none (by simp; omega)
      have h2 : t[i]? = none := List.getElem?_eq_none (by omega)
      simp [hl, h1, h2]
  · simp [h, List.getElem?_set_ne h]

theorem set_elem_fields (qf : quotient_filter) (idx elt : Nat) :
    (set_elem qf idx elt).qbits = qf.qbits ∧ (set_elem qf idx elt).rbits = qf.rbits ∧
    (set_elem qf idx elt).elem_bits = qf.elem_bits ∧ (set_elem qf idx elt).entries = qf.entries ∧
    (set_elem qf idx elt).index_mask = qf.index_mask ∧ (set_elem qf idx elt).rmask = qf.rmask ∧
    (set_elem qf idx elt).elem_mask = qf.elem_mask ∧ (set_elem qf idx elt).max_size = qf.max_size ∧
    (set_elem qf idx elt).table.length = qf.table.length := by
  unfold set_elem
  simp only
  split <;> simp

theorem set_elem_tbit {qf : quotient_filter} (ok : TableOK qf) {idx : Nat}
    (hidx : qf.elem_bits * idx < 2 ^ 64)
    (hlen : qf.elem_bits * idx + qf.elem_bits ≤ 64 * qf.table.length) (elt k : Nat) :
    tbit (set_elem qf idx elt).table k
      = if qf.elem_bits * idx ≤ k ∧ k < qf.elem_bits * idx + qf.elem_bits
        then elt.testBit (k - qf.elem_bits * idx) else tbit qf.table k := by
  have hb := ok.eb_pos
  have hl := ok.eb_le
  unfold set_elem tbit
  simp only [Nat.mod_eq_of_lt hidx, ok.mask, List.getD_eq_getElem?_getD]
  generalize hB : qf.elem_bits * idx = B at *
  have hs : B % 64 < 64 := Nat.mod_lt _ (by decide)
  have hk : k % 64 < 64 := Nat.mod_lt _ (by decide)
  split
  · rename_i hsp
    have hlm : B % 64 + qf.elem_bits - 64 < 64 := by omega
    rw [LOW_MASK_eq hlm]
    have e1 : qf.elem_bits - (B % 64 + qf.elem_bits - 64) = 64 - B % 64 := by omega
    have e2 : 64 - B % 64 < 64 := by omega
    simp only [e1, getD_set, List.length_set]
    have hl0 : B / 64 < qf.table.length := by omega
    have hl1 : B / 64 + 1 < qf.table.length := by omega
    by_cases c1 : k / 64 = B / 64 + 1
    · have c2 : ¬ (B / 64 = k / 64) := by omega
      simp only [c1, hl1, and_self, if_true, true_and, Nat.testBit_or, Nat.testBit_and,
        testBit_not64, testBit_shr64 _ _ _ e2, Nat.testBit_two_pow_sub_one, hk, decide_True,
        Bool.true_and, show ¬ (B / 64 = B / 64 + 1) by omega, false_and, if_false]
      by_cases c3 : k < B + qf.elem_bits
      · have : B ≤ k := by omega
        have : k % 64 < B % 64 + qf.elem_bits - 64 := by omega
        have : 64 - B % 64 + k % 64 = k - B := by omega
        have : 64 - B % 64 + k % 64 < qf.elem_bits := by omega
        have : k - B < qf.elem_bits := by omega
        simp [*]
      · have : ¬ (k % 64 < B % 64 + qf.elem_bits - 64) := by omega
        have hz : (elt.testBit (64 - B % 64 + k % 64) && decide (64 - B % 64 + k % 64 < qf.elem_bits)) = false := by
          have : ¬ (64 - B % 64 + k % 64 < qf.elem_bits) := by omega
          simp [this]
        simp [*]
    · by_cases c2 : k / 64 = B / 64
      · simp only [c2, hl0, and_self, if_true, show ¬ (B / 64 + 1 = B / 64) by omega, false_and,
          if_false, Nat.testBit_or, Nat.testBit_and, testBit_not64, testBit_shl64 _ _ _ hs,
          Nat.testBit_two_pow_sub_one, hk, decide_True, Bool.true_and]
        by_cases c3 : B ≤ k
        · have : k % 64 ≥ B % 64 := by omega
          have : k % 64 - B % 64 = k - B := by omega
          have : k - B < qf.elem_bits := by omega
          have : k < B + qf.elem_bits := by omega
          simp [*]
        · have : ¬ (k % 64 ≥ B % 64) := by omega
          simp [*]
      · have : ¬ (B / 64 = k / 64) := by omega
        have : ¬ (B / 64 + 1 = k / 64) := by omega
        have : ¬ (B ≤ k ∧ k < B + qf.elem_bits) := by omega
        simp [*]
  · rename_i hsp
    simp only [getD_set]
    have hl0 : B / 64 < qf.table.length := by omega
    by_cases c2 : k / 64 = B / 64
    · simp only [c2, hl0, and_self, if_true, Nat.testBit_or, Nat.testBit_and, testBit_not64,
        testBit_shl64 _ _ _ hs, Nat.testBit_two_pow_sub_one, hk, decide_True, Bool.true_and]
      by_cases c3 : B ≤ k ∧ k < B + qf.elem_bits
      · have : k % 64 ≥ B % 64 := by omega
        have : k % 64 - B % 64 = k - B := by omega
        have : k - B < qf.elem_bits := by omega
        simp [*]
      · by_cases c4 : k % 64 ≥ B % 64
        · have : ¬ (k % 64 - B % 64 < qf.elem_bits) := by omega
          simp [*]
        · simp [*]
    · have : ¬ (B / 64 = k / 64) := by omega
      have : ¬ (B ≤ k ∧ k < B + qf.elem_bits) := by omega
      simp [*]

theorem set_elem_ok {qf : quotient_filter} (ok : TableOK qf) (idx elt : Nat) :
    TableOK (set_elem qf idx elt) := by
  obtain ⟨_, _, h3, _, _, _, h7, _, _⟩ := set_elem_fields qf idx elt
  refine ⟨h3 ▸ ok.eb_pos, h3 ▸ ok.eb_le, by rw [h3, h7]; exact ok.mask, ?_⟩
  have hb := ok.eb_pos
  have hl := ok.eb_le
  have hor : ∀ a b : Nat, a < 2 ^ 64 → b < 2 ^ 64 → a ||| b < 2 ^ 64 :=
    fun a b ha hb => Nat.or_lt_two_pow ha hb
  have hand : ∀ a b : Nat, a < 2 ^ 64 → a &&& b < 2 ^ 64 :=
    fun a b ha => Nat.lt_of_le_of_lt Nat.and_le_left ha
  have hshl : ∀ a n : Nat, shl64 a n < 2 ^ 64 := fun a n => Nat.mod_lt _ (Nat.two_pow_pos 64)
  have hm : qf.elem_mask < 2 ^ 64 := by
    rw [ok.mask]
    have : 2 ^ qf.elem_bits ≤ 2 ^ 64 := Nat.pow_le_pow_right (by decide) (by omega)
    have := Nat.two_pow_pos qf.elem_bits
    omega
  have hset : ∀ (t : List Nat) (i a : Nat), (∀ w ∈ t, w < 2 ^ 64) → a < 2 ^ 64 →
      ∀ w ∈ t.set i a, w < 2 ^ 64 := by
    intro t i a ht ha w hw
    rcases List.mem_or_eq_of_mem_set hw with h | h
    · exact ht w h
    · exact h ▸ ha
  have hg : ∀ (t : List Nat) (i : Nat), (∀ w ∈ t, w < 2 ^ 64) → t.getD i 0 < 2 ^ 64 := by
    intro t i ht
    rw [List.getD_eq_getElem?_getD]
    exact getD_lt_of_words ht i
  have h0 : ∀ w ∈ qf.table.set (qf.elem_bits * idx % 2 ^ 64 / 64)
      (qf.table.getD (qf.elem_bits * idx % 2 ^ 64 / 64) 0 &&&
        not64 (shl64 qf.elem_mask (qf.elem_bits * idx % 2 ^ 64 % 64)) |||
        shl64 (elt &&& qf.elem_mask) (qf.elem_bits * idx % 2 ^ 64 % 64)), w < 2 ^ 64 :=
    hset _ _ _ ok.words (hor _ _ (hand _ _ (hg _ _ ok.words)) (hshl _ _))
  unfold set_elem
  simp only
  split
  · simp only
    refine hset _ _ _ h0 (hor _ _ (hand _ _ (hg _ _ h0)) ?_)
    unfold shr64
    rw [Nat.shiftRight_eq_div_pow]
    exact Nat.lt_of_le_of_lt (Nat.div_le_self _ _) (Nat.lt_of_le_of_lt Nat.and_le_right hm)
  · exact h0

theorem mul_succ_le_of_lt {e i j : Nat} (h : i < j) : e * i + e ≤ e * j := by
  calc e * i + e = e * (i + 1) := by ring
    _ ≤ e * j := Nat.mul_le_mul_left e h

theorem get_elem_lt {qf : quotient_filter} (ok : TableOK qf) {idx : Nat}
    (hidx : qf.elem_bits * idx < 2 ^ 64) : get_elem qf idx < 2 ^ qf.elem_bits := by
  apply Nat.lt_pow_two_of_testBit
  intro i hi
  rw [get_elem_testBit ok hidx]
  have : ¬ (i < qf.elem_bits) := by omega
  simp [this]

theorem get_set_same {qf : quotient_filter} (ok : TableOK qf) {idx : Nat}
    (hidx : qf.elem_bits * idx < 2 ^ 64)
    (hlen : qf.elem_bits * idx + qf.elem_bits ≤ 64 * qf.table.length) (elt : Nat) :
    get_elem (set_elem qf idx elt) idx = elt % 2 ^ qf.elem_bits := by
  obtain ⟨_, _, h3, _, _, _, h7, _, _⟩ := set_elem_fields qf idx elt
  apply Nat.eq_of_testBit_eq
  intro j
  rw [get_elem_testBit (set_elem_ok ok idx elt) (by rw [h3]; exact hidx), h3,
    set_elem_tbit ok hidx hlen, Nat.testBit_mod_two_pow]
  by_cases hj : j < qf.elem_bits
  · have : qf.elem_bits * idx + j < qf.elem_bits * idx + qf.elem_bits := by omega
    simp [hj, this]
  · simp [hj]

theorem get_set_other {qf : quotient_filter} (ok : TableOK qf) {i j : Nat}
    (hi : qf.elem_bits * i < 2 ^ 64) (hj : qf.elem_bits * j < 2 ^ 64)
    (hlen : qf.elem_bits * i + qf.elem_bits ≤ 64 * qf.table.length) (hij : i ≠ j) (elt : Nat) :
    get_elem (set_elem qf i elt) j = get_elem qf j := by
  obtain ⟨_, _, h3, _, _, _, h7, _, _⟩ := set_elem_fields qf i elt
  apply Nat.eq_of_testBit_eq
  intro k
  rw [get_elem_testBit (set_elem_ok ok i elt) (by rw [h3]; exact hj), h3,
    set_elem_tbit ok hi hlen, get_elem_testBit ok hj]
  by_cases hk : k < qf.elem_bits
  · have : ¬ (qf.elem_bits * i ≤ qf.elem_bits * j + k ∧
        qf.elem_bits * j + k < qf.elem_bits * i + qf.elem_bits) := by
      rcases Nat.lt_or_gt_of_ne hij with h | h
      · have := @mul_succ_le_of_lt qf.elem_bits i j h
        omega
      · have := @mul_succ_le_of_lt qf.elem_bits j i h
        omega
    simp [hk, this]
  · simp [hk]


/-! ## Metadata bits -/

theorem and_two_pow_ne_zero (x i : Nat) : (x &&& 2 ^ i != 0) = x.testBit i := by
  have h : x &&& 2 ^ i = if x.testBit i then 2 ^ i else 0 := by
    apply Nat.eq_of_testBit_eq
    intro j
    by_cases hx : x.testBit i
    · by_cases hj : i = j
      · subst hj; simp [hx, Nat.testBit_two_pow]
      · simp [hx, Nat.testBit_two_pow, hj]
    · by_cases hj : i = j
      · subst hj; simp [hx, Nat.testBit_two_pow]
      · simp [hx, Nat.testBit_two_pow, hj]
  rw [h]
  by_cases hx : x.testBit i
  · have := Nat.two_pow_pos i
    simp [hx]
  · simp [hx]

theorem is_occupied_eq (x : Nat) : is_occupied x = x.testBit 0 := and_two_pow_ne_zero x 0
theorem is_continuation_eq (x : Nat) : is_continuation x = x.testBit 1 := and_two_pow_ne_zero x 1
theorem is_shifted_eq (x : Nat) : is_shifted x = x.testBit 2 := and_two_pow_ne_zero x 2

theorem is_empty_element_eq (x : Nat) :
    is_empty_element x = (!is_occupied x && !is_continuation x && !is_shifted x) := by
  rw [is_occupied_eq, is_continuation_eq, is_shifted_eq]
  unfold is_empty_element
  have e : x &&& 7 = x % 2 ^ 3 := Nat.and_pow_two_sub_one_eq_mod x 3
  rw [e]
  have t0 : x.testBit 0 = decide (x % 2 = 1) := by simp
  have t1 : x.testBit 1 = decide (x / 2 % 2 = 1) := by
    have := Nat.testBit_to_div_mod (x := x) (i := 1); simpa using this
  have t2 : x.testBit 2 = decide (x / 4 % 2 = 1) := by
    have := Nat.testBit_to_div_mod (x := x) (i := 2); simpa using this
  rw [t0, t1, t2]
  by_cases h1 : x % 2 = 1 <;> by_cases h2 : x / 2 % 2 = 1 <;> by_cases h3 : x / 4 % 2 = 1 <;>
    simp [h1, h2, h3] <;> omega

theorem testBit_one (j : Nat) : Nat.testBit 1 j = decide (j = 0) := by
  have := @Nat.testBit_two_pow 0 j
  simp at this
  rw [this]
  by_cases h : j = 0 <;> simp [h, eq_comm]

theorem testBit_two (j : Nat) : Nat.testBit 2 j = decide (j = 1) := by
  have := @Nat.testBit_two_pow 1 j
  simp at this
  rw [this]
  by_cases h : j = 1 <;> simp [h, eq_comm]

theorem testBit_four (j : Nat) : Nat.testBit 4 j = decide (j = 2) := by
  have := @Nat.testBit_two_pow 2 j
  simp at this
  rw [this]
  by_cases h : j = 2 <;> simp [h, eq_comm]

theorem testBit_set_occupied (x j : Nat) :
    (set_occupied x).testBit j = (x.testBit j || decide (j = 0)) := by
  simp [set_occupied, testBit_one]

theorem testBit_set_continuation (x j : Nat) :
    (set_continuation x).testBit j = (x.testBit j || decide (j = 1)) := by
  simp [set_continuation, testBit_two]

theorem testBit_set_shifted (x j : Nat) :
    (set_shifted x).testBit j = (x.testBit j || decide (j = 2)) := by
  simp [set_shifted, testBit_four]

theorem testBit_of_lt64 {x : Nat} (hx : x < 2 ^ 64) {j : Nat} (h : x.testBit j = true) : j < 64 := by
  by_contra hj
  have := Nat.testBit_lt_two_pow (Nat.lt_of_lt_of_le hx (Nat.pow_le_pow_right (by decide) (Nat.le_of_not_lt hj)))
  simp [this] at h

theorem testBit_clr_occupied {x : Nat} (hx : x < 2 ^ 64) (j : Nat) :
    (clr_occupied x).testBit j = (x.testBit j && !decide (j = 0)) := by
  simp only [clr_occupied, Nat.testBit_and, testBit_not64, testBit_one]
  by_cases h : x.testBit j
  · have := testBit_of_lt64 hx h
    simp [h, this]
  · simp [h]

theorem testBit_clr_shifted {x : Nat} (hx : x < 2 ^ 64) (j : Nat) :
    (clr_shifted x).testBit j = (x.testBit j && !decide (j = 2)) := by
  simp only [clr_shifted, Nat.testBit_and, testBit_not64, testBit_four]
  by_cases h : x.testBit j
  · have := testBit_of_lt64 hx h
    simp [h, this]
  · simp [h]

theorem get_remainder_set_occupied (x : Nat) : get_remainder (set_occupied x) = get_remainder x := by
  apply Nat.eq_of_testBit_eq; intro j
  simp [get_remainder, testBit_set_occupied]

theorem get_remainder_set_continuation (x : Nat) :
    get_remainder (set_continuation x) = get_remainder x := by
  apply Nat.eq_of_testBit_eq; intro j
  simp [get_remainder, testBit_set_continuation]; omega

theorem get_remainder_set_shifted (x : Nat) : get_remainder (set_shifted x) = get_remainder x := by
  apply Nat.eq_of_testBit_eq; intro j
  simp [get_remainder, testBit_set_shifted]; omega

theorem get_remainder_clr_occupied {x : Nat} (hx : x < 2 ^ 64) :
    get_remainder (clr_occupied x) = get_remainder x := by
  apply Nat.eq_of_testBit_eq; intro j
  simp [get_remainder, testBit_clr_occupied hx]


/-! ## Index arithmetic -/

theorem and_mask_eq_mod (x q : Nat) : x &&& (2 ^ q - 1) = x % 2 ^ q :=
  Nat.and_pow_two_sub_one_eq_mod x q

theorem WF.tableOK {q r : Nat} {qf : quotient_filter} (wf : WF q r qf) : TableOK qf :=
  ⟨by rw [wf.elem_bits_eq]; omega, by rw [wf.elem_bits_eq]; have := wf.r_le; omega,
   by rw [wf.elem_mask_eq, wf.elem_bits_eq], wf.words⟩

theorem WF.n_pos {q r : Nat} {qf : quotient_filter} (_ : WF q r qf) : 0 < 2 ^ q :=
  Nat.two_pow_pos q

theorem WF.n_le {q r : Nat} {qf : quotient_filter} (wf : WF q r qf) : 2 ^ q ≤ 2 ^ 30 :=
  Nat.pow_le_pow_right (by decide) wf.q_le

theorem WF.idx_ok {q r : Nat} {qf : quotient_filter} (wf : WF q r qf) {i : Nat}
    (hi : i < 2 ^ q) :
    qf.elem_bits * i < 2 ^ 64 ∧ qf.elem_bits * i + qf.elem_bits ≤ 64 * qf.table.length := by
  have h1 := wf.n_le
  have h2 := wf.table_len
  have h3 := wf.r_le
  rw [wf.elem_bits_eq]
  have h4 : (r + 3) * i + (r + 3) ≤ 2 ^ q * (r + 3) := by
    calc (r + 3) * i + (r + 3) = (i + 1) * (r + 3) := by ring
      _ ≤ 2 ^ q * (r + 3) := Nat.mul_le_mul_right _ hi
  have h5 : 2 ^ q * (r + 3) ≤ 2 ^ 30 * 63 := Nat.mul_le_mul h1 (by omega)
  constructor
  · have : (2 : Nat) ^ 30 * 63 < 2 ^ 64 := by norm_num
    omega
  · omega

theorem incr_mod {q r : Nat} {qf : quotient_filter} (wf : WF q r qf) (p : Nat) :
    incr qf (p % 2 ^ q) = (p + 1) % 2 ^ q := by
  unfold incr
  rw [wf.index_mask_eq, and_mask_eq_mod]
  have h1 := wf.n_le
  have h2 : p % 2 ^ q < 2 ^ q := Nat.mod_lt _ wf.n_pos
  have h3 : (p % 2 ^ q + 1) % 2 ^ 64 = p % 2 ^ q + 1 := Nat.mod_eq_of_lt (by
    have : (2 : Nat) ^ 30 < 2 ^ 64 - 1 := by norm_num
    omega)
  rw [h3, Nat.mod_add_mod]

theorem decr_mod {q r : Nat} {qf : quotient_filter} (wf : WF q r qf) (p : Nat) :
    decr qf ((p + 1) % 2 ^ q) = p % 2 ^ q := by
  unfold decr
  rw [wf.index_mask_eq, and_mask_eq_mod]
  have h1 := wf.n_le
  have hn := wf.n_pos
  have h2 : (p + 1) % 2 ^ q < 2 ^ q := Nat.mod_lt _ hn
  have h64 : (2 : Nat) ^ 30 < 2 ^ 64 := by norm_num
  have hp : p % 2 ^ q < 2 ^ q := Nat.mod_lt _ hn
  have key : (p + 1) % 2 ^ q = (p % 2 ^ q + 1) % 2 ^ q := (Nat.mod_add_mod _ _ _).symm
  by_cases hc : p % 2 ^ q + 1 = 2 ^ q
  · have h0 : (p + 1) % 2 ^ q = 0 := by rw [key, hc, Nat.mod_self]
    rw [h0]
    have e : (0 + 2 ^ 64 - 1) % 2 ^ 64 = 2 ^ 64 - 1 := by norm_num
    rw [e, ← and_mask_eq_mod]
    have : 2 ^ 64 - 1 &&& 2 ^ q - 1 = 2 ^ q - 1 := by
      apply Nat.eq_of_testBit_eq
      intro j
      have := wf.q_le
      simp only [Nat.testBit_and, Nat.testBit_two_pow_sub_one]
      by_cases hj : j < q
      · have : j < 64 := by omega
        simp [*]
      · simp [*]
    rw [this]; omega
  · have h0 : (p + 1) % 2 ^ q = p % 2 ^ q + 1 := by
      rw [key]; exact Nat.mod_eq_of_lt (by omega)
    rw [h0]
    have e : (p % 2 ^ q + 1 + 2 ^ 64 - 1) % 2 ^ 64 = p % 2 ^ q := by
      have : p % 2 ^ q + 1 + 2 ^ 64 - 1 = p % 2 ^ q + 2 ^ 64 := by omega
      rw [this, Nat.add_mod_right]
      exact Nat.mod_eq_of_lt (by omega)
    rw [e, Nat.mod_mod]

theorem pos_mod_inj {n a x y : Nat} (hx : x < n) (hy : y < n)
    (h : (a + x) % n = (a + y) % n) : x = y := by
  have h1 : Nat.ModEq n (a + x) (a + y) := h
  have h2 : Nat.ModEq n x y := Nat.ModEq.add_left_cancel' a h1
  have h3 : x % n = y % n := h2
  rwa [Nat.mod_eq_of_lt hx, Nat.mod_eq_of_lt hy] at h3

theorem hash_to_quotient_lt {q r : Nat} {qf : quotient_filter} (wf : WF q r qf) (h : Nat) :
    hash_to_quotient qf h < 2 ^ q := by
  unfold hash_to_quotient
  rw [wf.index_mask_eq, and_mask_eq_mod]
  exact Nat.mod_lt _ wf.n_pos

theorem slot_add_period (q : Nat) (qf : quotient_filter) (p : Nat) :
    slot q qf (p + 2 ^ q) = slot q qf p := by
  unfold slot; rw [Nat.add_mod_right]

theorem slot_mod (q : Nat) (qf : quotient_filter) (p : Nat) :
    slot q qf (p % 2 ^ q) = slot q qf p := by
  unfold slot; rw [Nat.mod_mod]

theorem slot_lt {q r : Nat} {qf : quotient_filter} (wf : WF q r qf) (p : Nat) :
    slot q qf p < 2 ^ (r + 3) := by
  have := get_elem_lt wf.tableOK (wf.idx_ok (Nat.mod_lt p wf.n_pos)).1
  rw [wf.elem_bits_eq] at this
  exact this

theorem slot_lt64 {q r : Nat} {qf : quotient_filter} (wf : WF q r qf) (p : Nat) :
    slot q qf p < 2 ^ 64 :=
  Nat.lt_of_lt_of_le (slot_lt wf p) (Nat.pow_le_pow_right (by decide) (by have := wf.r_le; omega))

/-- A property with period `n` that holds on one window of `n` positions holds everywhere. -/
theorem periodic_window {P : Nat → Prop} {n : Nat} (hn : 0 < n)
    (hP : ∀ x, P (x + n) ↔ P x) (o : Nat) (h : ∀ j, j < n → P (o + j)) : ∀ p, P p := by
  have hmul : ∀ t x, P (x + t * n) ↔ P x := by
    intro t
    induction t with
    | zero => intro x; simp
    | succ t ih =>
      intro x
      have : x + (t + 1) * n = (x + t * n) + n := by ring
      rw [this, hP, ih]
  intro p
  -- p + o * n = o + j + t * n
  have h1 : o ≤ p + o * n := by
    have : o * 1 ≤ o * n := Nat.mul_le_mul_left o hn
    omega
  have h2 : p + o * n = o + (p + o * n - o) % n + ((p + o * n - o) / n) * n := by
    have := Nat.mod_add_div' (p + o * n - o) n
    omega
  rw [← hmul o p, h2, hmul]
  exact h _ (Nat.mod_lt _ hn)


/-! ## Consequences of the invariant -/

theorem not_empty_of_continuation {x : Nat} (h : is_continuation x = true) :
    is_empty_element x = false := by
  rw [is_empty_element_eq, h]; simp

theorem not_empty_of_shifted {x : Nat} (h : is_shifted x = true) :
    is_empty_element x = false := by
  rw [is_empty_element_eq, h]; simp

theorem not_empty_of_occupied {x : Nat} (h : is_occupied x = true) :
    is_empty_element x = false := by
  rw [is_empty_element_eq, h]; simp

theorem slot_add_mul (q : Nat) (qf : quotient_filter) (p t : Nat) :
    slot q qf (p + t * 2 ^ q) = slot q qf p := by
  unfold slot; rw [Nat.add_mul_mod_self_right]

theorem Inv.D_add_mul {q r : Nat} {qf : quotient_filter} {D : Nat → Nat} (inv : Inv q r qf D)
    (p t : Nat) : D (p + t * 2 ^ q) = D p := by
  induction t with
  | zero => simp
  | succ t ih =>
    have : p + (t + 1) * 2 ^ q = (p + t * 2 ^ q) + 2 ^ q := by ring
    rw [this, inv.per, ih]

theorem window_rep {n : Nat} (hn : 0 < n) (o p : Nat) : ∃ j t, j < n ∧ p + o * n = o + j + t * n := by
  have h1 : o ≤ p + o * n := by
    have : o * 1 ≤ o * n := Nat.mul_le_mul_left o hn
    omega
  refine ⟨(p + o * n - o) % n, (p + o * n - o) / n, Nat.mod_lt _ hn, ?_⟩
  have := Nat.mod_add_div' (p + o * n - o) n
  omega

theorem Inv.D_add_le {q r : Nat} {qf : quotient_filter} {D : Nat → Nat} (inv : Inv q r qf D)
    (x j : Nat) : D (x + j) ≤ D x + j := by
  induction j with
  | zero => simp
  | succ j ih =>
    by_cases h : D (x + j + 1) = 0
    · show D (x + j + 1) ≤ _
      omega
    · have := (inv.adj (x + j) h).2
      show D (x + j + 1) ≤ _
      omega

theorem Inv.D_lt {q r : Nat} {qf : quotient_filter} {D : Nat → Nat} (inv : Inv q r qf D)
    (p : Nat) : D p < 2 ^ q := by
  obtain ⟨a, ha⟩ := inv.anchor
  obtain ⟨j, t, hj, e⟩ := window_rep inv.wf.n_pos a p
  have h1 := inv.D_add_mul p a
  have h2 := inv.D_add_mul (a + j) t
  have h3 := inv.D_add_le a j
  rw [e, h2] at h1
  omega

theorem Inv.chain {q r : Nat} {qf : quotient_filter} {D : Nat → Nat} (inv : Inv q r qf D)
    {c k : Nat} (hne : is_empty_element (slot q qf (c + k)) = false) (hD : k ≤ D (c + k)) :
    ∀ i, i ≤ k → is_empty_element (slot q qf (c + (k - i))) = false ∧ k - i ≤ D (c + (k - i)) := by
  intro i
  induction i with
  | zero => intro _; exact ⟨hne, hD⟩
  | succ i ih =>
    intro hi
    obtain ⟨_, h2⟩ := ih (by omega)
    have e : c + (k - i) = c + (k - (i + 1)) + 1 := by omega
    rw [e] at h2
    have h3 : D (c + (k - (i + 1)) + 1) ≠ 0 := by omega
    obtain ⟨h4, h5⟩ := inv.adj _ h3
    exact ⟨h4, by omega⟩

theorem Inv.chain' {q r : Nat} {qf : quotient_filter} {D : Nat → Nat} (inv : Inv q r qf D)
    {c k : Nat} (hne : is_empty_element (slot q qf (c + k)) = false) (hD : k ≤ D (c + k)) :
    ∀ j, j ≤ k → is_empty_element (slot q qf (c + j)) = false ∧ j ≤ D (c + j) := by
  intro j hj
  have := inv.chain hne hD (k - j) (by omega)
  have e : k - (k - j) = j := by omega
  rwa [e] at this

/-- With the cluster start at `b`, an entry whose quotient lies `c < 2^q` slots after `b`
sits less than `2^q` slots after `b`. -/
theorem Inv.in_window {q r : Nat} {qf : quotient_filter} {D : Nat → Nat} (inv : Inv q r qf D)
    {b x c : Nat} (hb : D b = 0) (hc : c < 2 ^ q) (h : D (b + x) + c = x) : x < 2 ^ q := by
  by_contra hx
  have h1 := inv.per (b + (x - 2 ^ q))
  have e : b + (x - 2 ^ q) + 2 ^ q = b + x := by omega
  rw [e] at h1
  have h2 := inv.D_add_le b (x - 2 ^ q)
  omega

/-! ## The loops of `find_run_index` -/

theorem cluster_start_loop_spec {q r : Nat} {qf : quotient_filter} (wf : WF q r qf) (b : Nat)
    (h0 : is_shifted (slot q qf b) = false) :
    ∀ (φ fuel : Nat), (∀ j, j < φ → is_shifted (slot q qf (b + j + 1)) = true) → φ < fuel →
      cluster_start_loop qf fuel ((b + φ) % 2 ^ q) = some (b % 2 ^ q) := by
  intro φ
  induction φ with
  | zero =>
    intro fuel _ hf
    obtain ⟨f, rfl⟩ : ∃ f, fuel = f + 1 := ⟨fuel - 1, by omega⟩
    unfold cluster_start_loop
    have : is_shifted (get_elem qf (b % 2 ^ q)) = false := h0
    simp [this]
  | succ φ ih =>
    intro fuel hs hf
    obtain ⟨f, rfl⟩ : ∃ f, fuel = f + 1 := ⟨fuel - 1, by omega⟩
    unfold cluster_start_loop
    have h1 : is_shifted (get_elem qf ((b + (φ + 1)) % 2 ^ q)) = true := hs φ (by omega)
    rw [if_pos h1]
    have : decr qf ((b + (φ + 1)) % 2 ^ q) = (b + φ) % 2 ^ q := decr_mod wf (b + φ)
    rw [this]
    exact ih f (fun j hj => hs j (by omega)) (by omega)

theorem next_run_loop_spec {q r : Nat} {qf : quotient_filter} (wf : WF q r qf) :
    ∀ (k s fuel : Nat), (∀ j, j < k → is_continuation (slot q qf (s + 1 + j)) = true) →
      is_continuation (slot q qf (s + 1 + k)) = false → k < fuel →
      next_run_loop qf fuel (s % 2 ^ q) = some ((s + 1 + k) % 2 ^ q) := by
  intro k
  induction k with
  | zero =>
    intro s fuel _ h0 hf
    obtain ⟨f, rfl⟩ : ∃ f, fuel = f + 1 := ⟨fuel - 1, by omega⟩
    unfold next_run_loop
    simp only [incr_mod wf]
    have : is_continuation (get_elem qf ((s + 1) % 2 ^ q)) = false := h0
    simp [this]
  | succ k ih =>
    intro s fuel hs h0 hf
    obtain ⟨f, rfl⟩ : ∃ f, fuel = f + 1 := ⟨fuel - 1, by omega⟩
    unfold next_run_loop
    simp only [incr_mod wf]
    have h1 : is_continuation (get_elem qf ((s + 1) % 2 ^ q)) = true := hs 0 (by omega)
    rw [if_pos h1]
    have := ih (s + 1) f (fun j hj => by
      have := hs (j + 1) (by omega)
      have e : s + 1 + (j + 1) = s + 1 + 1 + j := by omega
      rwa [e] at this) (by
      have e : s + 1 + (k + 1) = s + 1 + 1 + k := by omega
      rwa [e] at h0) (by omega)
    rw [this]
    have e : s + 1 + (k + 1) = s + 1 + 1 + k := by omega
    rw [e]

theorem next_occupied_loop_spec {q r : Nat} {qf : quotient_filter} (wf : WF q r qf) :
    ∀ (k s fuel : Nat), (∀ j, j < k → is_occupied (slot q qf (s + 1 + j)) = false) →
      is_occupied (slot q qf (s + 1 + k)) = true → k < fuel →
      next_occupied_loop qf fuel (s % 2 ^ q) = some ((s + 1 + k) % 2 ^ q) := by
  intro k
  induction k with
  | zero =>
    intro s fuel _ h0 hf
    obtain ⟨f, rfl⟩ : ∃ f, fuel = f + 1 := ⟨fuel - 1, by omega⟩
    unfold next_occupied_loop
    simp only [incr_mod wf]
    have : is_occupied (get_elem qf ((s + 1) % 2 ^ q)) = true := h0
    simp [this]
  | succ k ih =>
    intro s fuel hs h0 hf
    obtain ⟨f, rfl⟩ : ∃ f, fuel = f + 1 := ⟨fuel - 1, by omega⟩
    unfold next_occupied_loop
    simp only [incr_mod wf]
    have h1 : is_occupied (get_elem qf ((s + 1) % 2 ^ q)) = false := hs 0 (by omega)
    simp only [h1, Bool.not_false, if_true]
    have := ih (s + 1) f (fun j hj => by
      have := hs (j + 1) (by omega)
      have e : s + 1 + (j + 1) = s + 1 + 1 + j := by omega
      rwa [e] at this) (by
      have e : s + 1 + (k + 1) = s + 1 + 1 + k := by omega
      rwa [e] at h0) (by omega)
    rw [this]
    have e : s + 1 + (k + 1) = s + 1 + 1 + k := by omega
    rw [e]


theorem back_scan (D : Nat → Nat) (a : Nat) (ha : D a = 0) :
    ∀ j, ∃ b φ, b + φ = a + j ∧ φ ≤ j ∧ D b = 0 ∧ ∀ i, i < φ → D (b + i + 1) ≠ 0 := by
  intro j
  induction j with
  | zero => exact ⟨a, 0, rfl, Nat.le_refl _, ha, fun i hi => absurd hi (Nat.not_lt_zero _)⟩
  | succ j ih =>
    by_cases h : D (a + j + 1) = 0
    · exact ⟨a + j + 1, 0, rfl, Nat.zero_le _, h, fun i hi => absurd hi (Nat.not_lt_zero _)⟩
    · obtain ⟨b, φ, h1, h2, h3, h4⟩ := ih
      refine ⟨b, φ + 1, by omega, by omega, h3, ?_⟩
      intro i hi
      by_cases hi2 : i < φ
      · exact h4 i hi2
      · have : b + i + 1 = a + j + 1 := by omega
        rw [this]; exact h

theorem Inv.cluster_start {q r : Nat} {qf : quotient_filter} {D : Nat → Nat} (inv : Inv q r qf D)
    {fq : Nat} (hne : is_empty_element (slot q qf fq) = false) :
    ∃ b φ, (b + φ) % 2 ^ q = fq % 2 ^ q ∧ φ < 2 ^ q ∧ D b = 0 ∧
      (∀ i, i < φ → D (b + i + 1) ≠ 0) ∧
      (∀ j, j ≤ φ → is_empty_element (slot q qf (b + j)) = false) := by
  obtain ⟨a, ha⟩ := inv.anchor
  obtain ⟨j, t, hj, e⟩ := window_rep inv.wf.n_pos a fq
  have ha' : D (a + t * 2 ^ q) = 0 := by rw [inv.D_add_mul]; exact ha
  obtain ⟨b, φ, h1, h2, h3, h4⟩ := back_scan D (a + t * 2 ^ q) ha' j
  have hmod : (b + φ) % 2 ^ q = fq % 2 ^ q := by
    have : b + φ = fq + a * 2 ^ q := by omega
    rw [this, Nat.add_mul_mod_self_right]
  refine ⟨b, φ, hmod, by omega, h3, h4, ?_⟩
  intro i hi
  by_cases hi2 : i < φ
  · exact (inv.adj (b + i) (h4 i hi2)).1
  · have : i = φ := by omega
    subst this
    have : slot q qf (b + i) = slot q qf fq := by
      unfold slot; rw [hmod]
    rw [this]; exact hne

theorem Inv.not_continuation_of_D_zero {q r : Nat} {qf : quotient_filter} {D : Nat → Nat}
    (inv : Inv q r qf D) {p : Nat} (h : D (p + 1) = 0) :
    is_continuation (slot q qf (p + 1)) = false := by
  by_cases hne : is_empty_element (slot q qf (p + 1)) = false
  · by_contra hc
    have hc' : is_continuation (slot q qf (p + 1)) = true := by simpa using hc
    have := (inv.cont p hne).1 hc'
    omega
  · rw [is_empty_element_eq] at hne
    by_contra hc
    have hc' : is_continuation (slot q qf (p + 1)) = true := by simpa using hc
    simp [hc'] at hne

theorem run_index_step {q r : Nat} {qf qf1 : quotient_filter} {D : Nat → Nat}
    (inv : Inv q r qf D) {fq : Nat} (view : OccView q qf qf1 fq) {b φ : Nat}
    (hb : D b = 0) (hφ : φ < 2 ^ q)
    (hfull : ∀ j, j ≤ φ → is_empty_element (slot q qf (b + j)) = false)
    (hfq : (b + φ) % 2 ^ q = fq) {β σ : Nat} (I : RunInv q qf qf1 D b φ β σ) (hlt : β < φ) :
    ∃ k0 k1, β + 1 + k0 ≤ φ ∧ σ + 1 + k1 ≤ 2 ^ q ∧
      (∀ j, j < k0 → is_occupied (slot q qf1 (b + β + 1 + j)) = false) ∧
      is_occupied (slot q qf1 (b + β + 1 + k0)) = true ∧
      (∀ j, j < k1 → is_continuation (slot q qf1 (b + σ + 1 + j)) = true) ∧
      is_continuation (slot q qf1 (b + σ + 1 + k1)) = false ∧
      RunInv q qf qf1 D b φ (β + 1 + k0) (σ + 1 + k1) := by
  obtain ⟨hneσ, hDσ⟩ := I.run hlt
  have hn := inv.wf.n_pos
  have hσ : σ < 2 ^ q := inv.in_window hb (by omega) hDσ
  have hoccφ : is_occupied (slot q qf1 (b + φ)) = true := by
    rw [view.oc]; simp [hfq]
  -- the next occupied slot
  have ex0 : ∃ k, is_occupied (slot q qf1 (b + β + 1 + k)) = true :=
    ⟨φ - β - 1, by
      have : b + β + 1 + (φ - β - 1) = b + φ := by omega
      rw [this]; exact hoccφ⟩
  have hk0 := Nat.find_spec ex0
  have hk0min : ∀ j, j < Nat.find ex0 → is_occupied (slot q qf1 (b + β + 1 + j)) = false := by
    intro j hj
    have := Nat.find_min ex0 hj
    simpa using this
  have hk0le : Nat.find ex0 ≤ φ - β - 1 := Nat.find_min' ex0 (by
      have : b + β + 1 + (φ - β - 1) = b + φ := by omega
      rw [this]; exact hoccφ)
  generalize Nat.find ex0 = k0 at hk0 hk0min hk0le
  -- the next run start
  have hbn : is_continuation (slot q qf (b + 2 ^ q)) = false := by
    have e : b + 2 ^ q = (b + 2 ^ q - 1) + 1 := by omega
    rw [e]
    apply inv.not_continuation_of_D_zero
    rw [← e, inv.per]; exact hb
  have ex1 : ∃ k, is_continuation (slot q qf (b + σ + 1 + k)) = false :=
    ⟨2 ^ q - σ - 1, by
      have : b + σ + 1 + (2 ^ q - σ - 1) = b + 2 ^ q := by omega
      rw [this]; exact hbn⟩
  have hk1 := Nat.find_spec ex1
  have hk1min : ∀ j, j < Nat.find ex1 → is_continuation (slot q qf (b + σ + 1 + j)) = true := by
    intro j hj
    have := Nat.find_min ex1 hj
    simpa using this
  have hk1le : Nat.find ex1 ≤ 2 ^ q - σ - 1 := Nat.find_min' ex1 (by
      have : b + σ + 1 + (2 ^ q - σ - 1) = b + 2 ^ q := by omega
      rw [this]; exact hbn)
  generalize Nat.find ex1 = k1 at hk1 hk1min hk1le
  -- the run of `β` fills the positions from `σ` to `σ + k1`
  have hrun : ∀ i, i ≤ k1 →
      is_empty_element (slot q qf (b + σ + i)) = false ∧ D (b + σ + i) + β = σ + i := by
    intro i
    induction i with
    | zero => intro _; exact ⟨hneσ, hDσ⟩
    | succ i ih =>
      intro hi
      obtain ⟨_, h2⟩ := ih (by omega)
      have hc := hk1min i (by omega)
      have e : b + σ + 1 + i = b + σ + i + 1 := by omega
      rw [e] at hc
      have hne := not_empty_of_continuation hc
      have := (inv.cont (b + σ + i) hne).1 hc
      exact ⟨hne, by show D (b + σ + i + 1) + β = _; omega⟩
  have hbefore : ∀ j, j < σ + 1 + k1 →
      is_empty_element (slot q qf (b + j)) = false ∧ j < D (b + j) + (β + 1 + k0) := by
    intro j hj
    by_cases hj2 : j < σ
    · obtain ⟨h1, h2⟩ := I.before j hj2
      exact ⟨h1, by omega⟩
    · obtain ⟨h1, h2⟩ := hrun (j - σ) (by omega)
      have e : b + σ + (j - σ) = b + j := by omega
      rw [e] at h1 h2
      exact ⟨h1, by omega⟩
  have hhere : is_empty_element (slot q qf (b + (σ + 1 + k1))) = false →
      D (b + (σ + 1 + k1)) + (β + 1 + k0) ≤ σ + 1 + k1 := by
    intro hne
    have e : b + (σ + 1 + k1) = b + σ + k1 + 1 := by omega
    have e' : b + σ + 1 + k1 = b + σ + k1 + 1 := by omega
    rw [e] at hne ⊢
    rw [e'] at hk1
    have h1 : D (b + σ + k1 + 1) ≠ D (b + σ + k1) + 1 := by
      intro h
      have := (inv.cont (b + σ + k1) hne).2 h
      rw [this] at hk1; exact absurd hk1 (by decide)
    have h2 := inv.D_add_le (b + σ + k1) 1
    have h3 := (hrun k1 (Nat.le_refl _)).2
    have h2' : D (b + σ + k1 + 1) ≤ D (b + σ + k1) + 1 := h2
    by_contra hcon
    -- the canonical slot of the entry at `σ + 1 + k1` is occupied and lies before `β + 1 + k0`
    have hc : ∃ j, j < k0 ∧ D (b + σ + k1 + 1) + (β + 1 + j) = σ + 1 + k1 :=
      ⟨σ + 1 + k1 - D (b + σ + k1 + 1) - β - 1, by omega, by omega⟩
    obtain ⟨j, hj, hj2⟩ := hc
    have hocc : is_occupied (slot q qf (b + β + 1 + j)) = true := by
      rw [inv.occ]
      refine ⟨D (b + σ + k1 + 1), ?_, ?_⟩
      · have : b + β + 1 + j + D (b + σ + k1 + 1) = b + σ + k1 + 1 := by omega
        rw [this]; exact hne
      · have : b + β + 1 + j + D (b + σ + k1 + 1) = b + σ + k1 + 1 := by omega
        rw [this]
    have := hk0min j hj
    rw [view.oc, hocc] at this
    simp at this
  refine ⟨k0, k1, by omega, by omega, hk0min, hk0, ?_, ?_, ?_⟩
  · intro j hj; rw [view.ct]; exact hk1min j hj
  · rw [view.ct]; exact hk1
  · refine ⟨by omega, by
      have e : b + (β + 1 + k0) = b + β + 1 + k0 := by omega
      rw [e]; exact hk0, hbefore, hhere, ?_⟩
    intro hlt'
    -- the run of `β + 1 + k0` exists in the table
    have hocc : is_occupied (slot q qf (b + (β + 1 + k0))) = true := by
      have h := hk0
      have e : b + β + 1 + k0 = b + (β + 1 + k0) := by omega
      rw [e, view.oc] at h
      have hne : ¬ ((b + (β + 1 + k0)) % 2 ^ q = fq) := by
        intro h'
        rw [← hfq] at h'
        have := pos_mod_inj (by omega) hφ h'
        omega
      simpa [hne] using h
    obtain ⟨k, hk1', hk2⟩ := (inv.occ _).1 hocc
    have hch := inv.chain' hk1' (by omega)
    have hx : σ + 1 + k1 ≤ β + 1 + k0 + k := by
      by_contra hcon
      have := (hbefore (β + 1 + k0 + k) (by omega)).2
      have e : b + (β + 1 + k0 + k) = b + (β + 1 + k0) + k := by omega
      rw [e] at this
      omega
    have hne : is_empty_element (slot q qf (b + (σ + 1 + k1))) = false := by
      by_cases h : β + 1 + k0 ≤ σ + 1 + k1
      · have := (hch (σ + 1 + k1 - (β + 1 + k0)) (by omega)).1
        have e : b + (β + 1 + k0) + (σ + 1 + k1 - (β + 1 + k0)) = b + (σ + 1 + k1) := by omega
        rwa [e] at this
      · exact hfull _ (by omega)
    refine ⟨hne, ?_⟩
    have h1 := hhere hne
    have h2 := inv.D_add_le (b + (σ + 1 + k1)) (β + 1 + k0 + k - (σ + 1 + k1))
    have e : b + (σ + 1 + k1) + (β + 1 + k0 + k - (σ + 1 + k1)) = b + (β + 1 + k0) + k := by omega
    rw [e] at h2
    omega


theorem run_index_loop_spec {q r : Nat} {qf qf1 : quotient_filter} {D : Nat → Nat}
    (inv : Inv q r qf D) (wf1 : WF q r qf1) {fq : Nat} (view : OccView q qf qf1 fq) {b φ : Nat}
    (hb : D b = 0) (hφ : φ < 2 ^ q)
    (hfull : ∀ j, j ≤ φ → is_empty_element (slot q qf (b + j)) = false)
    (hfq : (b + φ) % 2 ^ q = fq) :
    ∀ (m β σ fuel : Nat), φ - β ≤ m → RunInv q qf qf1 D b φ β σ → 2 ^ q + m < fuel →
      ∃ σ', run_index_loop qf1 fq fuel ((b + β) % 2 ^ q) ((b + σ) % 2 ^ q)
          = some ((b + σ') % 2 ^ q) ∧ RunInv q qf qf1 D b φ φ σ' := by
  intro m
  induction m with
  | zero =>
    intro β σ fuel hm I hf
    have hβ : β = φ := by have := I.le; omega
    subst hβ
    obtain ⟨f, rfl⟩ : ∃ f, fuel = f + 1 := ⟨fuel - 1, by omega⟩
    refine ⟨σ, ?_, I⟩
    unfold run_index_loop
    simp [hfq]
  | succ m ih =>
    intro β σ fuel hm I hf
    obtain ⟨f, rfl⟩ : ∃ f, fuel = f + 1 := ⟨fuel - 1, by omega⟩
    by_cases hβ : β = φ
    · subst hβ
      refine ⟨σ, ?_, I⟩
      unfold run_index_loop
      simp [hfq]
    · have hlt : β < φ := by have := I.le; omega
      obtain ⟨k0, k1, h1, h2, h3, h4, h5, h6, I'⟩ :=
        run_index_step inv view hb hφ hfull hfq I hlt
      have hne : (b + β) % 2 ^ q ≠ fq := by
        intro h'
        rw [← hfq] at h'
        have := pos_mod_inj (by omega) hφ h'
        omega
      have r1 := next_run_loop_spec wf1 k1 (b + σ) f h5 h6 (by omega)
      have r2 := next_occupied_loop_spec wf1 k0 (b + β) f h3 h4 (by omega)
      obtain ⟨σ', h7, h8⟩ := ih (β + 1 + k0) (σ + 1 + k1) f (by omega) I' (by omega)
      refine ⟨σ', ?_, h8⟩
      unfold run_index_loop
      rw [if_pos hne, r1, r2]
      have e1 : b + β + 1 + k0 = b + (β + 1 + k0) := by omega
      have e2 : b + σ + 1 + k1 = b + (σ + 1 + k1) := by omega
      simp only [e1, e2]
      exact h7

/-- What `find_run_index` returns: with the cluster start at position `b` and `fq` at `b + φ`,
the result `b + σ` is the first position that is empty or holds an entry whose quotient is
at or after `fq`. -/
theorem find_run_index_spec {q r : Nat} {qf qf1 : quotient_filter} {D : Nat → Nat}
    (inv : Inv q r qf D) (wf1 : WF q r qf1) {fq : Nat} (view : OccView q qf qf1 fq)
    (hfq : fq < 2 ^ q) (hne : is_empty_element (slot q qf fq) = false)
    {fuel : Nat} (hf : 2 * 2 ^ q < fuel) :
    ∃ b φ σ, (b + φ) % 2 ^ q = fq ∧ φ < 2 ^ q ∧ D b = 0 ∧
      (∀ j, j ≤ φ → is_empty_element (slot q qf (b + j)) = false) ∧
      find_run_index fuel qf1 fq = some ((b + σ) % 2 ^ q) ∧
      (∀ j, j < σ → is_empty_element (slot q qf (b + j)) = false ∧ j < D (b + j) + φ) ∧
      (is_empty_element (slot q qf (b + σ)) = false → D (b + σ) + φ ≤ σ) ∧ φ ≤ σ := by
  obtain ⟨b, φ, h1, h2, h3, h4, h5⟩ := inv.cluster_start hne
  rw [Nat.mod_eq_of_lt hfq] at h1
  have hb0 : is_empty_element (slot q qf b) = false := h5 0 (Nat.zero_le _)
  have c1 := cluster_start_loop_spec wf1 b (by
      rw [view.sh]
      by_contra h
      have h' : is_shifted (slot q qf b) = true := by simpa using h
      exact ((inv.shf b hb0).1 h') h3) φ fuel (by
      intro j hj
      rw [view.sh]
      exact (inv.shf _ (by
        have := h5 (j + 1) (by omega)
        exact this)).2 (h4 j hj)) (by omega)
  have I0 : RunInv q qf qf1 D b φ 0 0 := by
    refine ⟨Nat.zero_le _, ?_, fun j hj => absurd hj (Nat.not_lt_zero _), fun _ => by
      show D b + 0 ≤ 0
      omega, fun _ => ⟨hb0, by show D b + 0 = 0; omega⟩⟩
    rw [view.oc]
    have : is_occupied (slot q qf (b + 0)) = true := by
      rw [inv.occ]
      exact ⟨0, hb0, h3⟩
    rw [this]; rfl
  obtain ⟨σ, h6, I⟩ := run_index_loop_spec inv wf1 view h3 h2 h5 h1 φ 0 0 fuel (by omega) I0
    (by omega)
  refine ⟨b, φ, σ, h1, h2, h3, h5, ?_, I.before, I.here, ?_⟩
  · unfold find_run_index
    rw [h1] at c1
    rw [c1]
    exact h6
  · by_contra hcon
    have h7 := h5 σ (by omega)
    have := I.here h7
    omega


/-! ## Scanning a run -/

theorem slot_congr (q : Nat) (qf : quotient_filter) {x y : Nat} (h : x % 2 ^ q = y % 2 ^ q) :
    slot q qf x = slot q qf y := by
  unfold slot; rw [h]

theorem Inv.D_mod {q r : Nat} {qf : quotient_filter} {D : Nat → Nat} (inv : Inv q r qf D)
    (x : Nat) : D (x % 2 ^ q) = D x := by
  have := inv.D_add_mul (x % 2 ^ q) (x / 2 ^ q)
  rw [Nat.mod_add_div'] at this
  exact this.symm

theorem Inv.D_congr {q r : Nat} {qf : quotient_filter} {D : Nat → Nat} (inv : Inv q r qf D)
    {x y : Nat} (h : x % 2 ^ q = y % 2 ^ q) : D x = D y := by
  rw [← inv.D_mod x, ← inv.D_mod y, h]

theorem add_mod_congr {n a b : Nat} (h : a % n = b % n) (k : Nat) :
    (a + k) % n = (b + k) % n := by
  rw [Nat.add_mod, h, ← Nat.add_mod]

theorem scan_run_spec {q r : Nat} {qf : quotient_filter} (wf : WF q r qf) (fr : Nat) :
    ∀ (k u fuel : Nat), is_continuation (slot q qf (u + 1 + k)) = false → k < fuel →
      ∃ i res, i ≤ k ∧ scan_run qf fr fuel (u % 2 ^ q) = some res ∧
        (∀ j, j < i → get_remainder (slot q qf (u + j)) < fr ∧
          is_continuation (slot q qf (u + j + 1)) = true) ∧
        ((res = Scan.found ((u + i) % 2 ^ q) ∧ get_remainder (slot q qf (u + i)) = fr) ∨
         (res = Scan.greater ((u + i) % 2 ^ q) ∧ fr < get_remainder (slot q qf (u + i))) ∨
         (res = Scan.ended ((u + i + 1) % 2 ^ q) ∧ get_remainder (slot q qf (u + i)) < fr ∧
            is_continuation (slot q qf (u + i + 1)) = false)) := by
  intro k
  induction k with
  | zero =>
    intro u fuel h0 hf
    obtain ⟨f, rfl⟩ : ∃ f, fuel = f + 1 := ⟨fuel - 1, by omega⟩
    unfold scan_run
    simp only [incr_mod wf]
    have hs : get_elem qf (u % 2 ^ q) = slot q qf u := rfl
    have hs1 : get_elem qf ((u + 1) % 2 ^ q) = slot q qf (u + 1) := rfl
    rw [hs, hs1]
    have h0' : is_continuation (slot q qf (u + 1)) = false := h0
    by_cases c1 : get_remainder (slot q qf u) = fr
    · exact ⟨0, _, Nat.le_refl _, by rw [if_pos c1]; rfl, fun j hj => absurd hj (Nat.not_lt_zero _),
        Or.inl ⟨rfl, c1⟩⟩
    · by_cases c2 : get_remainder (slot q qf u) > fr
      · exact ⟨0, _, Nat.le_refl _, by rw [if_neg c1, if_pos c2]; rfl,
          fun j hj => absurd hj (Nat.not_lt_zero _), Or.inr (Or.inl ⟨rfl, c2⟩)⟩
      · refine ⟨0, _, Nat.le_refl _, by rw [if_neg c1, if_neg c2, h0']; rfl,
          fun j hj => absurd hj (Nat.not_lt_zero _), Or.inr (Or.inr ⟨rfl, by
            show get_remainder (slot q qf u) < fr
            omega, h0'⟩)⟩
  | succ k ih =>
    intro u fuel h0 hf
    obtain ⟨f, rfl⟩ : ∃ f, fuel = f + 1 := ⟨fuel - 1, by omega⟩
    have hs : get_elem qf (u % 2 ^ q) = slot q qf u := rfl
    have hs1 : get_elem qf ((u + 1) % 2 ^ q) = slot q qf (u + 1) := rfl
    by_cases c1 : get_remainder (slot q qf u) = fr
    · refine ⟨0, _, Nat.zero_le _, ?_, fun j hj => absurd hj (Nat.not_lt_zero _), Or.inl ⟨rfl, c1⟩⟩
      unfold scan_run
      simp only [hs]
      rw [if_pos c1]; rfl
    · by_cases c2 : get_remainder (slot q qf u) > fr
      · refine ⟨0, _, Nat.zero_le _, ?_, fun j hj => absurd hj (Nat.not_lt_zero _),
          Or.inr (Or.inl ⟨rfl, c2⟩)⟩
        unfold scan_run
        simp only [hs]
        rw [if_neg c1, if_pos c2]; rfl
      · have c3 : get_remainder (slot q qf u) < fr := by omega
        by_cases c4 : is_continuation (slot q qf (u + 1)) = true
        · have e : u + 1 + (k + 1) = u + 1 + 1 + k := by omega
          rw [e] at h0
          obtain ⟨i, res, h1, h2, h3, h4⟩ := ih (u + 1) f h0 (by omega)
          refine ⟨i + 1, res, by omega, ?_, ?_, ?_⟩
          · unfold scan_run
            simp only [incr_mod wf, hs, hs1]
            rw [if_neg c1, if_neg c2, if_pos c4]
            exact h2
          · intro j hj
            cases j with
            | zero => exact ⟨c3, c4⟩
            | succ j =>
              have := h3 j (by omega)
              have e1 : u + (j + 1) = u + 1 + j := by omega
              rw [e1]; exact this
          · have e1 : u + (i + 1) = u + 1 + i := by omega
            rw [e1]; exact h4
        · have c4' : is_continuation (slot q qf (u + 1)) = false := by simpa using c4
          refine ⟨0, _, Nat.zero_le _, ?_, fun j hj => absurd hj (Nat.not_lt_zero _),
            Or.inr (Or.inr ⟨rfl, c3, c4'⟩)⟩
          unfold scan_run
          simp only [incr_mod wf, hs, hs1]
          rw [if_neg c1, if_neg c2, c4']; rfl

/-- Entries on the positions `u .. u + t` all have the quotient of the entry at `u` when the
entry at `u + t` has it. -/
theorem Inv.run_segment {q r : Nat} {qf : quotient_filter} {D : Nat → Nat} (inv : Inv q r qf D)
    {u t : Nat} (hne : is_empty_element (slot q qf (u + t)) = false) (h : D (u + t) = D u + t) :
    ∀ j, j < t → is_continuation (slot q qf (u + j + 1)) = true ∧
      is_empty_element (slot q qf (u + j + 1)) = false ∧ D (u + j + 1) = D u + j + 1 ∧
      D (u + j) = D u + j := by
  have hD : ∀ j, j ≤ t → D (u + j) = D u + j := by
    intro j hj
    have h1 := inv.D_add_le u j
    have h2 := inv.D_add_le (u + j) (t - j)
    have e : u + j + (t - j) = u + t := by omega
    rw [e] at h2
    omega
  intro j hj
  have h1 := hD (j + 1) (by omega)
  have h2 := hD j (by omega)
  have hne' : is_empty_element (slot q qf (u + j + 1)) = false := by
    by_cases hj2 : j + 1 = t
    · have e : u + j + 1 = u + t := by omega
      rw [e]; exact hne
    · have h3 := hD (j + 2) (by omega)
      exact (inv.adj (u + j + 1) (by
        have e : u + (j + 2) = u + j + 1 + 1 := by omega
        rw [e] at h3; omega)).1
  have h1' : D (u + j + 1) = D u + j + 1 := h1
  exact ⟨(inv.cont (u + j) hne').2 (by omega), hne', h1', h2⟩

theorem Inv.rem_mono {q r : Nat} {qf : quotient_filter} {D : Nat → Nat} (inv : Inv q r qf D)
    (u : Nat) : ∀ t, (∀ j, j < t → is_continuation (slot q qf (u + j + 1)) = true) →
      ∀ j, j < t → get_remainder (slot q qf (u + j)) < get_remainder (slot q qf (u + t)) := by
  intro t
  induction t with
  | zero => intro _ j hj; exact absurd hj (Nat.not_lt_zero _)
  | succ t ih =>
    intro hc j hj
    have h1 := inv.rem (u + t) (hc t (by omega))
    by_cases hj2 : j = t
    · subst hj2; exact h1
    · have := ih (fun j hj => hc j (by omega)) j (by omega)
      exact Nat.lt_trans this h1


theorem Inv.not_continuation_period {q r : Nat} {qf : quotient_filter} {D : Nat → Nat}
    (inv : Inv q r qf D) {b : Nat} (hb : D b = 0) :
    is_continuation (slot q qf (b + 2 ^ q)) = false := by
  have hn := inv.wf.n_pos
  have e : b + 2 ^ q = (b + 2 ^ q - 1) + 1 := by omega
  rw [e]
  apply inv.not_continuation_of_D_zero
  rw [← e, inv.per]; exact hb

/-- The run of an occupied quotient `fq`, as `find_run_index` and the scan of the run see it. -/
theorem run_lookup {q r : Nat} {qf qf1 : quotient_filter} {D : Nat → Nat}
    (inv : Inv q r qf D) (wf1 : WF q r qf1) {fq : Nat} (view : OccView q qf qf1 fq)
    (hfq : fq < 2 ^ q) (hocc : is_occupied (slot q qf fq) = true)
    {fuel : Nat} (hf : 2 * 2 ^ q < fuel) (fr : Nat) :
    ∃ b φ σ i res, (b + φ) % 2 ^ q = fq ∧ φ < 2 ^ q ∧ D b = 0 ∧ φ ≤ σ ∧ σ < 2 ^ q ∧
      find_run_index fuel qf1 fq = some ((b + σ) % 2 ^ q) ∧
      scan_run qf1 fr fuel ((b + σ) % 2 ^ q) = some res ∧
      (∀ j, j ≤ φ → is_empty_element (slot q qf (b + j)) = false) ∧
      (∀ j, j < σ → is_empty_element (slot q qf (b + j)) = false ∧ j < D (b + j) + φ) ∧
      (∀ j, j ≤ i → is_empty_element (slot q qf (b + σ + j)) = false ∧
        D (b + σ + j) + φ = σ + j) ∧
      (∀ j, j < i → get_remainder (slot q qf (b + σ + j)) < fr ∧
        is_continuation (slot q qf (b + σ + j + 1)) = true) ∧
      ((res = Scan.found ((b + σ + i) % 2 ^ q) ∧ get_remainder (slot q qf (b + σ + i)) = fr) ∨
       (res = Scan.greater ((b + σ + i) % 2 ^ q) ∧
          fr < get_remainder (slot q qf (b + σ + i))) ∨
       (res = Scan.ended ((b + σ + i + 1) % 2 ^ q) ∧
          get_remainder (slot q qf (b + σ + i)) < fr ∧
          is_continuation (slot q qf (b + σ + i + 1)) = false)) ∧
      (Stored q qf D fq fr ↔ res = Scan.found ((b + σ + i) % 2 ^ q)) := by
  have hn := inv.wf.n_pos
  have hne := not_empty_of_occupied hocc
  obtain ⟨b, φ, σ, h1, h2, h3, h4, h5, h6, h7, h8⟩ := find_run_index_spec inv wf1 view hfq hne hf
  have h1' : (b + φ) % 2 ^ q = fq % 2 ^ q := by rw [h1, Nat.mod_eq_of_lt hfq]
  -- positions of entries with quotient `fq`, seen from `b`
  have locate : ∀ k, is_empty_element (slot q qf (fq + k)) = false → D (fq + k) = k →
      is_empty_element (slot q qf (b + φ + k)) = false ∧ D (b + φ + k) = k ∧ σ ≤ φ + k := by
    intro k hk1 hk2
    have c := add_mod_congr h1' k
    have s1 : slot q qf (b + φ + k) = slot q qf (fq + k) := slot_congr q qf c
    have d1 : D (b + φ + k) = D (fq + k) := inv.D_congr c
    refine ⟨by rw [s1]; exact hk1, by rw [d1]; exact hk2, ?_⟩
    by_contra hcon
    have := (h6 (φ + k) (by omega)).2
    have e : b + (φ + k) = b + φ + k := by omega
    rw [e, d1, hk2] at this
    omega
  obtain ⟨k, hk1, hk2⟩ := (inv.occ fq).1 hocc
  obtain ⟨hk1', hk2', hk3⟩ := locate k hk1 hk2
  have hch := inv.chain' hk1' (by omega)
  have hneσ : is_empty_element (slot q qf (b + σ)) = false := by
    have := (hch (σ - φ) (by omega)).1
    have e : b + φ + (σ - φ) = b + σ := by omega
    rwa [e] at this
  have hDσ : D (b + σ) + φ = σ := by
    have a1 := h7 hneσ
    have a2 := inv.D_add_le (b + σ) (φ + k - σ)
    have e : b + σ + (φ + k - σ) = b + φ + k := by omega
    rw [e] at a2
    omega
  have hσ : σ < 2 ^ q := inv.in_window h3 h2 hDσ
  have hbn := inv.not_continuation_period h3
  have hbn1 : is_continuation (slot q qf1 (b + σ + 1 + (2 ^ q - σ - 1))) = false := by
    have e : b + σ + 1 + (2 ^ q - σ - 1) = b + 2 ^ q := by omega
    rw [e, view.ct]; exact hbn
  obtain ⟨i, res, s1, s2, s3, s4⟩ := scan_run_spec wf1 fr (2 ^ q - σ - 1) (b + σ) fuel hbn1
    (by omega)
  simp only [view.rm, view.ct] at s3 s4
  have hrun : ∀ j, j ≤ i → is_empty_element (slot q qf (b + σ + j)) = false ∧
      D (b + σ + j) + φ = σ + j := by
    intro j
    induction j with
    | zero => intro _; exact ⟨hneσ, hDσ⟩
    | succ j ih =>
      intro hj
      obtain ⟨_, a2⟩ := ih (by omega)
      have hc := (s3 j (by omega)).2
      have hne' := not_empty_of_continuation hc
      have := (inv.cont (b + σ + j) hne').1 hc
      exact ⟨hne', by show D (b + σ + j + 1) + φ = _; omega⟩
  refine ⟨b, φ, σ, i, res, h1, h2, h3, h8, hσ, h5, s2, h4, h6, hrun, s3, s4, ?_⟩
  constructor
  · rintro ⟨k2, a1, a2, a3⟩
    obtain ⟨a1', a2', a4⟩ := locate k2 a1 a2
    have c := add_mod_congr h1' k2
    have a3' : get_remainder (slot q qf (b + φ + k2)) = fr := by
      rw [slot_congr q qf c]; exact a3
    have e : b + φ + k2 = b + σ + (φ + k2 - σ) := by omega
    rw [e] at a1' a2' a3'
    have seg := inv.run_segment a1' (by omega)
    have mono := inv.rem_mono (b + σ) (φ + k2 - σ) (fun j hj => (seg j hj).1)
    rcases Nat.lt_trichotomy i (φ + k2 - σ) with hlt | heq | hgt
    · have m1 := mono i hlt
      rw [a3'] at m1
      rcases s4 with ⟨_, s5⟩ | ⟨_, s5⟩ | ⟨_, _, s5⟩
      · omega
      · omega
      · have := (seg i hlt).1
        rw [this] at s5; exact absurd s5 (by decide)
    · rw [← heq] at a3'
      rcases s4 with ⟨s5, _⟩ | ⟨_, s5⟩ | ⟨_, s5, _⟩
      · exact s5
      · omega
      · omega
    · have := (s3 _ hgt).1
      omega
  · intro hres
    have s5 : get_remainder (slot q qf (b + σ + i)) = fr := by
      rcases s4 with ⟨_, s5⟩ | ⟨s5, _⟩ | ⟨s5, _⟩
      · exact s5
      · rw [hres] at s5; exact absurd s5 (by simp)
      · rw [hres] at s5; exact absurd s5 (by simp)
    obtain ⟨a1, a2⟩ := hrun i (Nat.le_refl _)
    have c := add_mod_congr h1' (σ + i - φ)
    have e : b + φ + (σ + i - φ) = b + σ + i := by omega
    rw [e] at c
    refine ⟨σ + i - φ, ?_, ?_, ?_⟩
    · rw [← slot_congr q qf c]; exact a1
    · rw [← inv.D_congr c]; omega
    · rw [← slot_congr q qf c]; exact s5

theorem OccView.refl (q : Nat) (qf : quotient_filter) {fq : Nat}
    (hocc : is_occupied (slot q qf fq) = true) : OccView q qf qf fq := by
  refine ⟨fun _ => rfl, fun _ => rfl, ?_, fun _ => rfl⟩
  intro p
  by_cases h : p % 2 ^ q = fq
  · have : slot q qf p = slot q qf fq := by
      rw [← slot_mod q qf p, h]
    rw [this, hocc]; simp
  · simp [h]

theorem slot_of_lt (q : Nat) (qf : quotient_filter) {i : Nat} (h : i < 2 ^ q) :
    slot q qf i = get_elem qf i := by
  unfold slot; rw [Nat.mod_eq_of_lt h]

/-- The lookup answers whether the fingerprint of the hash is stored. -/
theorem qf_may_contain_spec {q r : Nat} {qf : quotient_filter} {D : Nat → Nat}
    (inv : Inv q r qf D) (hash : Nat) {fuel : Nat} (hf : 2 * 2 ^ q < fuel) :
    ∃ res, qf_may_contain fuel qf hash = some res ∧
      (res = true ↔
        Stored q qf D (hash_to_quotient qf hash) (hash_to_remainder qf hash)) := by
  have hfq := hash_to_quotient_lt inv.wf hash
  unfold qf_may_contain
  simp only []
  rw [← slot_of_lt q qf hfq]
  by_cases hocc : is_occupied (slot q qf (hash_to_quotient qf hash)) = true
  · obtain ⟨b, φ, σ, i, res, h1, h2, h3, h4, h5, h6, h7, h8, h9, h10, h11, h12, h13⟩ :=
      run_lookup inv inv.wf (OccView.refl q qf hocc) hfq hocc hf (hash_to_remainder qf hash)
    rw [hocc, h6]
    simp only [Bool.not_true, Bool.false_eq_true, if_false, h7]
    rw [h13]
    rcases h12 with ⟨e, _⟩ | ⟨e, _⟩ | ⟨e, _⟩ <;> subst e <;> simp
  · have hocc' : is_occupied (slot q qf (hash_to_quotient qf hash)) = false := by simpa using hocc
    rw [hocc']
    refine ⟨false, by simp, ?_⟩
    constructor
    · intro h; exact absurd h (by decide)
    · rintro ⟨k, a1, a2, _⟩
      exact absurd ((inv.occ _).2 ⟨k, a1, a2⟩) hocc


/-! ## Writing slots -/

theorem WF.set_elem {q r : Nat} {qf : quotient_filter} (wf : WF q r qf) (i v : Nat) :
    WF q r (set_elem qf i v) := by
  obtain ⟨h1, h2, h3, h4, h5, h6, h7, h8, h9⟩ := set_elem_fields qf i v
  exact ⟨wf.q_pos, wf.q_le, wf.r_pos, wf.r_le, h1 ▸ wf.qbits_eq, h2 ▸ wf.rbits_eq,
    h3 ▸ wf.elem_bits_eq, h5 ▸ wf.index_mask_eq, h6 ▸ wf.rmask_eq, h7 ▸ wf.elem_mask_eq,
    h8 ▸ wf.max_size_eq, h9 ▸ wf.table_len, (set_elem_ok wf.tableOK i v).words⟩

theorem slot_set_same {q r : Nat} {qf : quotient_filter} (wf : WF q r qf) (p v : Nat)
    (hv : v < 2 ^ (r + 3)) : slot q (set_elem qf (p % 2 ^ q) v) p = v := by
  unfold slot
  have h := wf.idx_ok (Nat.mod_lt p wf.n_pos)
  rw [get_set_same wf.tableOK h.1 h.2, wf.elem_bits_eq, Nat.mod_eq_of_lt hv]

theorem slot_set_other {q r : Nat} {qf : quotient_filter} (wf : WF q r qf) {p p' : Nat} (v : Nat)
    (hne : p' % 2 ^ q ≠ p % 2 ^ q) : slot q (set_elem qf (p % 2 ^ q) v) p' = slot q qf p' := by
  unfold slot
  have h := wf.idx_ok (Nat.mod_lt p wf.n_pos)
  have h' := wf.idx_ok (Nat.mod_lt p' wf.n_pos)
  exact get_set_other wf.tableOK h.1 h'.1 h.2 (Ne.symm hne) v

theorem offset_ne {n s x : Nat} (hx0 : 0 < x) (hx : x < n) : (s + x) % n ≠ s % n := by
  intro h
  have := @pos_mod_inj n s x 0 hx (by omega) h
  omega

/-! ## Bits of the values `insert_into` writes -/

theorem is_occupied_set_shifted (x : Nat) : is_occupied (set_shifted x) = is_occupied x := by
  rw [is_occupied_eq, is_occupied_eq, testBit_set_shifted]; simp

theorem is_occupied_set_continuation (x : Nat) :
    is_occupied (set_continuation x) = is_occupied x := by
  rw [is_occupied_eq, is_occupied_eq, testBit_set_continuation]; simp

theorem is_occupied_set_occupied (x : Nat) : is_occupied (set_occupied x) = true := by
  rw [is_occupied_eq, testBit_set_occupied]; simp

theorem is_occupied_clr_occupied {x : Nat} (hx : x < 2 ^ 64) :
    is_occupied (clr_occupied x) = false := by
  rw [is_occupied_eq, testBit_clr_occupied hx]; simp

theorem is_continuation_set_shifted (x : Nat) :
    is_continuation (set_shifted x) = is_continuation x := by
  simp [is_continuation_eq, testBit_set_shifted]

theorem is_continuation_set_continuation (x : Nat) :
    is_continuation (set_continuation x) = true := by
  simp [is_continuation_eq, testBit_set_continuation]

theorem is_continuation_set_occupied (x : Nat) :
    is_continuation (set_occupied x) = is_continuation x := by
  simp [is_continuation_eq, testBit_set_occupied]

theorem is_continuation_clr_occupied {x : Nat} (hx : x < 2 ^ 64) :
    is_continuation (clr_occupied x) = is_continuation x := by
  simp [is_continuation_eq, testBit_clr_occupied hx]

theorem is_shifted_set_shifted (x : Nat) : is_shifted (set_shifted x) = true := by
  simp [is_shifted_eq, testBit_set_shifted]

theorem is_shifted_set_continuation (x : Nat) :
    is_shifted (set_continuation x) = is_shifted x := by
  simp [is_shifted_eq, testBit_set_continuation]

theorem is_shifted_set_occupied (x : Nat) : is_shifted (set_occupied x) = is_shifted x := by
  simp [is_shifted_eq, testBit_set_occupied]

theorem is_shifted_clr_occupied {x : Nat} (hx : x < 2 ^ 64) :
    is_shifted (clr_occupied x) = is_shifted x := by
  simp [is_shifted_eq, testBit_clr_occupied hx]

theorem set_occupied_lt {x k : Nat} (hx : x < 2 ^ (k + 3)) : set_occupied x < 2 ^ (k + 3) :=
  Nat.or_lt_two_pow hx (by
    have : (2 : Nat) ^ 3 ≤ 2 ^ (k + 3) := Nat.pow_le_pow_right (by decide) (by omega)
    omega)

theorem set_continuation_lt {x k : Nat} (hx : x < 2 ^ (k + 3)) :
    set_continuation x < 2 ^ (k + 3) :=
  Nat.or_lt_two_pow hx (by
    have : (2 : Nat) ^ 3 ≤ 2 ^ (k + 3) := Nat.pow_le_pow_right (by decide) (by omega)
    omega)

theorem set_shifted_lt {x k : Nat} (hx : x < 2 ^ (k + 3)) : set_shifted x < 2 ^ (k + 3) :=
  Nat.or_lt_two_pow hx (by
    have : (2 : Nat) ^ 3 ≤ 2 ^ (k + 3) := Nat.pow_le_pow_right (by decide) (by omega)
    omega)

theorem clr_occupied_le (x : Nat) : clr_occupied x ≤ x := Nat.and_le_left

theorem lt64_of_lt {x k : Nat} (hk : k ≤ 60) (hx : x < 2 ^ (k + 3)) : x < 2 ^ 64 :=
  Nat.lt_of_lt_of_le hx (Nat.pow_le_pow_right (by decide) (by omega))

theorem put_lt {old curr k : Nat} (hc : curr < 2 ^ (k + 3)) : put old curr < 2 ^ (k + 3) := by
  unfold put; split
  · exact set_occupied_lt hc
  · exact hc

theorem carry_lt {prev k : Nat} (hp : prev < 2 ^ (k + 3)) : carry prev < 2 ^ (k + 3) := by
  unfold carry; split
  · exact Nat.lt_of_le_of_lt (clr_occupied_le _) (set_shifted_lt hp)
  · exact set_shifted_lt hp

theorem is_occupied_put (old curr : Nat) :
    is_occupied (put old curr) = (is_occupied old || is_occupied curr) := by
  unfold put
  rw [is_occupied_set_shifted, is_empty_element_eq]
  by_cases h : is_occupied old = true
  · simp [h, is_occupied_set_occupied]
  · have h' : is_occupied old = false := by simpa using h
    simp [h']

theorem is_continuation_put (old curr : Nat) :
    is_continuation (put old curr) = is_continuation curr := by
  unfold put; split
  · exact is_continuation_set_occupied _
  · rfl

theorem is_shifted_put (old curr : Nat) : is_shifted (put old curr) = is_shifted curr := by
  unfold put; split
  · exact is_shifted_set_occupied _
  · rfl

theorem get_remainder_put (old curr : Nat) : get_remainder (put old curr) = get_remainder curr := by
  unfold put; split
  · exact get_remainder_set_occupied _
  · rfl

theorem is_occupied_carry {prev : Nat} (hp : prev < 2 ^ 64) : is_occupied (carry prev) = false := by
  have h4 : set_shifted prev < 2 ^ 64 := Nat.or_lt_two_pow hp (by norm_num)
  unfold carry
  by_cases h : is_occupied (set_shifted prev) = true
  · rw [if_pos h]; exact is_occupied_clr_occupied h4
  · rw [if_neg h]; simpa using h

theorem is_continuation_carry {prev : Nat} (hp : prev < 2 ^ 64) :
    is_continuation (carry prev) = is_continuation prev := by
  have h4 : set_shifted prev < 2 ^ 64 := Nat.or_lt_two_pow hp (by norm_num)
  unfold carry; split
  · rw [is_continuation_clr_occupied h4, is_continuation_set_shifted]
  · exact is_continuation_set_shifted _

theorem is_shifted_carry {prev : Nat} (hp : prev < 2 ^ 64) : is_shifted (carry prev) = true := by
  have h4 : set_shifted prev < 2 ^ 64 := Nat.or_lt_two_pow hp (by norm_num)
  unfold carry; split
  · rw [is_shifted_clr_occupied h4, is_shifted_set_shifted]
  · exact is_shifted_set_shifted _

theorem get_remainder_carry {prev : Nat} (hp : prev < 2 ^ 64) :
    get_remainder (carry prev) = get_remainder prev := by
  have h4 : set_shifted prev < 2 ^ 64 := Nat.or_lt_two_pow hp (by norm_num)
  unfold carry; split
  · rw [get_remainder_clr_occupied h4, get_remainder_set_shifted]
  · exact get_remainder_set_shifted _


/-! ## The shifting loop `insert_into` -/

theorem insert_into_spec {q r : Nat} :
    ∀ (m : Nat) (qf : quotient_filter) (s curr fuel : Nat), WF q r qf → curr < 2 ^ (r + 3) →
      m < 2 ^ q → (∀ j, j < m → is_empty_element (slot q qf (s + j)) = false) →
      is_empty_element (slot q qf (s + m)) = true → m < fuel →
      ∃ qf', insert_into fuel qf (s % 2 ^ q) curr = some qf' ∧ WF q r qf' ∧
        qf'.entries = qf.entries ∧
        slot q qf' s = put (slot q qf s) curr ∧
        (∀ j, j < m → slot q qf' (s + j + 1)
            = put (slot q qf (s + j + 1)) (carry (slot q qf (s + j)))) ∧
        (∀ x, m < x → x < 2 ^ q → slot q qf' (s + x) = slot q qf (s + x)) := by
  intro m
  induction m with
  | zero =>
    intro qf s curr fuel wf hc _ _ hemp hf
    obtain ⟨f, rfl⟩ : ∃ f, fuel = f + 1 := ⟨fuel - 1, by omega⟩
    have hs : get_elem qf (s % 2 ^ q) = slot q qf s := rfl
    have hemp' : is_empty_element (slot q qf s) = true := hemp
    refine ⟨set_elem qf (s % 2 ^ q) curr, ?_, wf.set_elem _ _, (set_elem_fields _ _ _).2.2.2.1,
      ?_, fun j hj => absurd hj (Nat.not_lt_zero _), ?_⟩
    · unfold insert_into
      simp [hs, hemp']
    · rw [slot_set_same wf s curr hc]
      unfold put; simp [hemp']
    · intro x hx0 hx
      exact slot_set_other wf curr (offset_ne hx0 hx)
  | succ m ih =>
    intro qf s curr fuel wf hc hm hfull hemp hf
    obtain ⟨f, rfl⟩ : ∃ f, fuel = f + 1 := ⟨fuel - 1, by omega⟩
    have hs : get_elem qf (s % 2 ^ q) = slot q qf s := rfl
    have hne : is_empty_element (slot q qf s) = false := hfull 0 (by omega)
    have hlt := slot_lt wf s
    have hput : put (slot q qf s) curr < 2 ^ (r + 3) := put_lt hc
    have hcar : carry (slot q qf s) < 2 ^ (r + 3) := carry_lt hlt
    have wf1 := wf.set_elem (s % 2 ^ q) (put (slot q qf s) curr)
    have hother : ∀ x, 0 < x → x < 2 ^ q →
        slot q (set_elem qf (s % 2 ^ q) (put (slot q qf s) curr)) (s + x) = slot q qf (s + x) :=
      fun x hx0 hx => slot_set_other wf _ (offset_ne hx0 hx)
    obtain ⟨qf', h1, h2, h3, h4, h5, h6⟩ := ih (set_elem qf (s % 2 ^ q) (put (slot q qf s) curr))
      (s + 1) (carry (slot q qf s)) f wf1 hcar (by omega)
      (fun j hj => by
        have e : s + 1 + j = s + (j + 1) := by omega
        rw [e, hother _ (by omega) (by omega)]
        exact hfull (j + 1) (by omega))
      (by
        have e : s + 1 + m = s + (m + 1) := by omega
        rw [e, hother _ (by omega) (by omega)]
        exact hemp) (by omega)
    refine ⟨qf', ?_, h2, by rw [h3]; exact (set_elem_fields _ _ _).2.2.2.1, ?_, ?_, ?_⟩
    · unfold insert_into
      simp only [hs, hne, Bool.not_false, if_true, Bool.true_and]
      have e1 : incr (set_elem qf (s % 2 ^ q)
          (if is_occupied (set_shifted (slot q qf s)) = true then set_occupied curr else curr))
          (s % 2 ^ q) = (s + 1) % 2 ^ q := incr_mod (wf.set_elem _ _) s
      rw [e1]
      have e2 : (if is_occupied (set_shifted (slot q qf s)) = true then set_occupied curr
          else curr) = put (slot q qf s) curr := by
        unfold put; simp [hne]
      have e3 : (if is_occupied (set_shifted (slot q qf s)) = true
          then clr_occupied (set_shifted (slot q qf s)) else set_shifted (slot q qf s))
          = carry (slot q qf s) := rfl
      rw [e2, e3]
      exact h1
    · have := h6 (2 ^ q - 1) (by omega) (by have := wf.n_pos; omega)
      have e : s + 1 + (2 ^ q - 1) = s + 2 ^ q := by have := wf.n_pos; omega
      rw [e, slot_add_period, slot_add_period, slot_set_same wf s _ hput] at this
      exact this
    · intro j hj
      cases j with
      | zero =>
        show slot q qf' (s + 1) = put (slot q qf (s + 1)) (carry (slot q qf s))
        rw [h4, hother 1 (by omega) (by omega)]
      | succ j =>
        have := h5 j (by omega)
        have e1 : s + 1 + j + 1 = s + (j + 1) + 1 := by omega
        have e2 : s + 1 + j = s + (j + 1) := by omega
        have o1 : slot q (set_elem qf (s % 2 ^ q) (put (slot q qf s) curr)) (s + (j + 1) + 1)
            = slot q qf (s + (j + 1) + 1) := hother (j + 1 + 1) (by omega) (by omega)
        rw [e1, e2, o1, hother (j + 1) (by omega) (by omega)] at this
        exact this
    · intro x hx0 hx
      have := h6 (x - 1) (by omega) (by omega)
      have e : s + 1 + (x - 1) = s + x := by omega
      rw [e, hother x (by omega) hx] at this
      exact this


/-! ## The invariant after an insertion -/

theorem offset_mod (n s z : Nat) (hn : 0 < n) : (s + z + (n - s % n)) % n = z % n := by
  have h1 := Nat.mod_add_div' s n
  have h2 : s % n < n := Nat.mod_lt _ hn
  have e : s + z + (n - s % n) = z + (s / n + 1) * n := by
    have : (s / n + 1) * n = s / n * n + n := by ring
    omega
  rw [e, Nat.add_mul_mod_self_right]

theorem insD_at {q : Nat} {D : Nat → Nat} (hper : ∀ p, D (p + 2 ^ q) = D p) (s m δ z : Nat) :
    insD q D s m δ (s + z) = if z % 2 ^ q = 0 then δ
      else if z % 2 ^ q ≤ m then D (s + z - 1) + 1 else D (s + z) := by
  unfold insD
  simp only [offset_mod (2 ^ q) s z (Nat.two_pow_pos q)]
  by_cases h0 : z % 2 ^ q = 0
  · simp [h0]
  · have hz : 0 < z := by
      rcases Nat.eq_zero_or_pos z with h | h
      · subst h; simp at h0
      · exact h
    have e : s + z + 2 ^ q - 1 = (s + z - 1) + 2 ^ q := by omega
    rw [e, hper]

theorem insD_per {q : Nat} {D : Nat → Nat} (hper : ∀ p, D (p + 2 ^ q) = D p) (s m δ p : Nat) :
    insD q D s m δ (p + 2 ^ q) = insD q D s m δ p := by
  unfold insD
  have e1 : p + 2 ^ q + (2 ^ q - s % 2 ^ q) = p + (2 ^ q - s % 2 ^ q) + 2 ^ q := by omega
  have e2 : p + 2 ^ q + 2 ^ q - 1 = (p + 2 ^ q - 1) + 2 ^ q := by
    have := Nat.two_pow_pos q; omega
  simp only [e1, Nat.add_mod_right, e2, hper]

theorem slot_red (q : Nat) (qf : quotient_filter) (s z : Nat) :
    slot q qf (s + z) = slot q qf (s + z % 2 ^ q) := by
  apply slot_congr
  exact (Nat.add_mod_mod s z (2 ^ q)).symm

theorem D_red {q : Nat} {D : Nat → Nat} (hper : ∀ p, D (p + 2 ^ q) = D p) (s z : Nat) :
    D (s + z) = D (s + z % 2 ^ q) := by
  have h : ∀ t x, D (x + t * 2 ^ q) = D x := by
    intro t
    induction t with
    | zero => intro x; simp
    | succ t ih =>
      intro x
      have : x + (t + 1) * 2 ^ q = (x + t * 2 ^ q) + 2 ^ q := by ring
      rw [this, hper, ih]
  have := h (z / 2 ^ q) (s + z % 2 ^ q)
  have e : s + z % 2 ^ q + z / 2 ^ q * 2 ^ q = s + z := by
    have := Nat.mod_add_div' z (2 ^ q); omega
  rw [e] at this
  exact this

theorem new_at {q r : Nat} {qf qf' : quotient_filter} {D : Nat → Nat} {fq fr fqp s m : Nat}
    {c0 h : Bool} (inv : Inv q r qf D) (sh : InsertShape q qf qf' D fq fr fqp s m c0 h)
    (z : Nat) : NewAt q qf qf' D (insD q D s m (s - fqp)) fr fqp s m c0 h z := by
  have hn := inv.wf.n_pos
  have hx : z % 2 ^ q < 2 ^ q := Nat.mod_lt _ hn
  have hD := insD_at inv.per s m (s - fqp) z
  have hsz := sh.le_s
  have hltn := sh.lt_n
  by_cases h0 : z % 2 ^ q = 0
  · have e : slot q qf' (s + z) = slot q qf' s := by
      rw [slot_red, h0]; rfl
    rw [if_pos h0] at hD
    refine NewAt.start h0 hD (by rw [e]; exact sh.rem_s) (by rw [e]; exact sh.cont_s)
      (by rw [e]; exact sh.shf_s) ?_
    rw [e, is_empty_element_eq, sh.occ, sh.shf_s]
    by_cases hs : s = fqp
    · have : s % 2 ^ q = fq := by rw [hs]; exact sh.fq_pos
      simp [this]
    · simp [hs]
  · by_cases h1 : z % 2 ^ q ≤ m
    · have hz : 0 < z := by
        rcases Nat.eq_zero_or_pos z with h | h
        · subst h; simp at h0
        · exact h
      rw [if_neg h0, if_pos h1] at hD
      have hz' : (z - 1) % 2 ^ q = z % 2 ^ q - 1 := by
        have h1 := Nat.mod_add_div' z (2 ^ q)
        have e : z - 1 = (z % 2 ^ q - 1) + z / 2 ^ q * 2 ^ q := by omega
        rw [e, Nat.add_mul_mod_self_right]
        exact Nat.mod_eq_of_lt (by omega)
      have e : slot q qf' (s + z) = slot q qf' (s + (z % 2 ^ q - 1) + 1) := by
        rw [slot_red]
        have : s + z % 2 ^ q = s + (z % 2 ^ q - 1) + 1 := by omega
        rw [this]
      have e' : slot q qf (s + (z - 1)) = slot q qf (s + (z % 2 ^ q - 1)) := by
        rw [slot_red, hz']
      have hj : z % 2 ^ q - 1 < m := by omega
      have hD' : insD q D s m (s - fqp) (s + z) = D (s + (z - 1)) + 1 := by
        rw [hD]
        have : s + z - 1 = s + (z - 1) := by omega
        rw [this]
      refine NewAt.moved (z - 1) (by omega) (by rw [hz']; omega) hD'
        (by rw [e, e']; exact sh.rem_in _ hj) ?_ (by rw [e]; exact sh.shf_in _ hj)
        (by rw [e]; exact not_empty_of_shifted (sh.shf_in _ hj))
        (by rw [e']; exact sh.full _ (by omega) (by omega))
      rw [e, e', hz', sh.cont_in _ hj]
    · rw [if_neg h0, if_neg h1] at hD
      have hm : m < z % 2 ^ q := by omega
      have e : slot q qf' (s + z) = slot q qf' (s + z % 2 ^ q) := slot_red q qf' s z
      have e' : slot q qf (s + z) = slot q qf (s + z % 2 ^ q) := slot_red q qf s z
      have hr := sh.rem_out _ hm hx
      have hc := sh.cont_out _ hm hx
      have hs := sh.shf_out _ hm hx
      refine NewAt.same hm hD (by rw [e, e']; exact hr) (by rw [e, e']; exact hc)
        (by rw [e, e']; exact hs) ?_
      rw [e, e', is_empty_element_eq, is_empty_element_eq, hc, hs, sh.occ]
      by_cases hq : (s + z % 2 ^ q) % 2 ^ q = fq
      · -- slot `fq` lies outside the window, so it was already non-empty
        have hlt : fqp < s := by
          by_contra hcon
          have : fqp = s := by omega
          rw [← sh.fq_pos, this] at hq
          have := @pos_mod_inj (2 ^ q) s (z % 2 ^ q) 0 hx hn hq
          omega
        have hne := sh.full fqp (Nat.le_refl _) (by omega)
        have : slot q qf (s + z % 2 ^ q) = slot q qf fqp := by
          apply slot_congr; rw [hq, sh.fq_pos]
        rw [this]
        rw [is_empty_element_eq] at hne
        simp only [hq, decide_True, Bool.or_true, Bool.not_true, Bool.false_and]
        revert hne
        cases is_occupied (slot q qf fqp) <;> cases is_continuation (slot q qf fqp) <;>
          cases is_shifted (slot q qf fqp) <;> simp
      · have hq' : ¬ (s + z) % 2 ^ q = fq := by rw [← Nat.add_mod_mod]; exact hq
        simp [hq, hq']


theorem mod_succ_cases (z n : Nat) (hn : 0 < n) :
    (z % n + 1 = n ∧ (z + 1) % n = 0) ∨ (z % n + 1 < n ∧ (z + 1) % n = z % n + 1) := by
  have h1 : z % n < n := Nat.mod_lt _ hn
  have h2 : (z + 1) % n = (z % n + 1) % n := (Nat.mod_add_mod z n 1).symm
  by_cases h : z % n + 1 = n
  · left; exact ⟨h, by rw [h2, h, Nat.mod_self]⟩
  · right; exact ⟨by omega, by rw [h2]; exact Nat.mod_eq_of_lt (by omega)⟩

theorem InsertShape.old_full {q r : Nat} {qf qf' : quotient_filter} {D : Nat → Nat}
    {fq fr fqp s m : Nat} {c0 h : Bool} (_ : Inv q r qf D)
    (sh : InsertShape q qf qf' D fq fr fqp s m c0 h) {z : Nat} (hz : z % 2 ^ q < m) :
    is_empty_element (slot q qf (s + z)) = false := by
  rw [slot_red]
  exact sh.full _ (by have := sh.le_s; omega) (by omega)

theorem InsertShape.old_hole {q r : Nat} {qf qf' : quotient_filter} {D : Nat → Nat}
    {fq fr fqp s m : Nat} {c0 h : Bool} (_ : Inv q r qf D)
    (sh : InsertShape q qf qf' D fq fr fqp s m c0 h) {z : Nat} (hz : z % 2 ^ q = m) :
    is_empty_element (slot q qf (s + z)) = true := by
  rw [slot_red, hz]
  exact sh.hole

theorem InsertShape.at_start {q r : Nat} {qf qf' : quotient_filter} {D : Nat → Nat}
    {fq fr fqp s m : Nat} {c0 h : Bool} (inv : Inv q r qf D)
    (_ : InsertShape q qf qf' D fq fr fqp s m c0 h) {z : Nat} (hz : z % 2 ^ q = 0) :
    slot q qf (s + z) = slot q qf s ∧ D (s + z) = D s := by
  constructor
  · rw [slot_red, hz]; rfl
  · rw [D_red inv.per, hz]; rfl

theorem InsertShape.at_pred {q r : Nat} {qf qf' : quotient_filter} {D : Nat → Nat}
    {fq fr fqp s m : Nat} {c0 h : Bool} (inv : Inv q r qf D)
    (_sh : InsertShape q qf qf' D fq fr fqp s m c0 h) {z : Nat} (hz : z % 2 ^ q + 1 = 2 ^ q)
    (hlt : fqp < s) : slot q qf (s + z) = slot q qf (s - 1) ∧ D (s + z) = D (s - 1) := by
  have e : s + z % 2 ^ q = (s - 1) + 2 ^ q := by omega
  constructor
  · rw [slot_red, e, slot_add_period]
  · rw [D_red inv.per, e, inv.per]

theorem insert_adj {q r : Nat} {qf qf' : quotient_filter} {D : Nat → Nat}
    {fq fr fqp s m : Nat} {c0 h : Bool} (inv : Inv q r qf D)
    (sh : InsertShape q qf qf' D fq fr fqp s m c0 h) (z : Nat) :
    insD q D s m (s - fqp) (s + (z + 1)) ≠ 0 →
      is_empty_element (slot q qf' (s + z)) = false ∧
      insD q D s m (s - fqp) (s + (z + 1)) ≤ insD q D s m (s - fqp) (s + z) + 1 := by
  have hn := inv.wf.n_pos
  have hle := sh.le_s
  have hlt := sh.lt_n
  have hzn : z % 2 ^ q < 2 ^ q := Nat.mod_lt _ hn
  intro hne
  have A := new_at inv sh z
  have B := new_at inv sh (z + 1)
  have ms := mod_succ_cases z (2 ^ q) hn
  cases B with
  | start b0 bD _ _ _ _ =>
    rw [bD] at hne ⊢
    have hfs : fqp < s := by omega
    have hz1 : z % 2 ^ q + 1 = 2 ^ q := by omega
    obtain ⟨p1, p2⟩ := sh.at_pred inv hz1 hfs
    have hN : is_empty_element (slot q qf (s + z)) = false := by
      rw [p1]; exact sh.full _ (by omega) (by omega)
    have hp := sh.pred hfs
    cases A with
    | start a0 _ _ _ _ _ => omega
    | moved z' az a1 _ _ _ _ _ _ =>
      have := mod_succ_cases z' (2 ^ q) hn
      subst az
      omega
    | same a0 aD _ _ _ aE =>
      rw [aD, aE, p2]
      exact ⟨hN, by omega⟩
  | moved z' bz b1 bD _ _ _ _ bN =>
    have : z' = z := by omega
    subst this
    rw [bD]
    cases A with
    | start a0 aD _ _ _ aE =>
      rw [aD]
      have := (sh.at_start inv a0).2
      have := sh.succ (by omega)
      exact ⟨aE, by omega⟩
    | moved z'' az a1 aD _ _ _ aE _ =>
      subst az
      rw [aD]
      have := inv.D_add_le (s + z'') 1
      exact ⟨aE, by
        have e : s + (z'' + 1) = s + z'' + 1 := rfl
        rw [e]; omega⟩
    | same a0 _ _ _ _ _ => omega
  | same b0 bD _ _ _ _ =>
    rw [bD] at hne ⊢
    obtain ⟨hN, hle'⟩ := inv.adj (s + z) hne
    have hle' : D (s + (z + 1)) ≤ D (s + z) + 1 := hle'
    cases A with
    | start a0 _ _ _ _ _ =>
      have := sh.old_hole inv (show z % 2 ^ q = m by omega)
      rw [this] at hN; exact absurd hN (by decide)
    | moved z'' az a1 _ _ _ _ _ _ =>
      have := mod_succ_cases z'' (2 ^ q) hn
      subst az
      have := sh.old_hole inv (show (z'' + 1) % 2 ^ q = m by omega)
      rw [this] at hN; exact absurd hN (by decide)
    | same a0 aD _ _ _ aE =>
      rw [aD, aE]
      exact ⟨hN, hle'⟩


theorem insert_cont {q r : Nat} {qf qf' : quotient_filter} {D : Nat → Nat}
    {fq fr fqp s m : Nat} {c0 h : Bool} (inv : Inv q r qf D)
    (sh : InsertShape q qf qf' D fq fr fqp s m c0 h) (z : Nat) :
    is_empty_element (slot q qf' (s + (z + 1))) = false →
      (is_continuation (slot q qf' (s + (z + 1))) = true ↔
        insD q D s m (s - fqp) (s + (z + 1)) = insD q D s m (s - fqp) (s + z) + 1) := by
  have hn := inv.wf.n_pos
  have hle := sh.le_s
  have hlt := sh.lt_n
  have hzn : z % 2 ^ q < 2 ^ q := Nat.mod_lt _ hn
  intro hne
  have A := new_at inv sh z
  have B := new_at inv sh (z + 1)
  have ms := mod_succ_cases z (2 ^ q) hn
  cases B with
  | start b0 bD _ bC _ _ =>
    rw [bD, bC]
    have hc := sh.c0_iff
    by_cases hfs : fqp < s
    · have hz1 : z % 2 ^ q + 1 = 2 ^ q := by omega
      obtain ⟨p1, p2⟩ := sh.at_pred inv hz1 hfs
      cases A with
      | start a0 _ _ _ _ _ => omega
      | moved z' az a1 _ _ _ _ _ _ =>
        have := mod_succ_cases z' (2 ^ q) hn
        subst az
        omega
      | same a0 aD _ _ _ aE =>
        rw [aD, p2, hc]
        constructor
        · rintro ⟨_, h2⟩; omega
        · intro h2; exact ⟨hfs, by omega⟩
    · constructor
      · intro h1; exact absurd (hc.1 h1).1 hfs
      · intro h2; omega
  | moved z' bz b1 bD _ bC _ _ bN =>
    have : z' = z := by omega
    subst this
    rw [bD, bC]
    cases A with
    | start a0 aD _ _ _ aE =>
      rw [aD]
      obtain ⟨p1, p2⟩ := sh.at_start inv a0
      have hh := sh.h_iff (by omega)
      rw [p1, p2]
      simp only [a0, decide_True, Bool.true_and]
      rw [hh]
      constructor <;> intro <;> omega
    | moved z'' az a1 aD _ _ _ _ aN =>
      subst az
      have := mod_succ_cases z'' (2 ^ q) hn
      have hz0 : ¬ ((z'' + 1) % 2 ^ q = 0) := by omega
      rw [aD]
      simp only [hz0, decide_False, Bool.false_and, Bool.or_false]
      have := inv.cont (s + z'') bN
      have e : s + (z'' + 1) = s + z'' + 1 := rfl
      rw [e, this]
      constructor <;> intro <;> omega
    | same a0 _ _ _ _ _ => omega
  | same b0 bD _ bC _ bE =>
    rw [bE] at hne
    rw [bD, bC]
    have hold := inv.cont (s + z) hne
    have hold' : is_continuation (slot q qf (s + (z + 1))) = true ↔
        D (s + (z + 1)) = D (s + z) + 1 := hold
    have hole_case : z % 2 ^ q = m →
        (is_continuation (slot q qf (s + (z + 1))) = true ↔
          D (s + (z + 1)) = insD q D s m (s - fqp) (s + z) + 1) := by
      intro hz
      have hh := sh.old_hole inv hz
      have hD0 : D (s + (z + 1)) = 0 := by
        by_contra hcon
        have := (inv.adj (s + z) hcon).1
        rw [hh] at this; exact absurd this (by decide)
      rw [hold', hD0]
      constructor <;> intro <;> omega
    cases A with
    | start a0 _ _ _ _ _ => exact hole_case (by omega)
    | moved z'' az a1 _ _ _ _ _ _ =>
      have := mod_succ_cases z'' (2 ^ q) hn
      subst az
      exact hole_case (by omega)
    | same a0 aD _ _ _ aE =>
      rw [aD]; exact hold'

theorem insert_rem {q r : Nat} {qf qf' : quotient_filter} {D : Nat → Nat}
    {fq fr fqp s m : Nat} {c0 h : Bool} (inv : Inv q r qf D)
    (sh : InsertShape q qf qf' D fq fr fqp s m c0 h) (z : Nat) :
    is_continuation (slot q qf' (s + (z + 1))) = true →
      get_remainder (slot q qf' (s + z)) < get_remainder (slot q qf' (s + (z + 1))) := by
  have hn := inv.wf.n_pos
  have hle := sh.le_s
  have hlt := sh.lt_n
  have hzn : z % 2 ^ q < 2 ^ q := Nat.mod_lt _ hn
  intro hc
  have A := new_at inv sh z
  have B := new_at inv sh (z + 1)
  have ms := mod_succ_cases z (2 ^ q) hn
  cases B with
  | start b0 _ bR bC _ _ =>
    rw [bC] at hc
    have hfs := (sh.c0_iff.1 hc).1
    have hr := sh.r1 hc
    have hz1 : z % 2 ^ q + 1 = 2 ^ q := by omega
    obtain ⟨p1, p2⟩ := sh.at_pred inv hz1 hfs
    rw [bR]
    cases A with
    | start a0 _ _ _ _ _ => omega
    | moved z' az a1 _ _ _ _ _ _ =>
      have := mod_succ_cases z' (2 ^ q) hn
      subst az
      omega
    | same a0 _ aR _ _ _ =>
      rw [aR, p1]; exact hr
  | moved z' bz b1 _ bR bC _ _ bN =>
    have : z' = z := by omega
    subst this
    rw [bC] at hc
    rw [bR]
    cases A with
    | start a0 _ aR _ _ _ =>
      rw [aR]
      obtain ⟨p1, p2⟩ := sh.at_start inv a0
      rw [p1] at hc ⊢
      simp only [a0, decide_True, Bool.true_and] at hc
      exact sh.r2 (by omega) hc
    | moved z'' az a1 _ aR _ _ _ aN =>
      subst az
      have := mod_succ_cases z'' (2 ^ q) hn
      have hz0 : ¬ ((z'' + 1) % 2 ^ q = 0) := by omega
      simp only [hz0, decide_False, Bool.false_and, Bool.or_false] at hc
      rw [aR]
      exact inv.rem (s + z'') hc
    | same a0 _ _ _ _ _ => omega
  | same b0 _ bR bC _ _ =>
    rw [bC] at hc
    rw [bR]
    have hc' : is_continuation (slot q qf (s + z + 1)) = true := hc
    have hN1 := not_empty_of_continuation hc'
    have hD := (inv.cont (s + z) hN1).1 hc'
    have hN := (inv.adj (s + z) (by omega)).1
    cases A with
    | start a0 _ _ _ _ _ =>
      have := sh.old_hole inv (show z % 2 ^ q = m by omega)
      rw [this] at hN; exact absurd hN (by decide)
    | moved z'' az a1 _ _ _ _ _ _ =>
      have := mod_succ_cases z'' (2 ^ q) hn
      subst az
      have := sh.old_hole inv (show (z'' + 1) % 2 ^ q = m by omega)
      rw [this] at hN; exact absurd hN (by decide)
    | same a0 _ aR _ _ _ =>
      rw [aR]; exact inv.rem (s + z) hc'

theorem insert_emp_shf {q r : Nat} {qf qf' : quotient_filter} {D : Nat → Nat}
    {fq fr fqp s m : Nat} {c0 h : Bool} (inv : Inv q r qf D)
    (sh : InsertShape q qf qf' D fq fr fqp s m c0 h) (z : Nat) :
    (is_empty_element (slot q qf' (s + z)) = true → insD q D s m (s - fqp) (s + z) = 0) ∧
    (is_empty_element (slot q qf' (s + z)) = false →
      (is_shifted (slot q qf' (s + z)) = true ↔ insD q D s m (s - fqp) (s + z) ≠ 0)) := by
  have hle := sh.le_s
  have A := new_at inv sh z
  cases A with
  | start a0 aD _ _ aS aE =>
    rw [aD, aE, aS]
    refine ⟨fun h => absurd h (by decide), fun _ => ?_⟩
    simp only [decide_eq_true_eq]
    constructor <;> intro <;> omega
  | moved z' az a1 aD _ _ aS aE _ =>
    rw [aD, aE, aS]
    exact ⟨fun h => absurd h (by decide), fun _ => ⟨fun _ => by omega, fun _ => rfl⟩⟩
  | same a0 aD _ _ aS aE =>
    rw [aD, aE, aS]
    exact ⟨inv.emp _, inv.shf _⟩

theorem insert_anchor {q r : Nat} {qf qf' : quotient_filter} {D : Nat → Nat}
    {fq fr fqp s m : Nat} {c0 h : Bool} (inv : Inv q r qf D)
    (sh : InsertShape q qf qf' D fq fr fqp s m c0 h) :
    insD q D s m (s - fqp) (s + (m + 1)) = 0 := by
  have hn := inv.wf.n_pos
  have hle := sh.le_s
  have hlt := sh.lt_n
  have hm : m < 2 ^ q := by omega
  have ms := mod_succ_cases m (2 ^ q) hn
  have hmm : m % 2 ^ q = m := Nat.mod_eq_of_lt hm
  have A := new_at inv sh (m + 1)
  cases A with
  | start a0 aD _ _ _ _ => rw [aD]; omega
  | moved z' az a1 _ _ _ _ _ _ =>
    have : z' = m := by omega
    subst this; omega
  | same a0 aD _ _ _ _ =>
    rw [aD]
    by_contra hcon
    have := (inv.adj (s + m) hcon).1
    rw [sh.hole] at this; exact absurd this (by decide)


theorem mod_cancel {n s y : Nat} (h : (s + y) % n = s % n) : y % n = 0 := by
  have h1 : Nat.ModEq n (s + y) (s + 0) := h
  have h2 : Nat.ModEq n y 0 := Nat.ModEq.add_left_cancel' s h1
  have h3 : y % n = 0 % n := h2
  rwa [Nat.zero_mod] at h3

/-- The entries stored after an insertion are the entries stored before and the new one. -/
theorem insert_stored {q r : Nat} {qf qf' : quotient_filter} {D : Nat → Nat}
    {fq fr fqp s m : Nat} {c0 h : Bool} (inv : Inv q r qf D)
    (sh : InsertShape q qf qf' D fq fr fqp s m c0 h) (R : Nat → Prop) (z : Nat) :
    (∃ k, is_empty_element (slot q qf' (s + z + k)) = false ∧
        insD q D s m (s - fqp) (s + z + k) = k ∧ R (get_remainder (slot q qf' (s + z + k)))) ↔
      ((∃ k, is_empty_element (slot q qf (s + z + k)) = false ∧ D (s + z + k) = k ∧
          R (get_remainder (slot q qf (s + z + k)))) ∨
        ((s + z) % 2 ^ q = fq ∧ R fr)) := by
  have hn := inv.wf.n_pos
  have hle := sh.le_s
  have hlt := sh.lt_n
  have hδ : fqp + (s - fqp) = s := by omega
  constructor
  · rintro ⟨k, h1, h2, h3⟩
    rw [Nat.add_assoc] at h1 h2 h3
    have A := new_at inv sh (z + k)
    cases A with
    | start a0 aD aR _ _ _ =>
      right
      rw [aD] at h2
      rw [aR] at h3
      refine ⟨?_, h3⟩
      rw [← sh.fq_pos]
      have e : s + z = fqp + (z + k) := by omega
      rw [e, ← Nat.add_mod_mod, a0]; rfl
    | moved z' az a1 aD aR _ _ _ aN =>
      left
      rw [aD] at h2
      rw [aR] at h3
      have e : z' = z + (k - 1) := by omega
      subst e
      refine ⟨k - 1, ?_, ?_, ?_⟩
      · rw [Nat.add_assoc]; exact aN
      · rw [Nat.add_assoc]; omega
      · rw [Nat.add_assoc]; exact h3
    | same a0 aD aR _ _ aE =>
      left
      rw [aD] at h2
      rw [aR] at h3
      rw [aE] at h1
      refine ⟨k, ?_, ?_, ?_⟩
      · rw [Nat.add_assoc]; exact h1
      · rw [Nat.add_assoc]; exact h2
      · rw [Nat.add_assoc]; exact h3
  · rintro (⟨k, h1, h2, h3⟩ | ⟨h1, h2⟩)
    · rw [Nat.add_assoc] at h1 h2 h3
      have A := new_at inv sh (z + k)
      have stay : m < (z + k) % 2 ^ q ∨ (z + k) % 2 ^ q < m := by
        rcases Nat.lt_trichotomy m ((z + k) % 2 ^ q) with h | h | h
        · exact Or.inl h
        · have := sh.old_hole inv h.symm
          rw [this] at h1; exact absurd h1 (by decide)
        · exact Or.inr h
      rcases stay with hs | hs
      · cases A with
        | start a0 _ _ _ _ _ => omega
        | moved z' az a1 _ _ _ _ _ _ =>
          have := mod_succ_cases z' (2 ^ q) hn
          rw [az] at hs
          omega
        | same a0 aD aR _ _ aE =>
          refine ⟨k, ?_, ?_, ?_⟩
          · rw [Nat.add_assoc, aE]; exact h1
          · rw [Nat.add_assoc, aD]; exact h2
          · rw [Nat.add_assoc, aR]; exact h3
      · have B := new_at inv sh (z + k + 1)
        have ms := mod_succ_cases (z + k) (2 ^ q) hn
        cases B with
        | start b0 _ _ _ _ _ => omega
        | moved z' bz b1 bD bR _ _ bE _ =>
          have e : z' = z + k := by omega
          subst e
          have e2 : s + z + (k + 1) = s + (z + k + 1) := by omega
          refine ⟨k + 1, ?_, ?_, ?_⟩
          · rw [e2]; exact bE
          · rw [e2, bD]; omega
          · rw [e2, bR]; exact h3
        | same b0 _ _ _ _ _ => omega
    · have e : (s + (z + (s - fqp))) % 2 ^ q = s % 2 ^ q := by
        have e1 : s + (z + (s - fqp)) = (s + z) + (s - fqp) := by omega
        rw [e1, Nat.add_mod, h1, ← sh.fq_pos, Nat.mod_add_mod, Nat.add_mod_mod, hδ]
      have y0 := mod_cancel e
      have A := new_at inv sh (z + (s - fqp))
      cases A with
      | start a0 aD aR _ _ aE =>
        refine ⟨s - fqp, ?_, ?_, ?_⟩
        · rw [Nat.add_assoc]; exact aE
        · rw [Nat.add_assoc]; exact aD
        · rw [Nat.add_assoc, aR]; exact h2
      | moved z' az a1 _ _ _ _ _ _ =>
        have := mod_succ_cases z' (2 ^ q) hn
        rw [az] at y0
        omega
      | same a0 _ _ _ _ _ => omega

theorem insert_count {q r : Nat} {qf qf' : quotient_filter} {D : Nat → Nat}
    {fq fr fqp s m : Nat} {c0 h : Bool} (inv : Inv q r qf D)
    (sh : InsertShape q qf qf' D fq fr fqp s m c0 h) :
    ((Finset.range (2 ^ q)).filter (fun i => is_empty_element (slot q qf' i) = false)).card
      = ((Finset.range (2 ^ q)).filter (fun i => is_empty_element (slot q qf i) = false)).card
        + 1 := by
  have hn := inv.wf.n_pos
  have hle := sh.le_s
  have hlt := sh.lt_n
  have hm : m < 2 ^ q := by omega
  have hmm : m % 2 ^ q = m := Nat.mod_eq_of_lt hm
  have key : ∀ i, i < 2 ^ q → (is_empty_element (slot q qf' i) = false ↔
      (is_empty_element (slot q qf i) = false ∨ i = (s + m) % 2 ^ q)) := by
    intro i hi
    obtain ⟨j, t, hj, e⟩ := window_rep hn s i
    have hjj : j % 2 ^ q = j := Nat.mod_eq_of_lt hj
    have c : i % 2 ^ q = (s + j) % 2 ^ q := by
      have : (i + s * 2 ^ q) % 2 ^ q = (s + j + t * 2 ^ q) % 2 ^ q := by rw [e]
      rwa [Nat.add_mul_mod_self_right, Nat.add_mul_mod_self_right] at this
    have s1 : slot q qf' i = slot q qf' (s + j) := slot_congr q qf' c
    have s2 : slot q qf i = slot q qf (s + j) := slot_congr q qf c
    have him : i = (s + m) % 2 ^ q ↔ j = m := by
      rw [Nat.mod_eq_of_lt hi] at c
      constructor
      · intro h'
        rw [h'] at c
        exact (pos_mod_inj hm hj c).symm
      · intro h'; rw [c, h']
    rw [s1, s2, him]
    have A := new_at inv sh j
    cases A with
    | start a0 _ _ _ _ aE =>
      rw [aE]
      by_cases h0 : m = 0
      · simp; right; omega
      · have := sh.old_full inv (show j % 2 ^ q < m by omega)
        simp [this]
    | moved z' az a1 _ _ _ _ aE _ =>
      rw [aE]
      have := mod_succ_cases z' (2 ^ q) hn
      subst az
      by_cases h0 : z' + 1 = m
      · simp [h0]
      · have := sh.old_full inv (show (z' + 1) % 2 ^ q < m by omega)
        simp [this]
    | same a0 _ _ _ _ aE =>
      rw [aE]
      constructor
      · intro h'; exact Or.inl h'
      · rintro (h' | h')
        · exact h'
        · omega
  have hnot : (s + m) % 2 ^ q ∉
      (Finset.range (2 ^ q)).filter (fun i => is_empty_element (slot q qf i) = false) := by
    intro hmem
    have := (Finset.mem_filter.1 hmem).2
    rw [slot_mod, sh.hole] at this
    exact absurd this (by decide)
  have heq : (Finset.range (2 ^ q)).filter (fun i => is_empty_element (slot q qf' i) = false)
      = insert ((s + m) % 2 ^ q)
        ((Finset.range (2 ^ q)).filter (fun i => is_empty_element (slot q qf i) = false)) := by
    ext i
    simp only [Finset.mem_filter, Finset.mem_range, Finset.mem_insert]
    constructor
    · rintro ⟨hi, h'⟩
      rcases (key i hi).1 h' with h'' | h''
      · exact Or.inr ⟨hi, h''⟩
      · exact Or.inl h''
    · rintro (h' | ⟨hi, h'⟩)
      · have hi : i < 2 ^ q := by rw [h']; exact Nat.mod_lt _ hn
        exact ⟨hi, (key i hi).2 (Or.inr h')⟩
      · exact ⟨hi, (key i hi).2 (Or.inl h')⟩
  rw [heq, Finset.card_insert_of_not_mem hnot]


/-- An insertion of the described shape keeps the invariant and adds exactly the new
fingerprint to the stored ones. -/
theorem insert_clean {q r : Nat} {qf qf' : quotient_filter} {D : Nat → Nat}
    {fq fr fqp s m : Nat} {c0 h : Bool} (inv : Inv q r qf D)
    (sh : InsertShape q qf qf' D fq fr fqp s m c0 h) (z : Nat) :
    is_empty_element (slot q qf' (s + z)) = true → get_remainder (slot q qf' (s + z)) = 0 := by
  intro he
  cases new_at inv sh z with
  | start _ _ _ _ _ aE => rw [aE] at he; exact absurd he (by decide)
  | moved z' _ _ _ _ _ _ aE _ => rw [aE] at he; exact absurd he (by decide)
  | same _ _ aR _ _ aE =>
    rw [aE] at he
    rw [aR]
    exact inv.clean _ he

theorem insert_inv {q r : Nat} {qf qf' : quotient_filter} {D : Nat → Nat}
    {fq fr fqp s m : Nat} {c0 h : Bool} (inv : Inv q r qf D) (wf' : WF q r qf')
    (hent : qf'.entries = qf.entries + 1)
    (sh : InsertShape q qf qf' D fq fr fqp s m c0 h) :
    Inv q r qf' (insD q D s m (s - fqp)) ∧
    ∀ c fr', Stored q qf' (insD q D s m (s - fqp)) c fr' ↔
      (Stored q qf D c fr' ∨ (c % 2 ^ q = fq ∧ fr' = fr)) := by
  have hn := inv.wf.n_pos
  have hper := insD_per inv.per s m (s - fqp)
  have e1 : ∀ x, x + 2 ^ q + 1 = (x + 1) + 2 ^ q := fun x => by omega
  have e2 : ∀ x k, x + 2 ^ q + k = (x + k) + 2 ^ q := fun x k => by omega
  refine ⟨⟨wf', hper, ⟨_, insert_anchor inv sh⟩, ?_, ?_, ?_, ?_, ?_, ?_, ?_, ?_⟩, ?_⟩
  · exact periodic_window hn (fun x => by simp only [hper, slot_add_period]) s
      (fun j _ => (insert_emp_shf inv sh j).1)
  · exact periodic_window hn (fun x => by simp only [hper, slot_add_period]) s
      (fun j _ => (insert_emp_shf inv sh j).2)
  · exact periodic_window hn (fun x => by simp only [e1, hper, slot_add_period]) s
      (fun j _ => insert_adj inv sh j)
  · exact periodic_window hn (fun x => by simp only [e1, hper, slot_add_period]) s
      (fun j _ => insert_cont inv sh j)
  · exact periodic_window hn (fun x => by simp only [e1, slot_add_period]) s
      (fun j _ => insert_rem inv sh j)
  · refine periodic_window hn (fun x => by simp only [e2, hper, slot_add_period]) s
      (fun j _ => ?_)
    have key := insert_stored inv sh (fun _ => True) j
    simp only [and_true] at key
    rw [key, sh.occ, ← inv.occ]
    simp
  · rw [hent, inv.count, insert_count inv sh]
  · exact periodic_window hn (fun x => by simp only [slot_add_period]) s
      (fun j _ => insert_clean inv sh j)
  · refine periodic_window hn (fun x => ?_) s (fun j _ => ?_)
    · unfold Stored
      simp only [e2, hper, slot_add_period, inv.per, Nat.add_mod_right]
    · intro fr'
      have key := insert_stored inv sh (fun x => x = fr') j
      unfold Stored
      rw [key]
      constructor
      · rintro (h' | ⟨h1, h2⟩)
        · exact Or.inl h'
        · exact Or.inr ⟨h1, h2.symm⟩
      · rintro (h' | ⟨h1, h2⟩)
        · exact Or.inl h'
        · exact Or.inr ⟨h1, h2.symm⟩


/-! ## `qf_insert` -/

theorem hash_to_remainder_lt {q r : Nat} {qf : quotient_filter} (wf : WF q r qf) (h : Nat) :
    hash_to_remainder qf h < 2 ^ r := by
  unfold hash_to_remainder
  rw [wf.rmask_eq, and_mask_eq_mod]
  exact Nat.mod_lt _ (Nat.two_pow_pos r)

theorem testBit_entry {fr r : Nat} (hr : r ≤ 60) (hfr : fr < 2 ^ r) (j : Nat) :
    (shl64 fr 3 &&& not64 7).testBit j = (decide (3 ≤ j) && fr.testBit (j - 3)) := by
  rw [Nat.testBit_and, testBit_shl64 _ _ _ (by decide), testBit_not64]
  have h7 : Nat.testBit 7 j = decide (j < 3) := Nat.testBit_two_pow_sub_one 3 j
  rw [h7]
  by_cases hj : 3 ≤ j
  · by_cases hb : fr.testBit (j - 3) = true
    · have : j - 3 < r := by
        by_contra hcon
        have := Nat.testBit_lt_two_pow (Nat.lt_of_lt_of_le hfr
          (Nat.pow_le_pow_right (by decide) (Nat.le_of_not_lt hcon)))
        rw [this] at hb; exact absurd hb (by decide)
      have h1 : j < 64 := by omega
      have h2 : ¬ j < 3 := by omega
      simp [hj, hb, h1, h2]
    · simp [hb]
  · have h2 : ¬ (j ≥ 3) := hj
    simp [hj, h2]

theorem entry_lt {fr r : Nat} (hr : r ≤ 60) (hfr : fr < 2 ^ r) :
    shl64 fr 3 &&& not64 7 < 2 ^ (r + 3) := by
  apply Nat.lt_pow_two_of_testBit
  intro j hj
  rw [testBit_entry hr hfr]
  have : fr.testBit (j - 3) = false :=
    Nat.testBit_lt_two_pow (Nat.lt_of_lt_of_le hfr (Nat.pow_le_pow_right (by decide) (by omega)))
  simp [this]

theorem entry_bits {fr r : Nat} (hr : r ≤ 60) (hfr : fr < 2 ^ r) :
    is_occupied (shl64 fr 3 &&& not64 7) = false ∧
    is_continuation (shl64 fr 3 &&& not64 7) = false ∧
    is_shifted (shl64 fr 3 &&& not64 7) = false ∧
    get_remainder (shl64 fr 3 &&& not64 7) = fr := by
  refine ⟨?_, ?_, ?_, ?_⟩
  · rw [is_occupied_eq, testBit_entry hr hfr]; rfl
  · rw [is_continuation_eq, testBit_entry hr hfr]; rfl
  · rw [is_shifted_eq, testBit_entry hr hfr]; rfl
  · apply Nat.eq_of_testBit_eq
    intro j
    unfold get_remainder
    rw [Nat.testBit_shiftRight, testBit_entry hr hfr]
    have : 3 + j - 3 = j := by omega
    simp [this]

theorem slot_entries (q : Nat) (qf : quotient_filter) (e p : Nat) :
    slot q { qf with entries := e } p = slot q qf p := rfl

theorem WF.with_entries {q r : Nat} {qf : quotient_filter} (wf : WF q r qf) (e : Nat) :
    WF q r { qf with entries := e } :=
  ⟨wf.q_pos, wf.q_le, wf.r_pos, wf.r_le, wf.qbits_eq, wf.rbits_eq, wf.elem_bits_eq,
    wf.index_mask_eq, wf.rmask_eq, wf.elem_mask_eq, wf.max_size_eq, wf.table_len, wf.words⟩

theorem Inv.entries_le {q r : Nat} {qf : quotient_filter} {D : Nat → Nat} (inv : Inv q r qf D) :
    qf.entries ≤ 2 ^ q := by
  rw [inv.count]
  calc _ ≤ (Finset.range (2 ^ q)).card := Finset.card_filter_le _ _
    _ = 2 ^ q := Finset.card_range _

/-- A table that is not full has an empty slot, and so a first one from any position on. -/
theorem Inv.exists_hole {q r : Nat} {qf : quotient_filter} {D : Nat → Nat} (inv : Inv q r qf D)
    (hlt : qf.entries < 2 ^ q) (p : Nat) :
    ∃ m, m < 2 ^ q ∧ is_empty_element (slot q qf (p + m)) = true ∧
      ∀ j, j < m → is_empty_element (slot q qf (p + j)) = false := by
  have hn := inv.wf.n_pos
  have h1 : ∃ i, i < 2 ^ q ∧ is_empty_element (slot q qf i) = true := by
    by_contra hcon
    have hall : (Finset.range (2 ^ q)).filter
        (fun i => is_empty_element (slot q qf i) = false) = Finset.range (2 ^ q) := by
      apply Finset.filter_true_of_mem
      intro i hi
      by_contra h'
      exact hcon ⟨i, Finset.mem_range.1 hi, by simpa using h'⟩
    have := inv.count
    rw [hall, Finset.card_range] at this
    omega
  obtain ⟨i, hi, hemp⟩ := h1
  obtain ⟨j, t, hj, e⟩ := window_rep hn p i
  have ex : ∃ m, is_empty_element (slot q qf (p + m)) = true := by
    refine ⟨j, ?_⟩
    have : slot q qf (p + j) = slot q qf i := by
      rw [← slot_add_mul q qf (p + j) t, ← e, slot_add_mul]
    rw [this]; exact hemp
  refine ⟨Nat.find ex, ?_, Nat.find_spec ex, ?_⟩
  · have : Nat.find ex ≤ j := Nat.find_min' ex (by
      have : slot q qf (p + j) = slot q qf i := by
        rw [← slot_add_mul q qf (p + j) t, ← e, slot_add_mul]
      rw [this]; exact hemp)
    omega
  · intro k hk
    have := Nat.find_min ex hk
    simpa using this


theorem place_spec {q r : Nat} {qf qf2 : quotient_filter} {D : Nat → Nat}
    {fq fr fqp s m entry1 : Nat} {c0 h : Bool} (inv : Inv q r qf D) (wf2 : WF q r qf2)
    (pv : PreView q qf qf2 fq s h) (he : entry1 < 2 ^ (r + 3))
    (heo : is_occupied entry1 = false) (hec : is_continuation entry1 = c0)
    (hes : is_shifted entry1 = decide (s ≠ fqp)) (her : get_remainder entry1 = fr)
    (fq_pos : fqp % 2 ^ q = fq) (le_s : fqp ≤ s) (lt_n : s + m < fqp + 2 ^ q)
    (full : ∀ p, fqp ≤ p → p < s + m → is_empty_element (slot q qf p) = false)
    (hole : is_empty_element (slot q qf (s + m)) = true)
    (pred : fqp < s → s ≤ D (s - 1) + fqp + 1)
    (succ : 0 < m → D s + fqp ≤ s)
    (c0_iff : c0 = true ↔ (fqp < s ∧ D (s - 1) + fqp + 1 = s))
    (h_iff : 0 < m → ((is_continuation (slot q qf s) || h) = true ↔ D s + fqp = s))
    (r1 : c0 = true → get_remainder (slot q qf (s - 1)) < fr)
    (r2 : 0 < m → (is_continuation (slot q qf s) || h) = true →
      fr < get_remainder (slot q qf s))
    {fuel : Nat} (hf : 2 ^ q < fuel) :
    ∃ qf3, insert_into fuel qf2 (s % 2 ^ q) entry1 = some qf3 ∧ WF q r qf3 ∧
      qf3.entries = qf2.entries ∧ InsertShape q qf qf3 D fq fr fqp s m c0 h := by
  have hn := inv.wf.n_pos
  have hm : m < 2 ^ q := by omega
  obtain ⟨qf3, h1, h2, h3, h4, h5, h6⟩ := insert_into_spec m qf2 s entry1 fuel wf2 he hm
    (fun j hj => by rw [pv.em]; exact full _ (by omega) (by omega))
    (by rw [pv.em]; exact hole) (by omega)
  have l64 : ∀ p, slot q qf2 p < 2 ^ 64 := slot_lt64 wf2
  refine ⟨qf3, h1, h2, h3, ⟨fq_pos, le_s, lt_n, full, hole, ?_, ?_, ?_, ?_, ?_, ?_, ?_, ?_, ?_,
    ?_, pred, succ, c0_iff, h_iff, r1, r2⟩⟩
  · intro p
    obtain ⟨j, t, hj, e⟩ := window_rep hn s p
    have c : p % 2 ^ q = (s + j) % 2 ^ q := by
      have : (p + s * 2 ^ q) % 2 ^ q = (s + j + t * 2 ^ q) % 2 ^ q := by rw [e]
      rwa [Nat.add_mul_mod_self_right, Nat.add_mul_mod_self_right] at this
    rw [slot_congr q qf3 c, slot_congr q qf c, c]
    by_cases hj0 : j = 0
    · subst hj0
      show is_occupied (slot q qf3 s) = _
      rw [h4, is_occupied_put, heo, pv.oc]
      simp
    · by_cases hjm : j ≤ m
      · have := h5 (j - 1) (by omega)
        have e2 : s + (j - 1) + 1 = s + j := by omega
        rw [e2] at this
        rw [this, is_occupied_put, is_occupied_carry (l64 _), pv.oc]
        simp
      · rw [h6 j (by omega) hj, pv.oc]
  · rw [h4, get_remainder_put, her]
  · rw [h4, is_continuation_put, hec]
  · rw [h4, is_shifted_put, hes]
  · intro j hj
    rw [h5 j hj, get_remainder_put, get_remainder_carry (l64 _), pv.rm]
  · intro j hj
    rw [h5 j hj, is_continuation_put, is_continuation_carry (l64 _), pv.ct]
    by_cases hj0 : j = 0
    · subst hj0
      simp [Bool.and_comm]
    · have : (s + j) % 2 ^ q ≠ s % 2 ^ q := offset_ne (by omega) (by omega)
      simp [hj0, this]
  · intro j hj
    rw [h5 j hj, is_shifted_put, is_shifted_carry (l64 _)]
  · intro x hx1 hx2
    rw [h6 x hx1 hx2, pv.rm]
  · intro x hx1 hx2
    rw [h6 x hx1 hx2, pv.ct]
    have : (s + x) % 2 ^ q ≠ s % 2 ^ q := offset_ne (by omega) hx2
    simp [this]
  · intro x hx1 hx2
    rw [h6 x hx1 hx2, pv.sh]

/-- The frame of an insertion next to the cluster start `b`: the first empty slot from `b` on. -/
theorem Inv.frame {q r : Nat} {qf : quotient_filter} {D : Nat → Nat} (inv : Inv q r qf D)
    (hlt : qf.entries < 2 ^ q) {b φ s : Nat} (_hφs : b + φ ≤ s)
    (hfull : ∀ p, b ≤ p → p < s → is_empty_element (slot q qf p) = false) :
    ∃ m, s + m < b + 2 ^ q ∧ is_empty_element (slot q qf (s + m)) = true ∧
      ∀ p, b + φ ≤ p → p < s + m → is_empty_element (slot q qf p) = false := by
  obtain ⟨m0, h1, h2, h3⟩ := inv.exists_hole hlt b
  have hs : s ≤ b + m0 := by
    by_contra hcon
    have := hfull (b + m0) (by omega) (by omega)
    rw [h2] at this; exact absurd this (by decide)
  refine ⟨b + m0 - s, by omega, ?_, ?_⟩
  · have e : s + (b + m0 - s) = b + m0 := by omega
    rw [e]; exact h2
  · intro p hp1 hp2
    have := h3 (p - b) (by omega)
    have e : b + (p - b) = p := by omega
    rwa [e] at this


theorem insert_canonical {q r : Nat} {qf : quotient_filter} {D : Nat → Nat}
    (inv : Inv q r qf D) (hlt : qf.entries < 2 ^ q) (hash fuel : Nat)
    (hemp : is_empty_element (slot q qf (hash_to_quotient qf hash)) = true) :
    InsertOK q r qf D fuel hash := by
  have wf := inv.wf
  have hn := wf.n_pos
  have hfq := hash_to_quotient_lt wf hash
  have hfr := hash_to_remainder_lt wf hash
  have hfqm : hash_to_quotient qf hash % 2 ^ q = hash_to_quotient qf hash :=
    Nat.mod_eq_of_lt hfq
  obtain ⟨eo, ec, es, er⟩ := entry_bits wf.r_le hfr
  have elt := entry_lt wf.r_le hfr
  have hv : set_occupied (shl64 (hash_to_remainder qf hash) 3 &&& not64 7) < 2 ^ (r + 3) :=
    set_occupied_lt elt
  have hent : (set_elem qf (hash_to_quotient qf hash)
      (set_occupied (shl64 (hash_to_remainder qf hash) 3 &&& not64 7))).entries = qf.entries :=
    (set_elem_fields _ _ _).2.2.2.1
  have h32 : (qf.entries + 1) % 2 ^ 32 = qf.entries + 1 := by
    have := wf.n_le
    exact Nat.mod_eq_of_lt (by
      have : (2 : Nat) ^ 30 < 2 ^ 32 - 1 := by norm_num
      omega)
  have hsame : slot q (set_elem qf (hash_to_quotient qf hash)
      (set_occupied (shl64 (hash_to_remainder qf hash) 3 &&& not64 7)))
      (hash_to_quotient qf hash)
      = set_occupied (shl64 (hash_to_remainder qf hash) 3 &&& not64 7) := by
    have := slot_set_same wf (hash_to_quotient qf hash) _ hv
    rwa [hfqm] at this
  have hother : ∀ p, p % 2 ^ q ≠ hash_to_quotient qf hash →
      slot q (set_elem qf (hash_to_quotient qf hash)
        (set_occupied (shl64 (hash_to_remainder qf hash) 3 &&& not64 7))) p = slot q qf p := by
    intro p hp
    have := @slot_set_other q r qf wf (hash_to_quotient qf hash) p
      (set_occupied (shl64 (hash_to_remainder qf hash) 3 &&& not64 7)) (by rw [hfqm]; exact hp)
    rwa [hfqm] at this
  have hx : ∀ x, 0 < x → x < 2 ^ q → (hash_to_quotient qf hash + x) % 2 ^ q
      ≠ hash_to_quotient qf hash := by
    intro x h0 h1 h2
    have := @offset_ne (2 ^ q) (hash_to_quotient qf hash) x h0 h1
    rw [hfqm] at this
    exact this h2
  have sh : InsertShape q qf
      { set_elem qf (hash_to_quotient qf hash)
          (set_occupied (shl64 (hash_to_remainder qf hash) 3 &&& not64 7)) with
        entries := qf.entries + 1 } D
      (hash_to_quotient qf hash) (hash_to_remainder qf hash) (hash_to_quotient qf hash)
      (hash_to_quotient qf hash) 0 false false := by
    refine ⟨hfqm, Nat.le_refl _, by omega, fun p h1 h2 => by omega, hemp, ?_, ?_, ?_, ?_,
      fun j hj => absurd hj (Nat.not_lt_zero _), fun j hj => absurd hj (Nat.not_lt_zero _),
      fun j hj => absurd hj (Nat.not_lt_zero _), ?_, ?_, ?_, fun h => absurd h (Nat.lt_irrefl _),
      fun h => absurd h (Nat.lt_irrefl _), ?_, fun h => absurd h (Nat.lt_irrefl _),
      fun h => absurd h (by decide), fun h => absurd h (Nat.lt_irrefl _)⟩
    · intro p
      rw [slot_entries]
      by_cases hp : p % 2 ^ q = hash_to_quotient qf hash
      · have c : p % 2 ^ q = hash_to_quotient qf hash % 2 ^ q := by rw [hp, hfqm]
        rw [slot_congr q _ c, hsame, is_occupied_set_occupied]
        simp [hp]
      · rw [hother p hp]; simp [hp]
    · rw [slot_entries, hsame, get_remainder_set_occupied, er]
    · rw [slot_entries, hsame, is_continuation_set_occupied, ec]
    · rw [slot_entries, hsame, is_shifted_set_occupied, es]; simp
    · intro x h0 h1; rw [slot_entries, hother _ (hx x h0 h1)]
    · intro x h0 h1; rw [slot_entries, hother _ (hx x h0 h1)]
    · intro x h0 h1; rw [slot_entries, hother _ (hx x h0 h1)]
    · constructor
      · intro h; exact absurd h (by decide)
      · rintro ⟨h, _⟩; exact absurd h (Nat.lt_irrefl _)
  obtain ⟨i1, i2⟩ := insert_inv inv ((wf.set_elem _ _).with_entries _) rfl sh
  refine ⟨_, _, ?_, i1, i2, ?_, ?_, ?_⟩
  · unfold qf_insert
    have h1 : ¬ (qf.entries ≥ qf.max_size) := by rw [wf.max_size_eq]; omega
    have h2 : is_empty_element (get_elem qf (hash_to_quotient qf hash)) = true := by
      rw [← slot_of_lt q qf hfq]; exact hemp
    simp only [h1, if_false, h2, if_true, hent, h32]
  · rintro ⟨k, a1, a2, _⟩
    have : is_empty_element (slot q qf (hash_to_quotient qf hash)) = false :=
      (inv.chain' a1 (by omega) 0 (Nat.zero_le _)).1
    rw [hemp] at this; exact absurd this (by decide)
  · show qf.entries ≤ qf.entries + 1
    omega
  · show qf.entries + 1 ≤ qf.entries + 1
    omega


theorem Stored.congr {q r : Nat} {qf : quotient_filter} {D : Nat → Nat} (inv : Inv q r qf D)
    {c c' : Nat} (h : c % 2 ^ q = c' % 2 ^ q) (fr : Nat) :
    Stored q qf D c fr ↔ Stored q qf D c' fr := by
  unfold Stored
  constructor
  · rintro ⟨k, h1, h2, h3⟩
    have e := add_mod_congr h k
    exact ⟨k, by rw [← slot_congr q qf e]; exact h1, by rw [← inv.D_congr e]; exact h2,
      by rw [← slot_congr q qf e]; exact h3⟩
  · rintro ⟨k, h1, h2, h3⟩
    have e := add_mod_congr h k
    exact ⟨k, by rw [slot_congr q qf e]; exact h1, by rw [inv.D_congr e]; exact h2,
      by rw [slot_congr q qf e]; exact h3⟩

/-- The common end of `qf_insert`: `insert_into` at position `s` and the count of entries. -/
theorem insert_place {q r : Nat} {qf qf2 : quotient_filter} {D : Nat → Nat}
    {fq fr fqp s m entry1 : Nat} {c0 h : Bool} (inv : Inv q r qf D)
    (hlt : qf.entries < 2 ^ q) (wf2 : WF q r qf2) (hent : qf2.entries = qf.entries)
    (pv : PreView q qf qf2 fq s h) (he : entry1 < 2 ^ (r + 3))
    (heo : is_occupied entry1 = false) (hec : is_continuation entry1 = c0)
    (hes : is_shifted entry1 = decide (s ≠ fqp)) (her : get_remainder entry1 = fr)
    (fq_pos : fqp % 2 ^ q = fq) (le_s : fqp ≤ s) (lt_n : s + m < fqp + 2 ^ q)
    (full : ∀ p, fqp ≤ p → p < s + m → is_empty_element (slot q qf p) = false)
    (hole : is_empty_element (slot q qf (s + m)) = true)
    (pred : fqp < s → s ≤ D (s - 1) + fqp + 1)
    (succ : 0 < m → D s + fqp ≤ s)
    (c0_iff : c0 = true ↔ (fqp < s ∧ D (s - 1) + fqp + 1 = s))
    (h_iff : 0 < m → ((is_continuation (slot q qf s) || h) = true ↔ D s + fqp = s))
    (r1 : c0 = true → get_remainder (slot q qf (s - 1)) < fr)
    (r2 : 0 < m → (is_continuation (slot q qf s) || h) = true →
      fr < get_remainder (slot q qf s))
    {fuel : Nat} (hf : 2 ^ q < fuel) :
    ∃ qf3 D', insert_into fuel qf2 (s % 2 ^ q) entry1 = some qf3 ∧
      Inv q r { qf3 with entries := (qf3.entries + 1) % 2 ^ 32 } D' ∧
      (∀ c fr', Stored q { qf3 with entries := (qf3.entries + 1) % 2 ^ 32 } D' c fr' ↔
        (Stored q qf D c fr' ∨ (c % 2 ^ q = fq ∧ fr' = fr))) ∧
      (qf3.entries + 1) % 2 ^ 32 = qf.entries + 1 := by
  obtain ⟨qf3, h1, h2, h3, sh⟩ := place_spec inv wf2 pv he heo hec hes her fq_pos le_s lt_n full
    hole pred succ c0_iff h_iff r1 r2 hf
  have h32 : (qf3.entries + 1) % 2 ^ 32 = qf.entries + 1 := by
    rw [h3, hent]
    have := inv.wf.n_le
    exact Nat.mod_eq_of_lt (by
      have : (2 : Nat) ^ 30 < 2 ^ 32 - 1 := by norm_num
      omega)
  have sh' : InsertShape q qf { qf3 with entries := (qf3.entries + 1) % 2 ^ 32 } D fq fr fqp s m
      c0 h := by
    obtain ⟨a1, a2, a3, a4, a5, a6, a7, a8, a9, a10, a11, a12, a13, a14, a15, a16, a17, a18, a19,
      a20, a21⟩ := sh
    exact ⟨a1, a2, a3, a4, a5, a6, a7, a8, a9, a10, a11, a12, a13, a14, a15, a16, a17, a18, a19,
      a20, a21⟩
  obtain ⟨i1, i2⟩ := insert_inv inv (h2.with_entries _) h32 sh'
  exact ⟨qf3, _, h1, i1, i2, h32⟩

theorem set_occupied_of_occupied {x : Nat} (h : is_occupied x = true) : set_occupied x = x := by
  apply Nat.eq_of_testBit_eq
  intro j
  rw [testBit_set_occupied]
  rw [is_occupied_eq] at h
  by_cases hj : j = 0
  · subst hj; simp [h]
  · simp [hj]

theorem insert_new_run {q r : Nat} {qf : quotient_filter} {D : Nat → Nat}
    (inv : Inv q r qf D) (hlt : qf.entries < 2 ^ q) (hash : Nat) {fuel : Nat}
    (hf : 2 * 2 ^ q < fuel)
    (hne : is_empty_element (slot q qf (hash_to_quotient qf hash)) = false)
    (hocc : is_occupied (slot q qf (hash_to_quotient qf hash)) = false) :
    InsertOK q r qf D fuel hash := by
  have wf := inv.wf
  have hn := wf.n_pos
  have hfq := hash_to_quotient_lt wf hash
  have hfr := hash_to_remainder_lt wf hash
  have hfqm : hash_to_quotient qf hash % 2 ^ q = hash_to_quotient qf hash :=
    Nat.mod_eq_of_lt hfq
  obtain ⟨eo, ec, es, er⟩ := entry_bits wf.r_le hfr
  have elt := entry_lt wf.r_le hfr
  have hT : get_elem qf (hash_to_quotient qf hash) = slot q qf (hash_to_quotient qf hash) :=
    (slot_of_lt q qf hfq).symm
  -- the filter with slot `fq` marked occupied
  have wf1 : WF q r (set_elem qf (hash_to_quotient qf hash)
      (set_occupied (slot q qf (hash_to_quotient qf hash)))) := wf.set_elem _ _
  have hv : set_occupied (slot q qf (hash_to_quotient qf hash)) < 2 ^ (r + 3) :=
    set_occupied_lt (slot_lt wf _)
  have hS1 : ∀ p, slot q (set_elem qf (hash_to_quotient qf hash)
      (set_occupied (slot q qf (hash_to_quotient qf hash)))) p
      = if p % 2 ^ q = hash_to_quotient qf hash then set_occupied (slot q qf p)
        else slot q qf p := by
    intro p
    by_cases hp : p % 2 ^ q = hash_to_quotient qf hash
    · rw [if_pos hp]
      have c : p % 2 ^ q = hash_to_quotient qf hash % 2 ^ q := by rw [hp, hfqm]
      rw [slot_congr q _ c, slot_congr q qf c]
      have := slot_set_same wf (hash_to_quotient qf hash) _ hv
      rwa [hfqm] at this
    · rw [if_neg hp]
      have := @slot_set_other q r qf wf (hash_to_quotient qf hash) p
        (set_occupied (slot q qf (hash_to_quotient qf hash))) (by rw [hfqm]; exact hp)
      rwa [hfqm] at this
  have view : OccView q qf (set_elem qf (hash_to_quotient qf hash)
      (set_occupied (slot q qf (hash_to_quotient qf hash)))) (hash_to_quotient qf hash) := by
    refine ⟨fun p => ?_, fun p => ?_, fun p => ?_, fun p => ?_⟩ <;> rw [hS1] <;>
      by_cases hp : p % 2 ^ q = hash_to_quotient qf hash
    · rw [if_pos hp, is_shifted_set_occupied]
    · rw [if_neg hp]
    · rw [if_pos hp, is_continuation_set_occupied]
    · rw [if_neg hp]
    · rw [if_pos hp, is_occupied_set_occupied]; simp [hp]
    · rw [if_neg hp]; simp [hp]
    · rw [if_pos hp, get_remainder_set_occupied]
    · rw [if_neg hp]
  obtain ⟨b, φ, σ, h1, h2, h3, h4, h5, h6, h7, h8⟩ :=
    find_run_index_spec inv wf1 view hfq hne hf
  obtain ⟨m, f1, f2, f3⟩ := inv.frame hlt (show b + φ ≤ b + σ by omega)
    (fun p hp1 hp2 => by
      have := (h6 (p - b) (by omega)).1
      have e : b + (p - b) = p := by omega
      rwa [e] at this)
  have hσ : σ < 2 ^ q := by omega
  have hidx : ((b + σ) % 2 ^ q ≠ hash_to_quotient qf hash) ↔ b + σ ≠ b + φ := by
    rw [← h1]
    constructor
    · intro h' h''; exact h' (by rw [h''])
    · intro h' h''
      have := pos_mod_inj hσ h2 h''
      omega
  have pv : PreView q qf (set_elem qf (hash_to_quotient qf hash)
      (set_occupied (slot q qf (hash_to_quotient qf hash)))) (hash_to_quotient qf hash)
      (b + σ) false := by
    refine ⟨view.oc, view.sh, view.rm, fun p => by rw [view.ct]; simp, fun p => ?_⟩
    rw [is_empty_element_eq, is_empty_element_eq, view.oc, view.ct, view.sh]
    by_cases hp : p % 2 ^ q = hash_to_quotient qf hash
    · have c : p % 2 ^ q = hash_to_quotient qf hash % 2 ^ q := by rw [hp, hfqm]
      have hne' := hne
      rw [← slot_congr q qf c, is_empty_element_eq] at hne'
      simp only [hp, decide_True, Bool.or_true, Bool.not_true, Bool.false_and]
      exact hne'.symm
    · simp [hp]
  -- no entry has the quotient `fq` yet
  have hnone : ∀ x, is_empty_element (slot q qf (b + x)) = false → D (b + x) + φ ≠ x := by
    intro x hx1 hx2
    have hocc' : is_occupied (slot q qf (b + φ)) = true := by
      rw [inv.occ]
      refine ⟨x - φ, ?_, ?_⟩
      · have e : b + φ + (x - φ) = b + x := by omega
        rw [e]; exact hx1
      · have e : b + φ + (x - φ) = b + x := by omega
        rw [e]; omega
    have c : (b + φ) % 2 ^ q = hash_to_quotient qf hash % 2 ^ q := by rw [h1, hfqm]
    rw [slot_congr q qf c, hocc] at hocc'
    exact absurd hocc' (by decide)
  have hpredlt : b + φ < b + σ → b + σ - 1 < D (b + σ - 1) + (b + φ) := by
    intro hlt'
    have := (h6 (σ - 1) (by omega)).2
    have e : b + (σ - 1) = b + σ - 1 := by omega
    rw [e] at this
    omega
  have hcs : is_continuation (slot q qf (b + σ)) = false := by
    by_contra hcon
    have hc : is_continuation (slot q qf (b + σ)) = true := by simpa using hcon
    have hN := not_empty_of_continuation hc
    have hh := h7 hN
    by_cases hσ0 : σ = 0
    · have e0 : b + σ = b := by omega
      rw [e0] at hc
      have := inv.not_continuation_period h3
      rw [slot_add_period] at this
      rw [this] at hc; exact absurd hc (by decide)
    · have e : b + σ = b + σ - 1 + 1 := by omega
      rw [e] at hc hN
      have := (inv.cont _ hN).1 hc
      rw [← e] at this
      have := hpredlt (by
        by_contra h'
        have : σ = φ := by omega
        exact hnone σ (by rw [e]; exact hN) (by omega))
      have := hnone σ (by rw [e]; exact hN)
      omega
  have key := @insert_place q r qf _ D (hash_to_quotient qf hash) (hash_to_remainder qf hash)
    (b + φ) (b + σ) m
    (if (b + σ) % 2 ^ q ≠ hash_to_quotient qf hash
      then set_shifted (shl64 (hash_to_remainder qf hash) 3 &&& not64 7)
      else shl64 (hash_to_remainder qf hash) 3 &&& not64 7) false false inv hlt wf1
    (set_elem_fields _ _ _).2.2.2.1 pv
    (by split
        · exact set_shifted_lt elt
        · exact elt)
    (by split
        · rw [is_occupied_set_shifted]; exact eo
        · exact eo)
    (by split
        · rw [is_continuation_set_shifted]; exact ec
        · exact ec)
    (by by_cases hc : (b + σ) % 2 ^ q ≠ hash_to_quotient qf hash
        · rw [if_pos hc, is_shifted_set_shifted]
          have := hidx.1 hc
          simp [this]
        · rw [if_neg hc, es]
          have : ¬ (b + σ ≠ b + φ) := fun h' => hc (hidx.2 h')
          simp at this
          simp [this])
    (by split
        · rw [get_remainder_set_shifted]; exact er
        · exact er)
    (by rw [h1]) (by omega) (by omega) f3 f2
    (fun hlt' => by have := hpredlt hlt'; omega)
    (fun hm => by
      have hN : is_empty_element (slot q qf (b + σ)) = false := f3 _ (by omega) (by omega)
      have := h7 hN
      omega)
    ⟨fun h' => absurd h' (by decide), fun ⟨a1, a2⟩ => by have := hpredlt a1; omega⟩
    (fun hm => by
      have hN : is_empty_element (slot q qf (b + σ)) = false := f3 _ (by omega) (by omega)
      have := hnone σ hN
      rw [hcs]
      constructor
      · intro h'; exact absurd h' (by decide)
      · intro h'; omega)
    (fun h' => absurd h' (by decide))
    (fun _ h' => by rw [hcs] at h'; exact absurd h' (by decide))
    fuel (by omega)
  obtain ⟨qf3, D', k1, k2, k3, k4⟩ := key
  refine ⟨_, D', ?_, k2, k3, ?_, ?_, ?_⟩
  · unfold qf_insert
    have g1 : ¬ (qf.entries ≥ qf.max_size) := by rw [wf.max_size_eq]; omega
    have g2 : is_empty_element (slot q qf (hash_to_quotient qf hash)) = true ↔ False := by
      rw [hne]; simp
    simp only [g1, if_false, hT, hne, hocc, Bool.not_false, if_true, h5, Bool.false_eq_true,
      k1]
  · rintro ⟨k, a1, a2, _⟩
    have := (inv.occ _).2 ⟨k, a1, a2⟩
    rw [hocc] at this; exact absurd this (by decide)
  · show qf.entries ≤ (qf3.entries + 1) % 2 ^ 32
    rw [k4]; omega
  · show (qf3.entries + 1) % 2 ^ 32 ≤ qf.entries + 1
    rw [k4]


theorem PreView.same {q : Nat} {qf : quotient_filter} {fq : Nat}
    (hocc : is_occupied (slot q qf fq) = true) (hfq : fq < 2 ^ q) (s : Nat) :
    PreView q qf qf fq s false := by
  refine ⟨fun p => ?_, fun _ => rfl, fun _ => rfl, fun p => by simp, fun _ => rfl⟩
  by_cases hp : p % 2 ^ q = fq
  · have c : p % 2 ^ q = fq % 2 ^ q := by rw [hp, Nat.mod_eq_of_lt hfq]
    rw [slot_congr q qf c, hocc]; simp
  · simp [hp]

theorem PreView.head {q r : Nat} {qf : quotient_filter} {fq : Nat} (wf : WF q r qf)
    (hocc : is_occupied (slot q qf fq) = true) (hfq : fq < 2 ^ q) {s : Nat}
    (hN : is_empty_element (slot q qf s) = false) :
    PreView q qf (set_elem qf (s % 2 ^ q) (set_continuation (slot q qf s))) fq s true := by
  have hv : set_continuation (slot q qf s) < 2 ^ (r + 3) := set_continuation_lt (slot_lt wf _)
  have hS : ∀ p, slot q (set_elem qf (s % 2 ^ q) (set_continuation (slot q qf s))) p
      = if p % 2 ^ q = s % 2 ^ q then set_continuation (slot q qf p) else slot q qf p := by
    intro p
    by_cases hp : p % 2 ^ q = s % 2 ^ q
    · rw [if_pos hp, slot_congr q _ hp, slot_congr q qf hp]
      exact slot_set_same wf s _ hv
    · rw [if_neg hp]
      exact slot_set_other wf _ hp
  have hoc := (PreView.same hocc hfq s).oc
  refine ⟨fun p => ?_, fun p => ?_, fun p => ?_, fun p => ?_, fun p => ?_⟩ <;> rw [hS] <;>
    by_cases hp : p % 2 ^ q = s % 2 ^ q
  · rw [if_pos hp, is_occupied_set_continuation]; exact hoc p
  · rw [if_neg hp]; exact hoc p
  · rw [if_pos hp, is_shifted_set_continuation]
  · rw [if_neg hp]
  · rw [if_pos hp, get_remainder_set_continuation]
  · rw [if_neg hp]
  · rw [if_pos hp, is_continuation_set_continuation]; simp [hp]
  · rw [if_neg hp]; simp [hp]
  · rw [if_pos hp, is_empty_element_eq, is_continuation_set_continuation, slot_congr q qf hp, hN]
    simp
  · rw [if_neg hp]

theorem insert_existing {q r : Nat} {qf : quotient_filter} {D : Nat → Nat}
    (inv : Inv q r qf D) (hlt : qf.entries < 2 ^ q) (hash : Nat) {fuel : Nat}
    (hf : 2 * 2 ^ q < fuel)
    (hocc : is_occupied (slot q qf (hash_to_quotient qf hash)) = true) :
    InsertOK q r qf D fuel hash := by
  have wf := inv.wf
  have hn := wf.n_pos
  have hfq := hash_to_quotient_lt wf hash
  have hfr := hash_to_remainder_lt wf hash
  have hfqm : hash_to_quotient qf hash % 2 ^ q = hash_to_quotient qf hash :=
    Nat.mod_eq_of_lt hfq
  obtain ⟨eo, ec, es, er⟩ := entry_bits wf.r_le hfr
  have elt := entry_lt wf.r_le hfr
  have hne := not_empty_of_occupied hocc
  have hT : get_elem qf (hash_to_quotient qf hash) = slot q qf (hash_to_quotient qf hash) :=
    (slot_of_lt q qf hfq).symm
  have g1 : ¬ (qf.entries ≥ qf.max_size) := by rw [wf.max_size_eq]; omega
  obtain ⟨b, φ, σ, i, res, h1, h2, h3, h4, h5, h6, h7, h8, h9, h10, h11, h12, h13⟩ :=
    run_lookup inv wf (OccView.refl q qf hocc) hfq hocc hf (hash_to_remainder qf hash)
  have hpredσ : φ < σ → σ - 1 < D (b + σ - 1) + φ := by
    intro hlt'
    have := (h9 (σ - 1) (by omega)).2
    have e : b + (σ - 1) = b + σ - 1 := by omega
    rwa [e] at this
  have hbefore : ∀ t, t ≤ i + 1 → ∀ p, b ≤ p → p < b + σ + t →
      is_empty_element (slot q qf p) = false := by
    intro t ht p hp1 hp2
    by_cases hp : p < b + σ
    · have := (h9 (p - b) (by omega)).1
      have e : b + (p - b) = p := by omega
      rwa [e] at this
    · have := (h10 (p - (b + σ)) (by omega)).1
      have e : b + σ + (p - (b + σ)) = p := by omega
      rwa [e] at this
  -- the entries for the three places where the new entry can go
  have shifted_bits : ∀ (e0 : Nat) (s : Nat), e0 < 2 ^ (r + 3) → is_occupied e0 = false →
      get_remainder e0 = hash_to_remainder qf hash → s < b + 2 ^ q → b + φ ≤ s →
      (if s % 2 ^ q ≠ hash_to_quotient qf hash then set_shifted e0 else e0) < 2 ^ (r + 3) ∧
      is_occupied (if s % 2 ^ q ≠ hash_to_quotient qf hash then set_shifted e0 else e0)
        = false ∧
      is_continuation (if s % 2 ^ q ≠ hash_to_quotient qf hash then set_shifted e0 else e0)
        = is_continuation e0 ∧
      (is_shifted e0 = false →
        is_shifted (if s % 2 ^ q ≠ hash_to_quotient qf hash then set_shifted e0 else e0)
          = decide (s ≠ b + φ)) ∧
      get_remainder (if s % 2 ^ q ≠ hash_to_quotient qf hash then set_shifted e0 else e0)
        = hash_to_remainder qf hash := by
    intro e0 s a1 a2 a3 a4 a5
    have hidx : (s % 2 ^ q ≠ hash_to_quotient qf hash) ↔ s ≠ b + φ := by
      rw [← h1]
      constructor
      · intro h' h''; exact h' (by rw [h''])
      · intro h' h''
        have e : s = b + (s - b) := by omega
        rw [e] at h''
        have := pos_mod_inj (by omega) h2 h''
        omega
    by_cases hc : s % 2 ^ q ≠ hash_to_quotient qf hash
    · rw [if_pos hc]
      refine ⟨set_shifted_lt a1, by rw [is_occupied_set_shifted]; exact a2,
        is_continuation_set_shifted _, fun _ => ?_, by rw [get_remainder_set_shifted]; exact a3⟩
      rw [is_shifted_set_shifted]
      have := hidx.1 hc
      simp [this]
    · rw [if_neg hc]
      refine ⟨a1, a2, rfl, fun h' => ?_, a3⟩
      have : ¬ (s ≠ b + φ) := fun h'' => hc (hidx.2 h'')
      simp at this
      rw [h']; simp [this]
  rcases h12 with ⟨hres, _⟩ | ⟨hres, hgt⟩ | ⟨hres, hlt', hnc⟩
  · -- the fingerprint is there already
    subst hres
    have hst := h13.2 rfl
    refine ⟨qf, D, ?_, inv, ?_, fun _ => rfl, Nat.le_refl _, Nat.le_succ _⟩
    · unfold qf_insert
      simp only [g1, if_false, hT, hne, hocc, Bool.not_true, Bool.false_eq_true, if_true, h6, h7]
    · intro c fr'
      constructor
      · intro h'; exact Or.inl h'
      · rintro (h' | ⟨a1, a2⟩)
        · exact h'
        · rw [a2, Stored.congr inv (show c % 2 ^ q = hash_to_quotient qf hash % 2 ^ q by
            rw [a1, hfqm])]
          exact hst
  · -- before an entry of the run with a larger remainder
    subst hres
    have hnst : ¬ Stored q qf D (hash_to_quotient qf hash) (hash_to_remainder qf hash) := by
      intro h'
      have := h13.1 h'
      exact absurd this (by simp)
    obtain ⟨hNs, hDs⟩ := h10 i (Nat.le_refl _)
    obtain ⟨m, f1, f2, f3⟩ := inv.frame hlt (show b + φ ≤ b + σ + i by omega)
      (hbefore i (by omega))
    have hm : 0 < m := by
      rcases Nat.eq_zero_or_pos m with h' | h'
      · subst h'
        have f2' : is_empty_element (slot q qf (b + σ + i)) = true := f2
        rw [hNs] at f2'; exact absurd f2' (by decide)
      · exact h'
    by_cases hi : i = 0
    · subst hi
      have pv := PreView.head wf hocc hfq hNs
      obtain ⟨b1, b2, b3, b4, b5⟩ := shifted_bits _ (b + σ + 0) elt eo er (by omega) (by omega)
      obtain ⟨qf3, D', k1, k2, k3, k4⟩ := @insert_place q r qf _ D _ _ _ _ _ _ false true inv hlt
        (wf.set_elem _ _) (set_elem_fields _ _ _).2.2.2.1 pv b1 b2 (by rw [b3]; exact ec)
        (b4 es) b5 h1 (by omega) (by omega) f3 f2
        (fun hl => by
          have := hpredσ (by omega)
          have e : b + σ + 0 - 1 = b + σ - 1 := by omega
          rw [e]; omega)
        (fun _ => by omega)
        ⟨fun h' => absurd h' (by decide), fun ⟨a1, a2⟩ => by
          have := hpredσ (by omega)
          have e : b + σ + 0 - 1 = b + σ - 1 := by omega
          rw [e] at a2; omega⟩
        (fun _ => ⟨fun _ => by omega, fun _ => by simp⟩)
        (fun h' => absurd h' (by decide))
        (fun _ _ => hgt) fuel (show 2 ^ q < fuel by omega)
      refine ⟨_, D', ?_, k2, k3, fun h' => absurd h' hnst, ?_, ?_⟩
      · unfold qf_insert
        have e0 : (b + σ + 0) % 2 ^ q = (b + σ) % 2 ^ q := rfl
        have e1 : get_elem qf ((b + σ) % 2 ^ q) = slot q qf (b + σ + 0) := rfl
        simp only [g1, if_false, hT, hne, hocc, Bool.not_true, Bool.false_eq_true, if_true, h6, h7, e0,
          if_true, e1]
        rw [e0] at k1
        simp only [k1]
      · show qf.entries ≤ (qf3.entries + 1) % 2 ^ 32
        rw [k4]; omega
      · show (qf3.entries + 1) % 2 ^ 32 ≤ qf.entries + 1
        rw [k4]
    · have pv := PreView.same hocc hfq (b + σ + i)
      obtain ⟨b1, b2, b3, b4, b5⟩ := shifted_bits _ (b + σ + i) (set_continuation_lt elt)
        (by rw [is_occupied_set_continuation]; exact eo)
        (by rw [get_remainder_set_continuation]; exact er) (by omega) (by omega)
      obtain ⟨p1, p2⟩ := h10 (i - 1) (by omega)
      obtain ⟨p3, p4⟩ := h11 (i - 1) (by omega)
      have e1 : b + σ + (i - 1) = b + σ + i - 1 := by omega
      have e2 : b + σ + (i - 1) + 1 = b + σ + i := by omega
      rw [e1] at p1 p2 p3
      rw [e2] at p4
      obtain ⟨qf3, D', k1, k2, k3, k4⟩ := @insert_place q r qf _ D _ _ _ _ _ _ true false inv hlt wf rfl
        pv b1 b2 (by rw [b3]; exact is_continuation_set_continuation _)
        (b4 (by rw [is_shifted_set_continuation]; exact es)) b5 h1 (by omega) (by omega) f3 f2
        (fun _ => by omega) (fun _ => by omega)
        ⟨fun _ => ⟨by omega, by omega⟩, fun _ => rfl⟩
        (fun _ => ⟨fun _ => by omega, fun _ => by rw [p4]; rfl⟩)
        (fun _ => p3) (fun _ _ => hgt) fuel (show 2 ^ q < fuel by omega)
      have hidx : ¬ ((b + σ + i) % 2 ^ q = (b + σ) % 2 ^ q) :=
        offset_ne (by omega) (by omega)
      refine ⟨_, D', ?_, k2, k3, fun h' => absurd h' hnst, ?_, ?_⟩
      · unfold qf_insert
        simp only [g1, if_false, hT, hne, hocc, Bool.not_true, Bool.false_eq_true, if_true, h6, h7, hidx,
          k1]
      · show qf.entries ≤ (qf3.entries + 1) % 2 ^ 32
        rw [k4]; omega
      · show (qf3.entries + 1) % 2 ^ 32 ≤ qf.entries + 1
        rw [k4]
  · -- after the last entry of the run
    subst hres
    have hnst : ¬ Stored q qf D (hash_to_quotient qf hash) (hash_to_remainder qf hash) := by
      intro h'
      have := h13.1 h'
      exact absurd this (by simp)
    obtain ⟨p1, p2⟩ := h10 i (Nat.le_refl _)
    obtain ⟨m, f1, f2, f3⟩ := inv.frame hlt (show b + φ ≤ b + σ + i + 1 by omega)
      (hbefore (i + 1) (Nat.le_refl _))
    have pv := PreView.same hocc hfq (b + σ + i + 1)
    obtain ⟨b1, b2, b3, b4, b5⟩ := shifted_bits _ (b + σ + i + 1) (set_continuation_lt elt)
      (by rw [is_occupied_set_continuation]; exact eo)
      (by rw [get_remainder_set_continuation]; exact er) (by omega) (by omega)
    have hsucc : 0 < m → D (b + σ + i + 1) + (b + φ) ≤ b + σ + i := by
      intro hm
      have hN : is_empty_element (slot q qf (b + σ + i + 1)) = false :=
        f3 _ (by omega) (by omega)
      have c1 := inv.cont (b + σ + i) hN
      have c2 := inv.D_add_le (b + σ + i) 1
      have c2' : D (b + σ + i + 1) ≤ D (b + σ + i) + 1 := c2
      have c3 : D (b + σ + i + 1) ≠ D (b + σ + i) + 1 := by
        intro h'
        rw [c1.2 h'] at hnc; exact absurd hnc (by decide)
      omega
    obtain ⟨qf3, D', k1, k2, k3, k4⟩ := @insert_place q r qf _ D _ _ _ _ _ _ true false inv hlt wf rfl
      pv b1 b2 (by rw [b3]; exact is_continuation_set_continuation _)
      (b4 (by rw [is_shifted_set_continuation]; exact es)) b5 h1 (by omega) (by omega) f3 f2
      (fun _ => by
        have e : b + σ + i + 1 - 1 = b + σ + i := by omega
        rw [e]; omega)
      (fun hm => by have := hsucc hm; omega)
      ⟨fun _ => ⟨by omega, by
        have e : b + σ + i + 1 - 1 = b + σ + i := by omega
        rw [e]; omega⟩, fun _ => rfl⟩
      (fun hm => ⟨fun h' => by rw [hnc] at h'; exact absurd h' (by decide),
        fun h' => by have := hsucc hm; omega⟩)
      (fun _ => by
        have e : b + σ + i + 1 - 1 = b + σ + i := by omega
        rw [e]; exact hlt')
      (fun _ h' => by rw [hnc] at h'; exact absurd h' (by decide))
      fuel (show 2 ^ q < fuel by omega)
    have hidx : ¬ ((b + σ + i + 1) % 2 ^ q = (b + σ) % 2 ^ q) := by
      have := @offset_ne (2 ^ q) (b + σ) (i + 1) (by omega) (by omega)
      exact this
    refine ⟨_, D', ?_, k2, k3, fun h' => absurd h' hnst, ?_, ?_⟩
    · unfold qf_insert
      simp only [g1, if_false, hT, hne, hocc, Bool.not_true, Bool.false_eq_true, if_true, h6, h7, hidx,
        k1]
    · show qf.entries ≤ (qf3.entries + 1) % 2 ^ 32
      rw [k4]; omega
    · show (qf3.entries + 1) % 2 ^ 32 ≤ qf.entries + 1
      rw [k4]


/-! ## More fuel gives the same result -/

theorem mono_of_succ {α β : Type} (g : Nat → α → Option β)
    (h : ∀ f x r, g f x = some r → g (f + 1) x = some r) :
    ∀ f f' x r, f ≤ f' → g f x = some r → g f' x = some r := by
  intro f f' x r hle hg
  obtain ⟨k, rfl⟩ : ∃ k, f' = f + k := ⟨f' - f, by omega⟩
  induction k with
  | zero => exact hg
  | succ k ih => exact h _ _ _ (ih (by omega))

theorem cluster_start_loop_mono (qf : quotient_filter) {f f' b r : Nat} (hle : f ≤ f')
    (h : cluster_start_loop qf f b = some r) : cluster_start_loop qf f' b = some r := by
  refine mono_of_succ (cluster_start_loop qf) ?_ f f' b r hle h
  intro f
  induction f with
  | zero => intro x r h; simp [cluster_start_loop] at h
  | succ f ih =>
    intro x r h
    rw [cluster_start_loop] at h ⊢
    by_cases c : is_shifted (get_elem qf x) = true
    · rw [if_pos c] at h ⊢; exact ih _ _ h
    · rw [if_neg c] at h ⊢; exact h

theorem next_run_loop_mono (qf : quotient_filter) {f f' s r : Nat} (hle : f ≤ f')
    (h : next_run_loop qf f s = some r) : next_run_loop qf f' s = some r := by
  refine mono_of_succ (next_run_loop qf) ?_ f f' s r hle h
  intro f
  induction f with
  | zero => intro x r h; simp [next_run_loop] at h
  | succ f ih =>
    intro x r h
    rw [next_run_loop] at h ⊢
    try simp only at h ⊢
    by_cases c : is_continuation (get_elem qf (incr qf x)) = true
    · rw [if_pos c] at h ⊢; exact ih _ _ h
    · rw [if_neg c] at h ⊢; exact h

theorem next_occupied_loop_mono (qf : quotient_filter) {f f' s r : Nat} (hle : f ≤ f')
    (h : next_occupied_loop qf f s = some r) : next_occupied_loop qf f' s = some r := by
  refine mono_of_succ (next_occupied_loop qf) ?_ f f' s r hle h
  intro f
  induction f with
  | zero => intro x r h; simp [next_occupied_loop] at h
  | succ f ih =>
    intro x r h
    rw [next_occupied_loop] at h ⊢
    try simp only at h ⊢
    by_cases c : (!is_occupied (get_elem qf (incr qf x))) = true
    · rw [if_pos c] at h ⊢; exact ih _ _ h
    · rw [if_neg c] at h ⊢; exact h

theorem run_index_loop_mono (qf : quotient_filter) (fq : Nat) :
    ∀ (f f' b s r : Nat), f ≤ f' → run_index_loop qf fq f b s = some r →
      run_index_loop qf fq f' b s = some r := by
  intro f
  induction f with
  | zero => intro f' b s r _ h; simp [run_index_loop] at h
  | succ f ih =>
    intro f' b s r hle h
    obtain ⟨g, rfl⟩ : ∃ g, f' = g + 1 := ⟨f' - 1, by omega⟩
    rw [run_index_loop] at h ⊢
    by_cases c : b ≠ fq
    · rw [if_pos c] at h ⊢
      cases h1 : next_run_loop qf f s with
      | none => rw [h1] at h; simp at h
      | some s1 =>
        cases h2 : next_occupied_loop qf f b with
        | none => rw [h1, h2] at h; simp at h
        | some b1 =>
          rw [h1, h2] at h
          rw [next_run_loop_mono qf (by omega) h1, next_occupied_loop_mono qf (by omega) h2]
          exact ih g b1 s1 r (by omega) h
    · rw [if_neg c] at h ⊢; exact h

theorem find_run_index_mono {qf : quotient_filter} {f f' fq r : Nat} (hle : f ≤ f')
    (h : find_run_index f qf fq = some r) : find_run_index f' qf fq = some r := by
  unfold find_run_index at h ⊢
  cases h1 : cluster_start_loop qf f fq with
  | none => rw [h1] at h; simp at h
  | some b =>
    rw [h1] at h
    rw [cluster_start_loop_mono qf hle h1]
    exact run_index_loop_mono qf fq f f' b b r hle h

theorem scan_run_mono (qf : quotient_filter) (fr : Nat) {f f' s : Nat} {r : Scan} (hle : f ≤ f')
    (h : scan_run qf fr f s = some r) : scan_run qf fr f' s = some r := by
  refine mono_of_succ (scan_run qf fr) ?_ f f' s r hle h
  intro f
  induction f with
  | zero => intro x r h; simp [scan_run] at h
  | succ f ih =>
    intro x r h
    rw [scan_run] at h ⊢
    try simp only at h ⊢
    by_cases c1 : get_remainder (get_elem qf x) = fr
    · rw [if_pos c1] at h ⊢; exact h
    · rw [if_neg c1] at h ⊢
      by_cases c2 : get_remainder (get_elem qf x) > fr
      · rw [if_pos c2] at h ⊢; exact h
      · rw [if_neg c2] at h ⊢
        by_cases c3 : is_continuation (get_elem qf (incr qf x)) = true
        · rw [if_pos c3] at h ⊢; exact ih _ _ h
        · rw [if_neg c3] at h ⊢; exact h

theorem insert_into_mono : ∀ (f f' : Nat) (qf : quotient_filter) (s curr : Nat)
    (r : quotient_filter), f ≤ f' → insert_into f qf s curr = some r →
      insert_into f' qf s curr = some r := by
  intro f
  induction f with
  | zero => intro f' qf s curr r _ h; simp [insert_into] at h
  | succ f ih =>
    intro f' qf s curr r hle h
    obtain ⟨g, rfl⟩ : ∃ g, f' = g + 1 := ⟨f' - 1, by omega⟩
    rw [insert_into] at h ⊢
    try simp only at h ⊢
    by_cases c : (!is_empty_element (get_elem qf s)) = true
    · rw [if_pos c] at h ⊢
      exact ih g _ _ _ r (by omega) h
    · rw [if_neg c] at h ⊢; exact h

theorem qf_insert_mono {qf : quotient_filter} {f f' hash : Nat} {r : Bool × quotient_filter}
    (hle : f ≤ f') (h : qf_insert f qf hash = some r) : qf_insert f' qf hash = some r := by
  unfold qf_insert at h ⊢
  try simp only at h ⊢
  split
  · rename_i c; rw [if_pos c] at h; exact h
  · rename_i c
    rw [if_neg c] at h
    split
    · rename_i c2; rw [if_pos c2] at h; exact h
    · rename_i c2
      rw [if_neg c2] at h
      generalize (if (!is_occupied (get_elem qf (hash_to_quotient qf hash))) = true then
        set_elem qf (hash_to_quotient qf hash)
          (set_occupied (get_elem qf (hash_to_quotient qf hash))) else qf) = qf1 at h ⊢
      cases h1 : find_run_index f qf1 (hash_to_quotient qf hash) with
      | none => rw [h1] at h; simp at h
      | some start =>
        rw [h1] at h
        rw [find_run_index_mono hle h1]
        try simp only at h ⊢
        have place : ∀ (qf2 : quotient_filter) (s e : Nat),
            (match insert_into f qf2 s e with
              | none => none
              | some qf3 => some (true, { qf3 with entries := (qf3.entries + 1) % 2 ^ 32 }))
              = some r →
            (match insert_into f' qf2 s e with
              | none => none
              | some qf3 => some (true, { qf3 with entries := (qf3.entries + 1) % 2 ^ 32 }))
              = some r := by
          intro qf2 s e hp
          cases h2 : insert_into f qf2 s e with
          | none => rw [h2] at hp; simp at hp
          | some qf3 =>
            rw [h2] at hp
            rw [insert_into_mono f f' qf2 s e qf3 hle h2]
            exact hp
        split
        · rename_i c3
          rw [if_pos c3] at h
          cases h3 : scan_run qf1 (hash_to_remainder qf hash) f start with
          | none => rw [h3] at h; simp at h
          | some res =>
            rw [h3] at h
            rw [scan_run_mono qf1 _ hle h3]
            cases res with
            | found s => exact h
            | greater s =>
              try simp only at h ⊢
              split
              · rename_i c4; rw [if_pos c4] at h; exact place _ _ _ h
              · rename_i c4; rw [if_neg c4] at h; exact place _ _ _ h
            | ended s =>
              try simp only at h ⊢
              split
              · rename_i c4; rw [if_pos c4] at h; exact place _ _ _ h
              · rename_i c4; rw [if_neg c4] at h; exact place _ _ _ h
        · rename_i c3
          rw [if_neg c3] at h
          exact place _ _ _ h

theorem qf_may_contain_mono {qf : quotient_filter} {f f' hash : Nat} {r : Bool}
    (hle : f ≤ f') (h : qf_may_contain f qf hash = some r) :
    qf_may_contain f' qf hash = some r := by
  unfold qf_may_contain at h ⊢
  try simp only at h ⊢
  split
  · rename_i c; rw [if_pos c] at h; exact h
  · rename_i c
    rw [if_neg c] at h
    cases h1 : find_run_index f qf (hash_to_quotient qf hash) with
    | none => rw [h1] at h; simp at h
    | some start =>
      rw [h1] at h
      rw [find_run_index_mono hle h1]
      try simp only at h ⊢
      cases h3 : scan_run qf (hash_to_remainder qf hash) f start with
      | none => rw [h3] at h; simp at h
      | some res =>
        rw [h3] at h
        rw [scan_run_mono qf _ hle h3]
        exact h


/-! ## The fresh filter and the reachable states -/

theorem init_fields_wf {q r : Nat} (hq : 1 ≤ q) (hq' : q ≤ 30) (hr : 1 ≤ r) (hr' : r ≤ 60)
    {words : Nat} (hw : 2 ^ q * (r + 3) ≤ 64 * words) :
    WF q r (init_fields q r (List.replicate words 0)) := by
  have e1 : q % 256 = q := Nat.mod_eq_of_lt (by omega)
  have e2 : r % 256 = r := Nat.mod_eq_of_lt (by omega)
  have e3 : (r + 3) % 256 = r + 3 := Nat.mod_eq_of_lt (by omega)
  have e4 : int_one_shl q = 2 ^ q := by
    unfold int_one_shl
    rw [Nat.mod_eq_of_lt (show q < 32 by omega), Nat.one_shiftLeft]
    exact Nat.mod_eq_of_lt (Nat.pow_lt_pow_right (by decide) (by omega))
  have e5 : sext32 (2 ^ q) = 2 ^ q := by
    unfold sext32
    rw [if_pos (Nat.pow_lt_pow_right (by decide) (by omega))]
  refine ⟨hq, hq', hr, hr', ?_, ?_, ?_, ?_, ?_, ?_, ?_, ?_, ?_⟩
  · simp [init_fields, e1]
  · simp [init_fields, e2]
  · simp [init_fields, e2, e3]
  · simp only [init_fields]; exact LOW_MASK_eq (by omega)
  · simp only [init_fields]; exact LOW_MASK_eq (by omega)
  · simp only [init_fields, e2, e3]; exact LOW_MASK_eq (by omega)
  · simp only [init_fields, e4, e5]
  · simp only [init_fields, List.length_replicate]; exact hw
  · intro w hw'
    simp only [init_fields] at hw'
    rw [List.eq_of_mem_replicate hw']
    exact Nat.two_pow_pos 64

theorem slot_fresh {q r : Nat} (hq : 1 ≤ q) (hq' : q ≤ 30) (hr : 1 ≤ r) (hr' : r ≤ 60)
    {words : Nat} (hw : 2 ^ q * (r + 3) ≤ 64 * words) (p : Nat) :
    slot q (init_fields q r (List.replicate words 0)) p = 0 := by
  have wf := init_fields_wf hq hq' hr hr' hw
  apply Nat.eq_of_testBit_eq
  intro j
  unfold slot
  rw [get_elem_testBit wf.tableOK (wf.idx_ok (Nat.mod_lt p wf.n_pos)).1]
  have : ∀ k, tbit (init_fields q r (List.replicate words 0)).table k = false := by
    intro k
    unfold tbit
    simp only [init_fields]
    cases h : (List.replicate words 0)[k / 64]? with
    | none => simp
    | some w =>
      have := List.eq_of_mem_replicate (List.getElem?_mem h)
      subst this; simp
  rw [this]; simp

theorem fresh_inv {q r : Nat} (hq : 1 ≤ q) (hq' : q ≤ 30) (hr : 1 ≤ r) (hr' : r ≤ 60)
    {words : Nat} (hw : 2 ^ q * (r + 3) ≤ 64 * words) :
    Inv q r (init_fields q r (List.replicate words 0)) (fun _ => 0) ∧
    ∀ c fr, ¬ Stored q (init_fields q r (List.replicate words 0)) (fun _ => 0) c fr := by
  have wf := init_fields_wf hq hq' hr hr' hw
  have hs := slot_fresh hq hq' hr hr' hw
  have he : is_empty_element 0 = true := by decide
  have ho : is_occupied 0 = false := by decide
  have hc : is_continuation 0 = false := by decide
  refine ⟨⟨wf, fun _ => rfl, ⟨0, rfl⟩, fun _ _ => rfl, ?_, fun p h => absurd rfl h, ?_, ?_, ?_, ?_,
    fun p _ => by rw [hs]; rfl⟩, ?_⟩
  · intro p h; rw [hs, he] at h; exact absurd h (by decide)
  · intro p h; rw [hs, he] at h; exact absurd h (by decide)
  · intro p h; rw [hs, hc] at h; exact absurd h (by decide)
  · intro p
    rw [hs, ho]
    constructor
    · intro h; exact absurd h (by decide)
    · rintro ⟨k, h, _⟩; rw [hs, he] at h; exact absurd h (by decide)
  · have : (Finset.range (2 ^ q)).filter
        (fun i => is_empty_element (slot q (init_fields q r (List.replicate words 0)) i) = false)
        = ∅ := by
      apply Finset.filter_false_of_mem
      intro i _
      rw [hs, he]; decide
    rw [this]; rfl
  · rintro c fr ⟨k, h, _⟩
    rw [hs, he] at h; exact absurd h (by decide)

theorem hash_to_quotient_eq {q r : Nat} {qf : quotient_filter} (wf : WF q r qf) (h : Nat) :
    hash_to_quotient qf h = (h >>> r) % 2 ^ q := by
  unfold hash_to_quotient shr64
  rw [wf.index_mask_eq, and_mask_eq_mod, wf.rbits_eq,
    Nat.mod_eq_of_lt (show r < 64 by have := wf.r_le; omega)]

theorem hash_to_remainder_eq {q r : Nat} {qf : quotient_filter} (wf : WF q r qf) (h : Nat) :
    hash_to_remainder qf h = h % 2 ^ r := by
  unfold hash_to_remainder
  rw [wf.rmask_eq, and_mask_eq_mod]

theorem qf_insert_full {qf : quotient_filter} (h : qf.entries ≥ qf.max_size) (fuel hash : Nat) :
    qf_insert fuel qf hash = some (false, qf) := by
  unfold qf_insert
  rw [if_pos h]

theorem qf_insert_ok {q r : Nat} {qf : quotient_filter} {D : Nat → Nat}
    (inv : Inv q r qf D) (hlt : qf.entries < 2 ^ q) (hash : Nat) {fuel : Nat}
    (hf : 2 * 2 ^ q < fuel) : InsertOK q r qf D fuel hash := by
  by_cases h1 : is_empty_element (slot q qf (hash_to_quotient qf hash)) = true
  · exact insert_canonical inv hlt hash fuel h1
  · have h1' : is_empty_element (slot q qf (hash_to_quotient qf hash)) = false := by
      simpa using h1
    by_cases h2 : is_occupied (slot q qf (hash_to_quotient qf hash)) = true
    · exact insert_existing inv hlt hash hf h2
    · exact insert_new_run inv hlt hash hf h1' (by simpa using h2)

/-- Every reachable state satisfies the invariant, and the stored fingerprints are those of
the hashes whose insertion returned `true`. -/
theorem reach_inv {q r : Nat} (hq : 1 ≤ q) (hq' : q ≤ 30) (hr : 1 ≤ r) (hr' : r ≤ 60)
    {qf : quotient_filter} {ok : List Nat} (hreach : Reach q r qf ok) :
    ∃ D, Inv q r qf D ∧ ∀ c fr, c < 2 ^ q →
      (Stored q qf D c fr ↔ ∃ h, h ∈ ok ∧ (h >>> r) % 2 ^ q = c ∧ h % 2 ^ r = fr) := by
  induction hreach with
  | init words hw =>
    obtain ⟨i1, i2⟩ := fresh_inv hq hq' hr hr' hw
    refine ⟨_, i1, fun c fr _ => ⟨fun h => absurd h (i2 c fr), ?_⟩⟩
    rintro ⟨h, hm, _⟩
    exact absurd hm (List.not_mem_nil _)
  | @insert_true qf qf' ok fuel hash _ hins ih =>
    obtain ⟨D, inv, hst⟩ := ih
    have hlt : qf.entries < 2 ^ q := by
      by_contra hcon
      have := qf_insert_full (show qf.entries ≥ qf.max_size by
        rw [inv.wf.max_size_eq]; omega) fuel hash
      rw [this] at hins
      simp at hins
    obtain ⟨qf2, D', a1, a2, a3, _⟩ := qf_insert_ok inv hlt hash
      (show 2 * 2 ^ q < max fuel (2 * 2 ^ q + 1) by omega)
    have := qf_insert_mono (Nat.le_max_left fuel (2 * 2 ^ q + 1)) hins
    rw [this] at a1
    have e : qf' = qf2 := by injection a1 with a1; injection a1
    subst e
    refine ⟨D', a2, fun c fr hc => ?_⟩
    rw [a3, hst c fr hc, Nat.mod_eq_of_lt hc, hash_to_quotient_eq inv.wf,
      hash_to_remainder_eq inv.wf]
    constructor
    · rintro (⟨h, h1, h2⟩ | ⟨h1, h2⟩)
      · exact ⟨h, List.mem_cons_of_mem _ h1, h2⟩
      · exact ⟨hash, List.mem_cons_self _ _, h1.symm, h2.symm⟩
    · rintro ⟨h, h1, h2, h3⟩
      rcases List.mem_cons.1 h1 with h4 | h4
      · subst h4; exact Or.inr ⟨h2.symm, h3.symm⟩
      · exact Or.inl ⟨h, h4, h2, h3⟩
  | @insert_false qf qf' ok fuel hash _ hins ih =>
    obtain ⟨D, inv, hst⟩ := ih
    have hge : qf.entries ≥ 2 ^ q := by
      by_contra hcon
      obtain ⟨qf2, D', a1, _⟩ := qf_insert_ok inv (show qf.entries < 2 ^ q by omega) hash
        (show 2 * 2 ^ q < max fuel (2 * 2 ^ q + 1) by omega)
      have := qf_insert_mono (Nat.le_max_left fuel (2 * 2 ^ q + 1)) hins
      rw [this] at a1
      simp at a1
    have := qf_insert_full (show qf.entries ≥ qf.max_size by
      rw [inv.wf.max_size_eq]; omega) fuel hash
    rw [this] at hins
    have e : qf' = qf := by injection hins with h1; injection h1 with _ h2; exact h2.symm
    subst e
    exact ⟨D, inv, hst⟩


/-! ## The claims on insertion and lookup -/

theorem fingerprint_low_bits {q r h h' : Nat} (h1 : (h' >>> r) % 2 ^ q = (h >>> r) % 2 ^ q)
    (h2 : h' % 2 ^ r = h % 2 ^ r) : h' % 2 ^ (q + r) = h % 2 ^ (q + r) := by
  have e : (2 : Nat) ^ (q + r) = 2 ^ r * 2 ^ q := by rw [Nat.add_comm, Nat.pow_add]
  rw [e, Nat.mod_mul, Nat.mod_mul, h2, ← Nat.shiftRight_eq_div_pow, ← Nat.shiftRight_eq_div_pow,
    h1]

theorem example_reach_one : Reach 3 3 example_filter_one [0] :=
  @Reach.insert_true 3 3 (init_fields 3 3 (List.replicate 1 0)) example_filter_one [] 17 0
    (Reach.init 1 (by decide)) (by decide)

theorem example_reach : Reach 3 3 example_filter [1, 0] :=
  @Reach.insert_true 3 3 example_filter_one example_filter [0] 17 1 example_reach_one
    (by decide)

/-- C1: in every state reached from a fresh filter (1 ≤ q ≤ 30, 1 ≤ r ≤ 60, q + r ≤ 64) by
`qf_insert` calls, `qf_may_contain` returns `true` for every hash whose `qf_insert` call
returned `true`. -/
theorem no_false_negative_after_inserts (q r : Nat) (hq : 1 ≤ q) (hq' : q ≤ 30) (hr : 1 ≤ r)
    (hr' : r ≤ 60) (_hqr : q + r ≤ 64) (qf : quotient_filter) (ok : List Nat)
    (hreach : Reach q r qf ok) (h : Nat) (hmem : h ∈ ok) (fuel : Nat)
    (hf : 2 * 2 ^ q < fuel) : qf_may_contain fuel qf h = some true := by
  obtain ⟨D, inv, hst⟩ := reach_inv hq hq' hr hr' hreach
  obtain ⟨res, h1, h2⟩ := qf_may_contain_spec inv h hf
  have : Stored q qf D (hash_to_quotient qf h) (hash_to_remainder qf h) := by
    rw [hst _ _ (hash_to_quotient_lt inv.wf h)]
    exact ⟨h, hmem, (hash_to_quotient_eq inv.wf h).symm, (hash_to_remainder_eq inv.wf h).symm⟩
  rw [h1, h2.2 this]

theorem no_false_negative_after_inserts_witness :
    Reach 3 3 example_filter [1, 0] ∧ 1 ∈ [1, 0] ∧
      qf_may_contain 17 example_filter 1 = some true :=
  ⟨example_reach, by decide,
    no_false_negative_after_inserts 3 3 (by decide) (by decide) (by decide) (by decide)
      (by decide) example_filter [1, 0] example_reach 1 (by decide) 17 (by decide)⟩

/-- On a fresh table that holds all `2^q` slots, the property of C2: in every state reached
from a fresh filter by `qf_insert` calls, a lookup that returns
`true` for a hash finds the fingerprint of a hash whose `qf_insert` returned `true`: same
quotient, same remainder, same low `q + r` bits; and on the fresh filter every lookup returns
`false`. -/
theorem false_positive_only_by_collision (q r : Nat) (hq : 1 ≤ q) (hq' : q ≤ 30) (hr : 1 ≤ r)
    (hr' : r ≤ 60) (_hqr : q + r ≤ 64) (qf : quotient_filter) (ok : List Nat)
    (hreach : Reach q r qf ok) (h fuel : Nat) :
    (qf_may_contain fuel qf h = some true →
      ∃ h', h' ∈ ok ∧ hash_to_quotient qf h' = hash_to_quotient qf h ∧
        hash_to_remainder qf h' = hash_to_remainder qf h ∧
        h' % 2 ^ (q + r) = h % 2 ^ (q + r)) ∧
    (ok = [] → 0 < fuel → qf_may_contain fuel qf h = some false) := by
  obtain ⟨D, inv, hst⟩ := reach_inv hq hq' hr hr' hreach
  have key : ∀ fuel', qf_may_contain fuel' qf h = some true →
      ∃ h', h' ∈ ok ∧ hash_to_quotient qf h' = hash_to_quotient qf h ∧
        hash_to_remainder qf h' = hash_to_remainder qf h ∧
        h' % 2 ^ (q + r) = h % 2 ^ (q + r) := by
    intro fuel' hres
    obtain ⟨res, h1, h2⟩ := qf_may_contain_spec inv h
      (show 2 * 2 ^ q < max fuel' (2 * 2 ^ q + 1) by omega)
    rw [qf_may_contain_mono (Nat.le_max_left fuel' (2 * 2 ^ q + 1)) hres] at h1
    have e : res = true := by injection h1 with h1; exact h1.symm
    obtain ⟨h', m1, m2, m3⟩ := (hst _ _ (hash_to_quotient_lt inv.wf h)).1 (h2.1 e)
    rw [hash_to_quotient_eq inv.wf] at m2
    rw [hash_to_remainder_eq inv.wf] at m3
    exact ⟨h', m1, by rw [hash_to_quotient_eq inv.wf, hash_to_quotient_eq inv.wf, m2],
      by rw [hash_to_remainder_eq inv.wf, hash_to_remainder_eq inv.wf, m3],
      fingerprint_low_bits m2 m3⟩
  refine ⟨key fuel, ?_⟩
  intro hnil hfuel
  obtain ⟨res, h1, _⟩ := qf_may_contain_spec inv h
    (show 2 * 2 ^ q < max fuel (2 * 2 ^ q + 1) by omega)
  cases res with
  | true =>
    obtain ⟨h', m1, _⟩ := key _ h1
    rw [hnil] at m1
    exact absurd m1 (List.not_mem_nil _)
  | false =>
    -- the lookup stops at the `occupied` test, whatever the fuel
    have hno : is_occupied (get_elem qf (hash_to_quotient qf h)) = false := by
      by_contra hcon
      have hocc : is_occupied (slot q qf (hash_to_quotient qf h)) = true := by
        rw [slot_of_lt q qf (hash_to_quotient_lt inv.wf h)]; simpa using hcon
      obtain ⟨k, a1, a2⟩ := (inv.occ _).1 hocc
      have hc : (hash_to_quotient qf h + k) % 2 ^ q < 2 ^ q := Nat.mod_lt _ inv.wf.n_pos
      have hs : Stored q qf D (hash_to_quotient qf h)
          (get_remainder (slot q qf (hash_to_quotient qf h + k))) := ⟨k, a1, a2, rfl⟩
      obtain ⟨h', m1, _⟩ := (hst _ _ (hash_to_quotient_lt inv.wf h)).1 hs
      rw [hnil] at m1
      exact absurd m1 (List.not_mem_nil _)
    unfold qf_may_contain
    simp [hno]

theorem false_positive_only_by_collision_witness :
    Reach 3 3 example_filter [1, 0] ∧
      ((qf_may_contain 17 example_filter 65 = some true →
        ∃ h', h' ∈ [1, 0] ∧ hash_to_quotient example_filter h' = hash_to_quotient example_filter 65 ∧
          hash_to_remainder example_filter h' = hash_to_remainder example_filter 65 ∧
          h' % 2 ^ (3 + 3) = 65 % 2 ^ (3 + 3)) ∧
       (([1, 0] : List Nat) = [] → 0 < 17 → qf_may_contain 17 example_filter 65 = some false)) :=
  ⟨example_reach,
    false_positive_only_by_collision 3 3 (by decide) (by decide) (by decide) (by decide)
      (by decide) example_filter [1, 0] example_reach 65 17⟩


/-- On a fresh table that holds all `2^q` slots, the property of C3: in every state reached
from a fresh filter by `qf_insert` calls, whenever `qf_insert`
returns, it returns `false` exactly when `entries` equals the capacity `2^q`, and then the
filter is unchanged; and with enough fuel it does return. -/
theorem insert_fails_iff_full (q r : Nat) (hq : 1 ≤ q) (hq' : q ≤ 30) (hr : 1 ≤ r)
    (hr' : r ≤ 60) (_hqr : q + r ≤ 64) (qf : quotient_filter) (ok : List Nat)
    (hreach : Reach q r qf ok) (h : Nat) :
    (∀ fuel b qf', qf_insert fuel qf h = some (b, qf') →
      ((b = false ↔ qf.entries = 2 ^ q) ∧ (b = false → qf' = qf))) ∧
    (∀ fuel, 2 * 2 ^ q < fuel → ∃ b qf', qf_insert fuel qf h = some (b, qf')) := by
  obtain ⟨D, inv, _⟩ := reach_inv hq hq' hr hr' hreach
  have hle := inv.entries_le
  by_cases hfull : qf.entries = 2 ^ q
  · have hins : ∀ fuel, qf_insert fuel qf h = some (false, qf) := fun fuel =>
      qf_insert_full (by rw [inv.wf.max_size_eq]; omega) fuel h
    refine ⟨fun fuel b qf' hres => ?_, fun fuel _ => ⟨false, qf, hins fuel⟩⟩
    rw [hins fuel] at hres
    injection hres with hres
    injection hres with h1 h2
    subst h1; subst h2
    exact ⟨⟨fun _ => hfull, fun _ => rfl⟩, fun _ => rfl⟩
  · have hlt : qf.entries < 2 ^ q := by omega
    refine ⟨fun fuel b qf' hres => ?_, fun fuel hf => ?_⟩
    · obtain ⟨qf2, D', a1, _⟩ := qf_insert_ok inv hlt h
        (show 2 * 2 ^ q < max fuel (2 * 2 ^ q + 1) by omega)
      rw [qf_insert_mono (Nat.le_max_left fuel (2 * 2 ^ q + 1)) hres] at a1
      injection a1 with a1
      injection a1 with h1 h2
      subst h1
      exact ⟨⟨fun h' => absurd h' (by decide), fun h' => absurd h' hfull⟩,
        fun h' => absurd h' (by decide)⟩
    · obtain ⟨qf2, D', a1, _⟩ := qf_insert_ok inv hlt h hf
      exact ⟨true, qf2, a1⟩

theorem insert_fails_iff_full_witness :
    Reach 3 3 example_filter [1, 0] ∧
      ((∀ fuel b qf', qf_insert fuel example_filter 9 = some (b, qf') →
        ((b = false ↔ example_filter.entries = 2 ^ 3) ∧ (b = false → qf' = example_filter))) ∧
      (∀ fuel, 2 * 2 ^ 3 < fuel → ∃ b qf', qf_insert fuel example_filter 9 = some (b, qf'))) :=
  ⟨example_reach,
    insert_fails_iff_full 3 3 (by decide) (by decide) (by decide) (by decide) (by decide)
      example_filter [1, 0] example_reach 9⟩

/-- On a fresh table that holds all `2^q` slots, the property of C4: in every state reached
from a fresh filter by `qf_insert` calls, after a `qf_insert`
that returned `true`, a second `qf_insert` of the same hash leaves the filter (every slot and
`entries`) as the first call left it; the first call raised `entries` by at most 1. -/
theorem insert_twice_same_state (q r : Nat) (hq : 1 ≤ q) (hq' : q ≤ 30) (hr : 1 ≤ r)
    (hr' : r ≤ 60) (_hqr : q + r ≤ 64) (qf : quotient_filter) (ok : List Nat)
    (hreach : Reach q r qf ok) (h fuel : Nat) (qf' : quotient_filter)
    (hins : qf_insert fuel qf h = some (true, qf')) :
    (∀ fuel2, 2 * 2 ^ q < fuel2 → ∃ b, qf_insert fuel2 qf' h = some (b, qf')) ∧
    (∀ fuel2 b qf'', qf_insert fuel2 qf' h = some (b, qf'') → qf'' = qf') ∧
    qf.entries ≤ qf'.entries ∧ qf'.entries ≤ qf.entries + 1 := by
  obtain ⟨D, inv, _⟩ := reach_inv hq hq' hr hr' hreach
  have hreach' : Reach q r qf' (h :: ok) := Reach.insert_true fuel h hreach hins
  obtain ⟨D', inv', hst'⟩ := reach_inv hq hq' hr hr' hreach'
  have hst : Stored q qf' D' (hash_to_quotient qf' h) (hash_to_remainder qf' h) := by
    rw [hst' _ _ (hash_to_quotient_lt inv'.wf h)]
    exact ⟨h, List.mem_cons_self _ _, (hash_to_quotient_eq inv'.wf h).symm,
      (hash_to_remainder_eq inv'.wf h).symm⟩
  have second : ∀ fuel2, 2 * 2 ^ q < fuel2 → ∃ b, qf_insert fuel2 qf' h = some (b, qf') := by
    intro fuel2 hf2
    by_cases hfull : qf'.entries ≥ 2 ^ q
    · exact ⟨false, qf_insert_full (by rw [inv'.wf.max_size_eq]; exact hfull) fuel2 h⟩
    · obtain ⟨qf2, D2, a1, _, _, a4, _⟩ := qf_insert_ok inv' (show qf'.entries < 2 ^ q by omega)
        h hf2
      rw [a4 hst] at a1
      exact ⟨true, a1⟩
  refine ⟨second, ?_, ?_⟩
  · intro fuel2 b qf'' hres
    obtain ⟨b2, a1⟩ := second (max fuel2 (2 * 2 ^ q + 1)) (by omega)
    rw [qf_insert_mono (Nat.le_max_left fuel2 (2 * 2 ^ q + 1)) hres] at a1
    injection a1 with a1
    injection a1
  · have hlt : qf.entries < 2 ^ q := by
      by_contra hcon
      have := qf_insert_full (show qf.entries ≥ qf.max_size by
        rw [inv.wf.max_size_eq]; omega) fuel h
      rw [this] at hins
      simp at hins
    obtain ⟨qf2, D2, a1, _, _, _, a5, a6⟩ := qf_insert_ok inv hlt h
      (show 2 * 2 ^ q < max fuel (2 * 2 ^ q + 1) by omega)
    rw [qf_insert_mono (Nat.le_max_left fuel (2 * 2 ^ q + 1)) hins] at a1
    have e : qf' = qf2 := by injection a1 with a1; injection a1
    subst e
    exact ⟨a5, a6⟩

theorem insert_twice_same_state_witness :
    Reach 3 3 example_filter_one [0] ∧ qf_insert 17 example_filter_one 1 = some (true, example_filter) ∧
      ((∀ fuel2, 2 * 2 ^ 3 < fuel2 → ∃ b, qf_insert fuel2 example_filter 1 = some (b, example_filter)) ∧
      (∀ fuel2 b qf'', qf_insert fuel2 example_filter 1 = some (b, qf'') → qf'' = example_filter) ∧
      example_filter_one.entries ≤ example_filter.entries ∧
      example_filter.entries ≤ example_filter_one.entries + 1) :=
  ⟨example_reach_one, by decide,
    insert_twice_same_state 3 3 (by decide) (by decide) (by decide) (by decide) (by decide)
      example_filter_one [0] example_reach_one 1 17 example_filter (by decide)⟩

/-- On a fresh table that holds all `2^q` slots, the property of C8: in every state reached
from a fresh filter by `qf_insert` calls, `qf_remove` of a hash
whose `(q+r)`-bit fingerprint differs from that of every successfully inserted hash returns
with the filter (the table and `entries`) unchanged. -/
theorem remove_absent_unchanged (q r : Nat) (hq : 1 ≤ q) (hq' : q ≤ 30) (hr : 1 ≤ r)
    (hr' : r ≤ 60) (_hqr : q + r ≤ 64) (qf : quotient_filter) (ok : List Nat)
    (hreach : Reach q r qf ok) (h : Nat)
    (habs : ∀ h', h' ∈ ok → h' % 2 ^ (q + r) ≠ h % 2 ^ (q + r)) (fuel : Nat)
    (hf : 2 * 2 ^ q < fuel) : ∃ b, qf_remove fuel qf h = some (b, qf) := by
  obtain ⟨D, inv, hst⟩ := reach_inv hq hq' hr hr' hreach
  have hfq := hash_to_quotient_lt inv.wf h
  have hns : ¬ Stored q qf D (hash_to_quotient qf h) (hash_to_remainder qf h) := by
    intro hs
    obtain ⟨h', m1, m2, m3⟩ := (hst _ _ hfq).1 hs
    rw [hash_to_quotient_eq inv.wf] at m2
    rw [hash_to_remainder_eq inv.wf] at m3
    exact habs h' m1 (fingerprint_low_bits m2 m3)
  unfold qf_remove
  simp only
  split
  · exact ⟨false, rfl⟩
  · split
    · exact ⟨true, rfl⟩
    · rename_i c
      have hocc : is_occupied (slot q qf (hash_to_quotient qf h)) = true := by
        rw [slot_of_lt q qf hfq]
        by_contra hcon
        apply c
        simp [hcon]
      obtain ⟨b, φ, σ, i, res, h1, h2, h3, h4, h5, h6, h7, h8, h9, h10, h11, h12, h13⟩ :=
        run_lookup inv inv.wf (OccView.refl q qf hocc) hfq hocc hf (hash_to_remainder qf h)
      rw [h6]
      simp only [h7]
      rcases h12 with ⟨e, _⟩ | ⟨e, _⟩ | ⟨e, _⟩
      · exact absurd (h13.2 e) hns
      · subst e; exact ⟨true, rfl⟩
      · subst e; exact ⟨true, rfl⟩

theorem remove_absent_unchanged_witness :
    Reach 3 3 example_filter [1, 0] ∧ (∀ h', h' ∈ [1, 0] → h' % 2 ^ (3 + 3) ≠ 2 % 2 ^ (3 + 3)) ∧
      ∃ b, qf_remove 17 example_filter 2 = some (b, example_filter) :=
  ⟨example_reach, by decide,
    remove_absent_unchanged 3 3 (by decide) (by decide) (by decide) (by decide) (by decide)
      example_filter [1, 0] example_reach 2 (by decide) 17 (by decide)⟩


/-! ## The claims on removal -/

/-- C5 (the code falls short of the claim): with `q = r = 3`, after inserting the hashes 0
and 1 and then removing the hash 0 (which has no bit at position 6 or above), the lookup of 0
still returns `true`: the two blocks of `qf_remove` marked "Write your code here" are empty,
so the new head of the run keeps its `continuation` and `shifted` bits. -/
theorem remove_then_lookup_still_true :
    Reach 3 3 example_filter [1, 0] ∧ 0 / 2 ^ (3 + 3) = 0 ∧
      qf_remove 17 example_filter 0 = some (true, example_filter_removed) ∧
      qf_may_contain 17 example_filter_removed 0 = some true :=
  ⟨example_reach, by decide, by decide, by decide⟩

/-- C6 (the code falls short of the claim): with `q = r = 3`, after inserting the hashes 0
and 1 and then removing the hash 0, the lookup of the hash 1, inserted and never removed,
returns `false`. -/
theorem remove_loses_other_entry :
    Reach 3 3 example_filter [1, 0] ∧ 1 / 2 ^ (3 + 3) = 0 ∧ 0 / 2 ^ (3 + 3) = 0 ∧
      qf_remove 17 example_filter 0 = some (true, example_filter_removed) ∧
      qf_may_contain 17 example_filter_removed 1 = some false :=
  ⟨example_reach, by decide, by decide, by decide, by decide⟩

/-- C7 (the code falls short of the claim): with `q = r = 3`, in the state reached by
inserting 0 and 1 the hash 8 is absent; inserting 8 and then removing 8 leaves slot 1 marked
`occupied`, so the table differs from the table before the insertion. -/
theorem insert_remove_not_restored :
    Reach 3 3 example_filter [1, 0] ∧ 8 / 2 ^ (3 + 3) = 0 ∧
      qf_may_contain 17 example_filter 8 = some false ∧
      qf_insert 17 example_filter 8 = some (true, example_filter_three) ∧
      qf_remove 17 example_filter_three 8 = some (true, example_filter_round_trip) ∧
      example_filter_round_trip.table ≠ example_filter.table ∧
      get_elem example_filter 1 = 14 ∧ get_elem example_filter_round_trip 1 = 15 :=
  ⟨example_reach, by decide, by decide, by decide, by decide, by decide, by decide, by decide⟩

/-- C9 (the code falls short of the claim): with `q = 4` and `r = 60`, so `q + r = 64`,
`qf_remove` of the hash 1 on the fresh filter returns `false`, although 1 has no bit at
position 64 or above: the shift `hash >> (qbits + rbits)` is a shift by 64. -/
theorem remove_rejects_at_full_width :
    qf_init 4 60 = some (init_fields 4 60 (List.replicate 16 0)) ∧
      Reach 4 60 (init_fields 4 60 (List.replicate 16 0)) [] ∧ 1 / 2 ^ (4 + 60) = 0 ∧
      qf_remove 17 (init_fields 4 60 (List.replicate 16 0)) 1
        = some (false, init_fields 4 60 (List.replicate 16 0)) :=
  ⟨by decide, Reach.init 16 (by decide), by decide, by decide⟩

/-- Below full width (`q + r < 64`) `qf_remove` returns `false` exactly for the hashes with a
bit at position `q + r` or above, and then leaves the filter unchanged. -/
theorem qf_remove_false_iff {q r : Nat} {qf : quotient_filter} (wf : WF q r qf)
    (hqr : q + r < 64) (hash fuel : Nat) (b : Bool) (qf' : quotient_filter)
    (hres : qf_remove fuel qf hash = some (b, qf')) :
    (b = false ↔ hash / 2 ^ (q + r) ≠ 0) ∧ (b = false → qf' = qf) := by
  have hs : shr64 hash (qf.qbits + qf.rbits) = hash / 2 ^ (q + r) := by
    unfold shr64
    rw [wf.qbits_eq, wf.rbits_eq, Nat.mod_eq_of_lt hqr, Nat.shiftRight_eq_div_pow]
  unfold qf_remove at hres
  simp only [hs] at hres
  split at hres
  · rename_i c
    injection hres with hres
    injection hres with h1 h2
    subst h1; subst h2
    exact ⟨⟨fun _ => c, fun _ => rfl⟩, fun _ => rfl⟩
  · rename_i c
    have c' : hash / 2 ^ (q + r) = 0 := by simpa using c
    have key : b = true → (b = false ↔ hash / 2 ^ (q + r) ≠ 0) ∧ (b = false → qf' = qf) := by
      intro hb
      subst hb
      exact ⟨⟨fun h' => absurd h' (by decide), fun h' => absurd c' h'⟩,
        fun h' => absurd h' (by decide)⟩
    apply key
    split at hres
    · injection hres with hres; injection hres with h1 _; exact h1.symm
    · split at hres
      · exact absurd hres (by simp)
      · split at hres
        · exact absurd hres (by simp)
        · injection hres with hres; injection hres with h1 _; exact h1.symm
        · injection hres with hres; injection hres with h1 _; exact h1.symm
        · split at hres
          · exact absurd hres (by simp)
          · injection hres with hres; injection hres with h1 _; exact h1.symm


/-! ## The iterator -/

theorem mem_yieldsFrom {q r : Nat} {qf : quotient_filter} {D : Nat → Nat} (v : Nat) :
    ∀ (len p : Nat), v ∈ yieldsFrom q r qf D p len ↔
      ∃ j, j < len ∧ is_empty_element (slot q qf (p + j)) = false ∧ v = fpAt q r qf D (p + j) := by
  intro len
  induction len with
  | zero => intro p; simp [yieldsFrom]
  | succ len ih =>
    intro p
    have step : (∃ j, j < len + 1 ∧ is_empty_element (slot q qf (p + j)) = false ∧
          v = fpAt q r qf D (p + j)) ↔
        ((is_empty_element (slot q qf p) = false ∧ v = fpAt q r qf D p) ∨
          ∃ j, j < len ∧ is_empty_element (slot q qf (p + 1 + j)) = false ∧
            v = fpAt q r qf D (p + 1 + j)) := by
      constructor
      · rintro ⟨j, h1, h2, h3⟩
        cases j with
        | zero => exact Or.inl ⟨h2, h3⟩
        | succ j =>
          have e : p + (j + 1) = p + 1 + j := by omega
          rw [e] at h2 h3
          exact Or.inr ⟨j, by omega, h2, h3⟩
      · rintro (⟨h2, h3⟩ | ⟨j, h1, h2, h3⟩)
        · exact ⟨0, by omega, h2, h3⟩
        · have e : p + 1 + j = p + (j + 1) := by omega
          rw [e] at h2 h3
          exact ⟨j + 1, by omega, h2, h3⟩
    rw [step, yieldsFrom]
    by_cases hne : is_empty_element (slot q qf p) = false
    · rw [if_pos hne, List.mem_cons, ih]
      simp [hne]
    · rw [if_neg hne, ih]
      simp [hne]

theorem yieldsFrom_of_empty {q r : Nat} {qf : quotient_filter} {D : Nat → Nat} :
    ∀ (e p len : Nat), e ≤ len → (∀ j, j < e → is_empty_element (slot q qf (p + j)) = true) →
      yieldsFrom q r qf D p len = yieldsFrom q r qf D (p + e) (len - e) := by
  intro e
  induction e with
  | zero => intro p len _ _; rfl
  | succ e ih =>
    intro p len hle hemp
    obtain ⟨l, rfl⟩ : ∃ l, len = l + 1 := ⟨len - 1, by omega⟩
    rw [yieldsFrom]
    have h0 : is_empty_element (slot q qf p) = true := hemp 0 (by omega)
    rw [if_neg (by rw [h0]; decide)]
    rw [ih (p + 1) l (by omega) (fun j hj => by
      have := hemp (j + 1) (by omega)
      have e1 : p + (j + 1) = p + 1 + j := by omega
      rwa [e1] at this)]
    have e1 : p + 1 + e = p + (e + 1) := by omega
    have e2 : l - e = l + 1 - (e + 1) := by omega
    rw [e1, e2]

theorem yieldsFrom_nil_of_length {q r : Nat} {qf : quotient_filter} {D : Nat → Nat}
    {p len : Nat} (h : (yieldsFrom q r qf D p len).length = 0) :
    yieldsFrom q r qf D p len = [] := List.length_eq_zero.1 h

/-- The number of entries on `len` positions from `p` on. -/
theorem length_yieldsFrom_succ {q r : Nat} {qf : quotient_filter} {D : Nat → Nat} :
    ∀ (len p : Nat), (yieldsFrom q r qf D p (len + 1)).length
      = (yieldsFrom q r qf D p len).length
        + (if is_empty_element (slot q qf (p + len)) = false then 1 else 0) := by
  intro len
  induction len with
  | zero =>
    intro p
    simp only [yieldsFrom]
    by_cases h : is_empty_element (slot q qf p) = false
    · simp [h]
    · simp [h]
  | succ len ih =>
    intro p
    rw [yieldsFrom]
    have e : p + (len + 1) = p + 1 + len := by omega
    by_cases h : is_empty_element (slot q qf p) = false
    · rw [if_pos h, List.length_cons, ih (p + 1), e]
      conv_rhs => rw [yieldsFrom, if_pos h, List.length_cons]
      omega
    · rw [if_neg h, ih (p + 1), e]
      conv_rhs => rw [yieldsFrom, if_neg h]

theorem length_yieldsFrom_shift {q r : Nat} {qf : quotient_filter} {D : Nat → Nat} (p : Nat) :
    (yieldsFrom q r qf D (p + 1) (2 ^ q)).length = (yieldsFrom q r qf D p (2 ^ q)).length := by
  have h1 := @length_yieldsFrom_succ q r qf D (2 ^ q) p
  have h2 : (yieldsFrom q r qf D p (2 ^ q + 1)).length
      = (yieldsFrom q r qf D (p + 1) (2 ^ q)).length
        + (if is_empty_element (slot q qf p) = false then 1 else 0) := by
    rw [yieldsFrom]
    by_cases h : is_empty_element (slot q qf p) = false
    · rw [if_pos h, if_pos h, List.length_cons]
    · rw [if_neg h, if_neg h]; rfl
  rw [slot_add_period] at h1
  omega

theorem length_yieldsFrom_range {q r : Nat} {qf : quotient_filter} {D : Nat → Nat} :
    ∀ len, (yieldsFrom q r qf D 0 len).length
      = ((Finset.range len).filter (fun i => is_empty_element (slot q qf i) = false)).card := by
  intro len
  induction len with
  | zero => rfl
  | succ len ih =>
    rw [length_yieldsFrom_succ, ih, Finset.range_succ, Finset.filter_insert]
    have e : 0 + len = len := by omega
    rw [e]
    by_cases h : is_empty_element (slot q qf len) = false
    · rw [if_pos h, if_pos h, Finset.card_insert_of_not_mem]
      simp
    · rw [if_neg h, if_neg h]; rfl

theorem length_yieldsFrom_window {q r : Nat} {qf : quotient_filter} {D : Nat → Nat}
    (inv : Inv q r qf D) (a : Nat) : (yieldsFrom q r qf D a (2 ^ q)).length = qf.entries := by
  induction a with
  | zero => rw [length_yieldsFrom_range, inv.count]
  | succ a ih => rw [length_yieldsFrom_shift, ih]


theorem shl_or_eq {q r c rem : Nat} (hqr : q + r ≤ 64) (hr : r < 64) (hc : c < 2 ^ q)
    (hrem : rem < 2 ^ r) : shl64 c r ||| rem = 2 ^ r * c + rem := by
  unfold shl64
  rw [Nat.mod_eq_of_lt hr, Nat.shiftLeft_eq, Nat.mul_comm]
  have h1 : 2 ^ r * c < 2 ^ 64 := by
    calc 2 ^ r * c < 2 ^ r * 2 ^ q := Nat.mul_lt_mul_of_pos_left hc (Nat.two_pow_pos r)
      _ = 2 ^ (r + q) := (Nat.pow_add 2 r q).symm
      _ ≤ 2 ^ 64 := Nat.pow_le_pow_right (by decide) (by omega)
  rw [Nat.mod_eq_of_lt h1]
  exact (Nat.mul_add_lt_is_or hrem c).symm

theorem get_remainder_lt {q r : Nat} {qf : quotient_filter} (wf : WF q r qf) (p : Nat) :
    get_remainder (slot q qf p) < 2 ^ r := by
  unfold get_remainder
  rw [Nat.shiftRight_eq_div_pow]
  have := slot_lt wf p
  rw [Nat.pow_add] at this
  exact Nat.div_lt_of_lt_mul (by rw [Nat.mul_comm]; exact this)

theorem fingerprint_eq {q r : Nat} {qf : quotient_filter} (wf : WF q r qf) (hqr : q + r ≤ 64)
    (h : Nat) : fingerprint qf h = 2 ^ r * ((h >>> r) % 2 ^ q) + h % 2 ^ r ∧
      fingerprint qf h = h % 2 ^ (q + r) := by
  have e1 : fingerprint qf h = 2 ^ r * ((h >>> r) % 2 ^ q) + h % 2 ^ r := by
    unfold fingerprint
    rw [wf.rbits_eq, hash_to_quotient_eq wf, hash_to_remainder_eq wf]
    exact shl_or_eq hqr (by have := wf.r_le; omega) (Nat.mod_lt _ wf.n_pos)
      (Nat.mod_lt _ (Nat.two_pow_pos r))
  refine ⟨e1, ?_⟩
  rw [e1]
  have e : (2 : Nat) ^ (q + r) = 2 ^ r * 2 ^ q := by rw [Nat.add_comm, Nat.pow_add]
  rw [e, Nat.mod_mul, Nat.shiftRight_eq_div_pow]
  omega

theorem fpAt_eq {q r : Nat} {qf : quotient_filter} {D : Nat → Nat} (inv : Inv q r qf D)
    (hqr : q + r ≤ 64) (p : Nat) :
    fpAt q r qf D p = 2 ^ r * ((p - D p) % 2 ^ q) + get_remainder (slot q qf p) := by
  unfold fpAt
  exact shl_or_eq hqr (by have := inv.wf.r_le; omega) (Nat.mod_lt _ inv.wf.n_pos)
    (get_remainder_lt inv.wf p)

theorem pair_inj {r c1 c2 r1 r2 : Nat} (h1 : r1 < 2 ^ r) (h2 : r2 < 2 ^ r)
    (h : 2 ^ r * c1 + r1 = 2 ^ r * c2 + r2) : c1 = c2 ∧ r1 = r2 := by
  have hp := Nat.two_pow_pos r
  have e1 : (2 ^ r * c1 + r1) / 2 ^ r = c1 := by
    rw [Nat.mul_add_div hp, Nat.div_eq_of_lt h1]; rfl
  have e2 : (2 ^ r * c2 + r2) / 2 ^ r = c2 := by
    rw [Nat.mul_add_div hp, Nat.div_eq_of_lt h2]; rfl
  have hc : c1 = c2 := by rw [← e1, ← e2, h]
  subst hc
  exact ⟨rfl, by omega⟩

/-- Seen from a position `a` with `D a = 0`, two different non-empty positions of the window
hold different fingerprints. -/
theorem fpAt_inj {q r : Nat} {qf : quotient_filter} {D : Nat → Nat} (inv : Inv q r qf D)
    (hqr : q + r ≤ 64) {a : Nat} (ha : D a = 0) {j1 j2 : Nat} (hlt : j1 < j2)
    (hj2 : j2 < 2 ^ q) (hne2 : is_empty_element (slot q qf (a + j2)) = false) :
    fpAt q r qf D (a + j1) ≠ fpAt q r qf D (a + j2) := by
  intro h
  rw [fpAt_eq inv hqr, fpAt_eq inv hqr] at h
  obtain ⟨hc, hrem⟩ := pair_inj (get_remainder_lt inv.wf _) (get_remainder_lt inv.wf _) h
  have d1 := inv.D_add_le a j1
  have d2 := inv.D_add_le a j2
  have e1 : a + j1 - D (a + j1) = a + (j1 - D (a + j1)) := by omega
  have e2 : a + j2 - D (a + j2) = a + (j2 - D (a + j2)) := by omega
  rw [e1, e2] at hc
  have := pos_mod_inj (by omega) (by omega) hc
  have d3 := inv.D_add_le (a + j1) (j2 - j1)
  have e3 : a + j1 + (j2 - j1) = a + j2 := by omega
  rw [e3] at d3
  have hD : D (a + j1 + (j2 - j1)) = D (a + j1) + (j2 - j1) := by rw [e3]; omega
  have seg := inv.run_segment (by rw [e3]; exact hne2) hD
  have mono := inv.rem_mono (a + j1) (j2 - j1) (fun j hj => (seg j hj).1) 0 (by omega)
  rw [e3] at mono
  have : get_remainder (slot q qf (a + j1 + 0)) = get_remainder (slot q qf (a + j1)) := rfl
  omega

theorem nodup_yieldsFrom {q r : Nat} {qf : quotient_filter} {D : Nat → Nat} (inv : Inv q r qf D)
    (hqr : q + r ≤ 64) {a : Nat} (ha : D a = 0) :
    ∀ (len j : Nat), j + len ≤ 2 ^ q → (yieldsFrom q r qf D (a + j) len).Nodup := by
  intro len
  induction len with
  | zero => intro j _; exact List.nodup_nil
  | succ len ih =>
    intro j hj
    rw [yieldsFrom]
    have e : a + j + 1 = a + (j + 1) := by omega
    by_cases hne : is_empty_element (slot q qf (a + j)) = false
    · rw [if_pos hne, List.nodup_cons, e]
      refine ⟨?_, ih (j + 1) (by omega)⟩
      rw [mem_yieldsFrom]
      rintro ⟨k, hk, hk2, hk3⟩
      have e2 : a + (j + 1) + k = a + (j + 1 + k) := by omega
      rw [e2] at hk2 hk3
      exact fpAt_inj inv hqr ha (show j < j + 1 + k by omega) (by omega) hk2 hk3
    · rw [if_neg hne, e]
      exact ih (j + 1) (by omega)

/-- The values on a whole window from a position `a` with `D a = 0` are the stored
fingerprints. -/
theorem mem_yieldsFrom_window {q r : Nat} {qf : quotient_filter} {D : Nat → Nat}
    (inv : Inv q r qf D) (hqr : q + r ≤ 64) {a : Nat} (ha : D a = 0) (v : Nat) :
    v ∈ yieldsFrom q r qf D a (2 ^ q) ↔
      ∃ c fr, c < 2 ^ q ∧ Stored q qf D c fr ∧ v = 2 ^ r * c + fr := by
  have hn := inv.wf.n_pos
  rw [mem_yieldsFrom]
  constructor
  · rintro ⟨j, hj, hne, hv⟩
    rw [fpAt_eq inv hqr] at hv
    have d1 := inv.D_add_le a j
    refine ⟨(a + j - D (a + j)) % 2 ^ q, _, Nat.mod_lt _ hn, ?_, hv⟩
    rw [Stored.congr inv (show (a + j - D (a + j)) % 2 ^ q % 2 ^ q
      = (a + j - D (a + j)) % 2 ^ q from Nat.mod_mod _ _)]
    refine ⟨D (a + j), ?_, ?_, ?_⟩ <;>
      rw [show a + j - D (a + j) + D (a + j) = a + j by omega]
    exact hne
  · rintro ⟨c, fr, hc, ⟨k, h1, h2, h3⟩, hv⟩
    obtain ⟨j, t, hj, e⟩ := window_rep hn a (c + k)
    have cg : (c + k) % 2 ^ q = (a + j) % 2 ^ q := by
      have : (c + k + a * 2 ^ q) % 2 ^ q = (a + j + t * 2 ^ q) % 2 ^ q := by rw [e]
      rwa [Nat.add_mul_mod_self_right, Nat.add_mul_mod_self_right] at this
    have s1 := slot_congr q qf cg
    have d1 := inv.D_congr cg
    have d2 := inv.D_add_le a j
    refine ⟨j, hj, by rw [← s1]; exact h1, ?_⟩
    rw [fpAt_eq inv hqr, ← s1, h3, hv, ← d1, h2]
    have : (a + j - k) % 2 ^ q = c := by
      have e1 : (a + j - k + k) % 2 ^ q = (c + k) % 2 ^ q := by
        rw [show a + j - k + k = a + j by omega, cg]
      have e2 : Nat.ModEq (2 ^ q) (a + j - k + k) (c + k) := e1
      have e3 : Nat.ModEq (2 ^ q) (a + j - k) c := Nat.ModEq.add_right_cancel' k e2
      have e4 : (a + j - k) % 2 ^ q = c % 2 ^ q := e3
      rw [e4, Nat.mod_eq_of_lt hc]
    rw [this]


theorem cluster_scan_spec (qf : quotient_filter) :
    ∀ (k start n : Nat), k < n →
      (∀ j, j < k → is_cluster_start (get_elem qf (start + j)) = false) →
      is_cluster_start (get_elem qf (start + k)) = true → cluster_scan qf n start = start + k := by
  intro k
  induction k with
  | zero =>
    intro start n hn _ h
    obtain ⟨m, rfl⟩ : ∃ m, n = m + 1 := ⟨n - 1, by omega⟩
    have h' : is_cluster_start (get_elem qf start) = true := h
    rw [cluster_scan, if_pos h']; rfl
  | succ k ih =>
    intro start n hn hno h
    obtain ⟨m, rfl⟩ : ∃ m, n = m + 1 := ⟨n - 1, by omega⟩
    have h0 : is_cluster_start (get_elem qf start) = false := hno 0 (by omega)
    rw [cluster_scan, if_neg (by rw [h0]; decide)]
    have := ih (start + 1) m (by omega) (fun j hj => by
      have := hno (j + 1) (by omega)
      have e : start + (j + 1) = start + 1 + j := by omega
      rwa [e] at this) (by
      have e : start + (k + 1) = start + 1 + k := by omega
      rwa [e] at h)
    rw [this]; omega

theorem cluster_start_bits {x : Nat} (h : is_cluster_start x = true) :
    is_occupied x = true ∧ is_continuation x = false ∧ is_shifted x = false := by
  unfold is_cluster_start at h
  revert h
  cases is_occupied x <;> cases is_continuation x <;> cases is_shifted x <;> simp

/-- A non-empty table has a cluster start; `qfi_start` finds the first one. -/
theorem Inv.first_cluster_start {q r : Nat} {qf : quotient_filter} {D : Nat → Nat}
    (inv : Inv q r qf D) (hpos : 0 < qf.entries) :
    ∃ a, a < 2 ^ q ∧ cluster_scan qf qf.max_size 0 = a ∧ D a = 0 ∧
      is_cluster_start (slot q qf a) = true := by
  have hn := inv.wf.n_pos
  have hex : ∃ i, i < 2 ^ q ∧ is_empty_element (slot q qf i) = false := by
    by_contra hcon
    have : (Finset.range (2 ^ q)).filter (fun i => is_empty_element (slot q qf i) = false)
        = ∅ := by
      apply Finset.filter_false_of_mem
      intro i hi h'
      exact hcon ⟨i, Finset.mem_range.1 hi, h'⟩
    have hc := inv.count
    rw [this] at hc
    simp at hc
    omega
  obtain ⟨i, _, hne⟩ := hex
  obtain ⟨b, φ, _, _, hb, _, hfull⟩ := inv.cluster_start hne
  have hb0 := hfull 0 (Nat.zero_le _)
  have hcs : is_cluster_start (slot q qf b) = true := by
    have h1 : is_occupied (slot q qf b) = true := (inv.occ b).2 ⟨0, hb0, hb⟩
    have h2 : is_continuation (slot q qf b) = false := by
      have := inv.not_continuation_period hb
      rwa [slot_add_period] at this
    have h3 : is_shifted (slot q qf b) = false := by
      by_contra hcon
      exact (inv.shf b hb0).1 (by simpa using hcon) hb
    unfold is_cluster_start
    rw [h1, h2, h3]; rfl
  have ex : ∃ k, is_cluster_start (get_elem qf (0 + k)) = true ∧ k < 2 ^ q :=
    ⟨b % 2 ^ q, by
      have : get_elem qf (0 + b % 2 ^ q) = slot q qf b := by
        rw [Nat.zero_add]; rfl
      rw [this]; exact hcs, Nat.mod_lt _ hn⟩
  obtain ⟨hk1, hk2⟩ := Nat.find_spec ex
  have hmin : ∀ j, j < Nat.find ex → is_cluster_start (get_elem qf (0 + j)) = false := by
    intro j hj
    have := Nat.find_min ex hj
    have hj' : j < 2 ^ q := by omega
    simp only [not_and_or] at this
    rcases this with h' | h'
    · simpa using h'
    · exact absurd hj' h'
  have hscan := cluster_scan_spec qf (Nat.find ex) 0 qf.max_size
    (by rw [inv.wf.max_size_eq]; exact hk2) hmin hk1
  generalize Nat.find ex = a at hk1 hk2 hscan
  rw [Nat.zero_add] at hk1 hscan
  have hs : slot q qf a = get_elem qf a := slot_of_lt q qf hk2
  obtain ⟨c1, c2, c3⟩ := cluster_start_bits hk1
  refine ⟨a, hk2, hscan, ?_, by rw [hs]; exact hk1⟩
  by_contra hD
  have hne' : is_empty_element (slot q qf a) = false := by
    rw [hs]; exact not_empty_of_occupied c1
  have := (inv.shf a hne').2 hD
  rw [hs, c3] at this
  exact absurd this (by decide)

theorem first_entry {q r : Nat} {qf : quotient_filter} {D : Nat → Nat} :
    ∀ (len p : Nat), 0 < (yieldsFrom q r qf D p len).length →
      ∃ e, e < len ∧ (∀ j, j < e → is_empty_element (slot q qf (p + j)) = true) ∧
        is_empty_element (slot q qf (p + e)) = false := by
  intro len
  induction len with
  | zero => intro p h; simp [yieldsFrom] at h
  | succ len ih =>
    intro p h
    by_cases hne : is_empty_element (slot q qf p) = false
    · exact ⟨0, by omega, fun j hj => absurd hj (Nat.not_lt_zero _), hne⟩
    · rw [yieldsFrom, if_neg hne] at h
      obtain ⟨e, h1, h2, h3⟩ := ih (p + 1) h
      refine ⟨e + 1, by omega, ?_, ?_⟩
      · intro j hj
        cases j with
        | zero => simpa using hne
        | succ j =>
          have := h2 j (by omega)
          have e1 : p + (j + 1) = p + 1 + j := by omega
          rw [e1]; exact this
      · have e1 : p + (e + 1) = p + 1 + e := by omega
        rw [e1]; exact h3


theorem empty_bits {x : Nat} (h : is_empty_element x = true) :
    is_cluster_start x = false ∧ is_run_start x = false := by
  rw [is_empty_element_eq] at h
  unfold is_cluster_start is_run_start
  revert h
  cases is_occupied x <;> cases is_continuation x <;> cases is_shifted x <;> simp

/-- The quotient the iterator computes at an entry: the canonical slot of the entry. -/
theorem iter_quotient {q r : Nat} {qf : quotient_filter} {D : Nat → Nat} (inv : Inv q r qf D)
    {a p cq f : Nat} (ha : D a = 0) (hap : a ≤ p)
    (hne : is_empty_element (slot q qf p) = false)
    (hq : D p ≠ 0 → cq = (p - 1 - D (p - 1)) % 2 ^ q) (hf : 2 ^ q ≤ f) :
    (if is_cluster_start (slot q qf p) then some (p % 2 ^ q)
      else if is_run_start (slot q qf p) then next_occupied_loop qf f cq
      else some cq) = some ((p - D p) % 2 ^ q) := by
  have hn := inv.wf.n_pos
  by_cases hD : D p = 0
  · have h1 : is_occupied (slot q qf p) = true := (inv.occ p).2 ⟨0, hne, hD⟩
    have h2 : is_continuation (slot q qf p) = false := by
      have := inv.not_continuation_period hD
      rwa [slot_add_period] at this
    have h3 : is_shifted (slot q qf p) = false := by
      by_contra hcon
      exact (inv.shf p hne).1 (by simpa using hcon) hD
    have hcs : is_cluster_start (slot q qf p) = true := by
      unfold is_cluster_start; rw [h1, h2, h3]; rfl
    rw [if_pos hcs, hD, Nat.sub_zero]
  · have h3 : is_shifted (slot q qf p) = true := (inv.shf p hne).2 hD
    have hcs : is_cluster_start (slot q qf p) = false := by
      unfold is_cluster_start; rw [h3]; simp
    rw [if_neg (by rw [hcs]; decide)]
    have hp1 : 1 ≤ p := by
      rcases Nat.eq_zero_or_pos p with h0 | h0
      · subst h0
        have : a = 0 := by omega
        subst this
        exact absurd ha hD
      · exact h0
    obtain ⟨p', rfl⟩ : ∃ p', p = p' + 1 := ⟨p - 1, by omega⟩
    have hcq := hq hD
    rw [Nat.add_sub_cancel] at hcq
    have hadj := (inv.adj p' hD).2
    have hDp' : D p' ≤ p' := by
      have := inv.D_add_le a (p' - a)
      have e : a + (p' - a) = p' := by
        by_contra hcon
        have : a = p' + 1 := by omega
        rw [this] at ha
        exact hD ha
      rw [e] at this
      omega
    by_cases hc : is_continuation (slot q qf (p' + 1)) = true
    · have hrs : is_run_start (slot q qf (p' + 1)) = false := by
        unfold is_run_start; rw [hc]; rfl
      rw [if_neg (by rw [hrs]; decide), hcq]
      have := (inv.cont p' hne).1 hc
      have e : p' + 1 - D (p' + 1) = p' - D p' := by omega
      rw [e]
    · have hc' : is_continuation (slot q qf (p' + 1)) = false := by simpa using hc
      have hrs : is_run_start (slot q qf (p' + 1)) = true := by
        unfold is_run_start; rw [hc', h3]; simp
      rw [if_pos hrs, hcq]
      have hlt : D (p' + 1) ≤ D p' := by
        have := (inv.cont p' hne).not.1 hc
        omega
      have hlt' := inv.D_lt p'
      have hspec := next_occupied_loop_spec inv.wf (D p' - D (p' + 1)) (p' - D p') f
        (by
          intro j hj
          by_contra hcon
          have hocc : is_occupied (slot q qf (p' - D p' + 1 + j)) = true := by simpa using hcon
          obtain ⟨k, _, hk⟩ := (inv.occ _).1 hocc
          rcases Nat.le_total (p' - D p' + 1 + j + k) p' with hle | hle
          · have := inv.D_add_le (p' - D p' + 1 + j + k) (p' - (p' - D p' + 1 + j + k))
            have e : p' - D p' + 1 + j + k + (p' - (p' - D p' + 1 + j + k)) = p' := by omega
            rw [e] at this
            omega
          · rcases Nat.eq_or_lt_of_le hle with heq | hlt2
            · rw [← heq] at hk; omega
            · have := inv.D_add_le (p' + 1) (p' - D p' + 1 + j + k - (p' + 1))
              have e : p' + 1 + (p' - D p' + 1 + j + k - (p' + 1)) = p' - D p' + 1 + j + k := by
                omega
              rw [e] at this
              omega)
        (by
          apply (inv.occ _).2
          refine ⟨D (p' + 1), ?_, ?_⟩
          · have e : p' - D p' + 1 + (D p' - D (p' + 1)) + D (p' + 1) = p' + 1 := by omega
            rw [e]; exact hne
          · have e : p' - D p' + 1 + (D p' - D (p' + 1)) + D (p' + 1) = p' + 1 := by omega
            rw [e])
        (by omega)
      rw [hspec]
      have e : p' - D p' + 1 + (D p' - D (p' + 1)) = p' + 1 - D (p' + 1) := by omega
      rw [e]

/-- One call of `qfi_next` skips the empty slots up to the next entry and yields it. -/
theorem qfi_next_spec {q r : Nat} {qf : quotient_filter} {D : Nat → Nat} (inv : Inv q r qf D)
    {a : Nat} (ha : D a = 0) :
    ∀ (e p fuel : Nat) (i : qf_iterator), a ≤ p → i.index = p % 2 ^ q →
      (D p ≠ 0 → i.quotient = (p - 1 - D (p - 1)) % 2 ^ q) →
      qf.entries ≠ i.visited →
      (∀ j, j < e → is_empty_element (slot q qf (p + j)) = true) →
      is_empty_element (slot q qf (p + e)) = false → e + 2 ^ q < fuel →
      qfi_next qf fuel i = some (fpAt q r qf D (p + e),
        ⟨(p + e + 1) % 2 ^ q, (p + e - D (p + e)) % 2 ^ q, (i.visited + 1) % 2 ^ 64⟩) := by
  intro e
  induction e with
  | zero =>
    intro p fuel i hap hidx hq hv _ hne hf
    obtain ⟨f, rfl⟩ : ∃ f, fuel = f + 1 := ⟨fuel - 1, by omega⟩
    have hdone : qfi_done qf i = false := by
      unfold qfi_done; simpa using hv
    have hne' : is_empty_element (slot q qf p) = false := hne
    have hslot : get_elem qf (p % 2 ^ q) = slot q qf p := rfl
    have hquot := iter_quotient inv ha hap hne' hq (show 2 ^ q ≤ f by omega)
    rw [qfi_next]
    simp only [hdone, hidx, hslot, hquot, hne', incr_mod inv.wf, inv.wf.rbits_eq]
    simp [fpAt]
  | succ e ih =>
    intro p fuel i hap hidx hq hv hemp hne hf
    obtain ⟨f, rfl⟩ : ∃ f, fuel = f + 1 := ⟨fuel - 1, by omega⟩
    have hdone : qfi_done qf i = false := by
      unfold qfi_done; simpa using hv
    have he0 : is_empty_element (slot q qf p) = true := hemp 0 (by omega)
    have hslot : get_elem qf (p % 2 ^ q) = slot q qf p := rfl
    obtain ⟨b1, b2⟩ := empty_bits he0
    have hrec := ih (p + 1) f ⟨(p + 1) % 2 ^ q, i.quotient, i.visited⟩ (by omega) rfl
      (by
        intro hD
        have := (inv.adj p hD).1
        rw [he0] at this
        exact absurd this (by decide))
      hv
      (by
        intro j hj
        have := hemp (j + 1) (by omega)
        have e1 : p + (j + 1) = p + 1 + j := by omega
        rwa [e1] at this)
      (by
        have e1 : p + (e + 1) = p + 1 + e := by omega
        rwa [e1] at hne)
      (by omega)
    rw [qfi_next]
    simp only [hdone, hidx, hslot, b1, b2, he0, incr_mod inv.wf]
    simp only [Bool.false_eq_true, if_false, Bool.not_true]
    have e1 : p + (e + 1) = p + 1 + e := by omega
    rw [e1]
    exact hrec


/-- Calling `qfi_next` until `qfi_done` yields the entries from the cursor to the end of the
window, in table order. -/
theorem qfi_collect_spec {q r : Nat} {qf : quotient_filter} {D : Nat → Nat} (inv : Inv q r qf D)
    {a : Nat} (ha : D a = 0) :
    ∀ (c p steps fuel : Nat) (i : qf_iterator), a ≤ p → p ≤ a + 2 ^ q → i.index = p % 2 ^ q →
      (D p ≠ 0 → i.quotient = (p - 1 - D (p - 1)) % 2 ^ q) →
      i.visited + c = qf.entries →
      (yieldsFrom q r qf D p (a + 2 ^ q - p)).length = c → c < steps → 2 * 2 ^ q < fuel →
      qfi_collect qf fuel steps i = some (yieldsFrom q r qf D p (a + 2 ^ q - p)) := by
  intro c
  induction c with
  | zero =>
    intro p steps fuel i _ _ _ _ hv hlen hs _
    obtain ⟨s, rfl⟩ : ∃ s, steps = s + 1 := ⟨steps - 1, by omega⟩
    have hdone : qfi_done qf i = true := by
      unfold qfi_done; simp; omega
    rw [qfi_collect, if_pos hdone, yieldsFrom_nil_of_length hlen]
  | succ c ih =>
    intro p steps fuel i hap hpn hidx hq hv hlen hs hf
    obtain ⟨s, rfl⟩ : ∃ s, steps = s + 1 := ⟨steps - 1, by omega⟩
    have hdone : qfi_done qf i = false := by
      unfold qfi_done; simp; omega
    obtain ⟨e, he, hemp, hne⟩ := first_entry (a + 2 ^ q - p) p (by rw [hlen]; omega)
    have hnext := qfi_next_spec inv ha e p fuel i hap hidx hq (by omega) hemp hne (by omega)
    have hle := inv.entries_le
    have hn30 := inv.wf.n_le
    have hvis : (i.visited + 1) % 2 ^ 64 = i.visited + 1 := Nat.mod_eq_of_lt (by
      have : (2 : Nat) ^ 30 < 2 ^ 64 - 1 := by norm_num
      omega)
    have hsplit : yieldsFrom q r qf D p (a + 2 ^ q - p)
        = fpAt q r qf D (p + e) :: yieldsFrom q r qf D (p + e + 1) (a + 2 ^ q - (p + e + 1)) := by
      rw [yieldsFrom_of_empty e p (a + 2 ^ q - p) (by omega) hemp]
      obtain ⟨l, hl⟩ : ∃ l, a + 2 ^ q - p - e = l + 1 := ⟨a + 2 ^ q - p - e - 1, by omega⟩
      rw [hl, yieldsFrom, if_pos hne]
      have : a + 2 ^ q - (p + e + 1) = l := by omega
      rw [this]
    have hrec := ih (p + e + 1) s fuel
      ⟨(p + e + 1) % 2 ^ q, (p + e - D (p + e)) % 2 ^ q, (i.visited + 1) % 2 ^ 64⟩
      (by omega) (by omega) rfl (fun _ => by simp)
      (by show (i.visited + 1) % 2 ^ 64 + c = qf.entries; rw [hvis]; omega)
      (by
        rw [hsplit] at hlen
        simpa using hlen)
      (by omega) hf
    rw [qfi_collect, if_neg (by rw [hdone]; decide), hnext]
    simp only [hrec, hsplit]

/-- On a fresh table that holds all `2^q` slots, the property of C10: in every state reached
from a fresh filter (1 ≤ q ≤ 30, 1 ≤ r ≤ 60, q + r ≤ 64) by
`qf_insert` calls, `qfi_start` followed by `qfi_next` until `qfi_done` terminates and yields
exactly `entries` values, no value twice, and the yielded values are exactly the fingerprints
`quotient << r | remainder` (the low `q + r` bits) of the hashes whose `qf_insert` returned
`true`; on an empty filter the iterator is done at once. -/
theorem iterator_complete (q r : Nat) (hq : 1 ≤ q) (hq' : q ≤ 30) (hr : 1 ≤ r)
    (hr' : r ≤ 60) (hqr : q + r ≤ 64) (qf : quotient_filter) (ok : List Nat)
    (hreach : Reach q r qf ok) (i0 : qf_iterator) (fuel : Nat) (hf : 2 * 2 ^ q < fuel) :
    ∃ vals, qfi_all fuel qf i0 = some vals ∧ vals.length = qf.entries ∧ vals.Nodup ∧
      (∀ v, v ∈ vals ↔ ∃ h, h ∈ ok ∧ v = fingerprint qf h) ∧
      (∀ h, fingerprint qf h = h % 2 ^ (q + r)) ∧
      (qf.entries = 0 → qfi_done qf (qfi_start qf i0) = true) := by
  obtain ⟨D, inv, hst⟩ := reach_inv hq hq' hr hr' hreach
  have hn := inv.wf.n_pos
  have hmem : ∀ (a : Nat), D a = 0 → ∀ v, v ∈ yieldsFrom q r qf D a (2 ^ q) ↔
      ∃ h, h ∈ ok ∧ v = fingerprint qf h := by
    intro a ha v
    rw [mem_yieldsFrom_window inv hqr ha]
    constructor
    · rintro ⟨c, fr, hc, hs, rfl⟩
      obtain ⟨h, hm, h1, h2⟩ := (hst c fr hc).1 hs
      exact ⟨h, hm, by rw [(fingerprint_eq inv.wf hqr h).1, h1, h2]⟩
    · rintro ⟨h, hm, rfl⟩
      exact ⟨(h >>> r) % 2 ^ q, h % 2 ^ r, Nat.mod_lt _ hn,
        (hst _ _ (Nat.mod_lt _ hn)).2 ⟨h, hm, rfl, rfl⟩, (fingerprint_eq inv.wf hqr h).1⟩
  have hdone0 : qf.entries = 0 → qfi_done qf (qfi_start qf i0) = true := by
    intro h0
    unfold qfi_start qfi_done
    simp [h0]
  by_cases h0 : qf.entries = 0
  · obtain ⟨a, ha⟩ := inv.anchor
    have hnil : yieldsFrom q r qf D a (2 ^ q) = [] :=
      yieldsFrom_nil_of_length (by rw [length_yieldsFrom_window inv a, h0])
    refine ⟨[], ?_, by rw [h0]; rfl, List.nodup_nil, ?_,
      fun h => (fingerprint_eq inv.wf hqr h).2, hdone0⟩
    · obtain ⟨f, rfl⟩ : ∃ f, fuel = f + 1 := ⟨fuel - 1, by omega⟩
      unfold qfi_all
      rw [qfi_collect, if_pos (hdone0 h0)]
    · intro v
      rw [← hmem a ha v, hnil]
  · obtain ⟨a, ha, hscan, hDa, _⟩ := inv.first_cluster_start (Nat.pos_of_ne_zero h0)
    have hstart : qfi_start qf i0 = ⟨a, i0.quotient, 0⟩ := by
      unfold qfi_start
      simp [h0, hscan]
    have hlen := length_yieldsFrom_window inv a
    have hle := inv.entries_le
    have hcol := qfi_collect_spec inv hDa qf.entries a fuel fuel ⟨a, i0.quotient, 0⟩
      (Nat.le_refl _) (by omega) (Nat.mod_eq_of_lt ha).symm (fun h => absurd hDa h)
      (by simp) (by rw [Nat.add_sub_cancel_left]; exact hlen) (by omega) hf
    rw [Nat.add_sub_cancel_left] at hcol
    refine ⟨yieldsFrom q r qf D a (2 ^ q), ?_, hlen, ?_, hmem a hDa,
      fun h => (fingerprint_eq inv.wf hqr h).2, hdone0⟩
    · unfold qfi_all
      rw [hstart, hcol]
    · have := nodup_yieldsFrom inv hqr hDa (2 ^ q) 0 (by omega)
      rwa [Nat.add_zero] at this

theorem iterator_complete_witness :
    Reach 3 3 example_filter [1, 0] ∧
    ∃ vals, qfi_all 17 example_filter ⟨5, 6, 7⟩ = some vals ∧
      vals.length = example_filter.entries ∧ vals.Nodup ∧
      (∀ v, v ∈ vals ↔ ∃ h, h ∈ [1, 0] ∧ v = fingerprint example_filter h) ∧
      (∀ h, fingerprint example_filter h = h % 2 ^ (3 + 3)) ∧
      (example_filter.entries = 0 →
        qfi_done example_filter (qfi_start example_filter ⟨5, 6, 7⟩) = true) :=
  ⟨example_reach,
    iterator_complete 3 3 (by decide) (by decide) (by decide) (by decide) (by decide)
      example_filter [1, 0] example_reach ⟨5, 6, 7⟩ 17 (by decide)⟩


/-! ## Initialisation and table size -/

theorem int_one_shl_eq {q : Nat} (hq : q ≤ 31) : int_one_shl q = 2 ^ q := by
  unfold int_one_shl
  rw [Nat.mod_eq_of_lt (show q < 32 by omega), Nat.one_shiftLeft]
  exact Nat.mod_eq_of_lt (Nat.pow_lt_pow_right (by decide) (by omega))

/-- While the product `2^q * (r + 3)` fits 32 bits, `qf_table_size` is the number of bytes
that hold `2^q` slots of `r + 3` bits. -/
theorem qf_table_size_eq {q r : Nat} (hq : q ≤ 31) (hfit : 2 ^ q * (r + 3) < 2 ^ 32) :
    qf_table_size q r = (2 ^ q * (r + 3) + 7) / 8 := by
  have hr : r + 3 < 2 ^ 32 := by
    have : 1 ≤ 2 ^ q := Nat.one_le_two_pow
    calc r + 3 = 1 * (r + 3) := by ring
      _ ≤ 2 ^ q * (r + 3) := Nat.mul_le_mul_right _ this
      _ < 2 ^ 32 := hfit
  unfold qf_table_size
  simp only [int_one_shl_eq hq, Nat.mod_eq_of_lt hr, Nat.mod_eq_of_lt hfit]
  split <;> omega

/-- The rejections of `qf_init`: a zero parameter, or a sum above 64 that fits 32 bits. -/
theorem qf_init_none {q r : Nat} (h : q = 0 ∨ r = 0 ∨ (64 < q + r ∧ q + r < 2 ^ 32)) :
    qf_init q r = none := by
  unfold qf_init
  rw [if_pos]
  rcases h with h | h | ⟨h1, h2⟩
  · exact Or.inl h
  · exact Or.inr (Or.inl h)
  · exact Or.inr (Or.inr (by rw [Nat.mod_eq_of_lt h2]; exact h1))

/-- For `q ≤ 30`, `r ≤ 60` and a table size that fits 32 bits, `qf_init` gives the fresh
filter when `q + r ≤ 64`: the fields for `q` and `r`, no entries, every slot zero. -/
theorem qf_init_fresh {q r : Nat} (hq : 1 ≤ q) (hq' : q ≤ 30) (hr : 1 ≤ r) (hr' : r ≤ 60)
    (hqr : q + r ≤ 64) (hfit : 2 ^ q * (r + 3) < 2 ^ 32) :
    ∃ qf, qf_init q r = some qf ∧ WF q r qf ∧ Reach q r qf [] ∧ qf.entries = 0 ∧
      ∀ i, i < 2 ^ q → get_elem qf i = 0 := by
  have hw : 2 ^ q * (r + 3) ≤ 64 * ((qf_table_size q r + 7) / 8) := by
    rw [qf_table_size_eq (by omega) hfit]; omega
  refine ⟨init_fields q r (calloc_words (qf_table_size q r)), ?_,
    init_fields_wf hq hq' hr hr' hw, Reach.init _ hw, rfl, ?_⟩
  · unfold qf_init
    rw [if_neg]
    have : (q + r) % 2 ^ 32 = q + r := Nat.mod_eq_of_lt (by
      have : (90 : Nat) < 2 ^ 32 := by norm_num
      omega)
    rw [this]
    omega
  · intro i hi
    have := slot_fresh hq hq' hr hr' hw i
    rwa [slot_of_lt q _ hi] at this


/-- C11 (the code falls short of the claim): `qf_init` accepts `q = 31`, `r = 1`, where
`q + r ≤ 64`, and leaves `max_size = 2^64 - 2^31` instead of `2^31`: `1 << q` is evaluated as
a 32-bit `int`, and no 32-bit `int` converts to `2^31`.  It also accepts `q = 2^32 - 1`,
`r = 2`, whose sum wraps to 1 in 32 bits. -/
theorem init_capacity_at_q31 :
    31 + 1 ≤ 64 ∧ qf_init 31 1 = some (init_fields 31 1 []) ∧
      (init_fields 31 1 []).max_size = 2 ^ 64 - 2 ^ 31 ∧
      (init_fields 31 1 []).max_size ≠ 2 ^ 31 ∧
      (∀ v, v < 2 ^ 32 → sext32 v ≠ 2 ^ 31) ∧
      64 < 4294967295 + 2 ∧ (qf_init 4294967295 2).isSome = true := by
  refine ⟨by decide, by decide, by decide, by decide, ?_, by decide, by decide⟩
  intro v hv
  unfold sext32
  split <;> omega

/-- C12 (the code falls short of the claim): `qf_table_size 30 1` is 0, while `2^30` slots of
4 bits take `2^29` bytes: the product `(1 << q) * (r + 3)` is computed in 32 bits and
`2^30 * 4` wraps to 0.  `qf_init 30 1` then allocates no byte. -/
theorem table_size_wraps :
    30 + 1 ≤ 64 ∧ qf_table_size 30 1 = 0 ∧ (2 ^ 30 * (1 + 3) + 7) / 8 = 2 ^ 29 ∧
      qf_init 30 1 = some (init_fields 30 1 []) := by
  refine ⟨by decide, by decide, by decide, by decide⟩

/-- C13 (the claim fails as stated): with `q = r = 3`, after inserting the hashes 0, 8 and 16
slot 1 holds the remainder 0, not 1, and is `occupied`, neither `continuation` nor
`shifted`. -/
theorem scenario_0_8_16_slot_1 :
    qf_init 3 3 = some (init_fields 3 3 [0]) ∧
      run_calls 17 (init_fields 3 3 [0]) [Call.insert 0, Call.insert 8, Call.insert 16]
        = some example_filter_0_8_16 ∧
      get_remainder (get_elem example_filter_0_8_16 1) ≠ 1 ∧
      is_occupied (get_elem example_filter_0_8_16 1) ≠ false ∧
      is_continuation (get_elem example_filter_0_8_16 1) ≠ true ∧
      is_shifted (get_elem example_filter_0_8_16 1) ≠ true := by
  refine ⟨by decide, by decide, by decide, by decide, by decide, by decide⟩

/-- C13 (amended): with `q = r = 3`, the hashes 0, 8 and 16 have the quotients 0, 1, 2 and
the remainder 0; after inserting them into a fresh filter, slots 0, 1 and 2 each hold the
remainder 0 and are `occupied`, neither `continuation` nor `shifted`.  The layout with the
remainders 0, 1, 2, slot 0 `occupied` only and slots 1, 2 `continuation` and `shifted` only,
is the one after inserting the hashes 0, 1 and 2. -/
theorem scenario_0_8_16 :
    qf_init 3 3 = some (init_fields 3 3 [0]) ∧
      run_calls 17 (init_fields 3 3 [0]) [Call.insert 0, Call.insert 8, Call.insert 16]
        = some example_filter_0_8_16 ∧
      (List.range 3).map (fun h => hash_to_quotient (init_fields 3 3 [0]) (8 * h)) = [0, 1, 2] ∧
      (List.range 3).map (fun h => hash_to_remainder (init_fields 3 3 [0]) (8 * h)) = [0, 0, 0] ∧
      (∀ i, i < 3 → get_remainder (get_elem example_filter_0_8_16 i) = 0 ∧
        is_occupied (get_elem example_filter_0_8_16 i) = true ∧
        is_continuation (get_elem example_filter_0_8_16 i) = false ∧
        is_shifted (get_elem example_filter_0_8_16 i) = false) ∧
      run_calls 17 (init_fields 3 3 [0]) [Call.insert 0, Call.insert 1, Call.insert 2]
        = some example_filter_0_1_2 ∧
      (∀ i, i < 3 → get_remainder (get_elem example_filter_0_1_2 i) = i) ∧
      is_occupied (get_elem example_filter_0_1_2 0) = true ∧
      is_continuation (get_elem example_filter_0_1_2 0) = false ∧
      is_shifted (get_elem example_filter_0_1_2 0) = false ∧
      (∀ i, 1 ≤ i → i < 3 → is_occupied (get_elem example_filter_0_1_2 i) = false ∧
        is_continuation (get_elem example_filter_0_1_2 i) = true ∧
        is_shifted (get_elem example_filter_0_1_2 i) = true) := by
  refine ⟨by decide, by decide, by decide, by decide, by decide, by decide, by decide,
    by decide, by decide, by decide, by decide⟩

/-- C14 (the code falls short of the claim): with `q = r = 3`, after inserting the hashes 0
and 1 and removing the hash 0 twice, `entries` is 0 while slot 0 is still not empty.  The
second removal finds the remainder 0 in the empty slot 1 and counts it as an entry. -/
theorem entries_after_double_remove :
    qf_init 3 3 = some (init_fields 3 3 [0]) ∧
      run_calls 17 (init_fields 3 3 [0])
        [Call.insert 0, Call.insert 1, Call.remove 0, Call.remove 0]
        = some { example_filter_removed with entries := 0 } ∧
      nonempty_slots { example_filter_removed with entries := 0 } = 1 ∧
      is_empty_element (get_elem { example_filter_removed with entries := 0 } 0) = false := by
  refine ⟨by decide, by decide, by decide, by decide⟩


/-! ## Runs -/

/-- In a table that satisfies the invariant, an entry that is a continuation follows a
non-empty slot with a smaller remainder. -/
theorem Inv.sorted_step {q r : Nat} {qf : quotient_filter} {D : Nat → Nat} (inv : Inv q r qf D)
    (p : Nat) (hc : is_continuation (slot q qf (p + 1)) = true) :
    is_empty_element (slot q qf p) = false ∧
      get_remainder (slot q qf p) < get_remainder (slot q qf (p + 1)) := by
  have hne := not_empty_of_continuation hc
  have hD := (inv.cont p hne).1 hc
  exact ⟨(inv.adj p (by omega)).1, inv.rem p hc⟩

/-- On a fresh table that holds all `2^q` slots, the property of C15: in every state reached
from a fresh filter (1 ≤ q ≤ 30, 1 ≤ r ≤ 60, q + r ≤ 64) by
`qf_insert` calls, for every slot index `i` whose successor slot `(i + 1) mod 2^q` is a
continuation, slot `i` is not empty and its remainder is smaller than the remainder of the
successor slot. -/
theorem sorted_runs (q r : Nat) (hq : 1 ≤ q) (hq' : q ≤ 30) (hr : 1 ≤ r)
    (hr' : r ≤ 60) (_hqr : q + r ≤ 64) (qf : quotient_filter) (ok : List Nat)
    (hreach : Reach q r qf ok) (i : Nat) (hi : i < 2 ^ q)
    (hc : is_continuation (get_elem qf ((i + 1) % 2 ^ q)) = true) :
    is_empty_element (get_elem qf i) = false ∧
      get_remainder (get_elem qf i) < get_remainder (get_elem qf ((i + 1) % 2 ^ q)) := by
  obtain ⟨D, inv, _⟩ := reach_inv hq hq' hr hr' hreach
  have := inv.sorted_step i hc
  rwa [slot_of_lt q qf hi] at this

theorem sorted_runs_witness :
    Reach 3 3 example_filter [1, 0] ∧
      is_continuation (get_elem example_filter ((0 + 1) % 2 ^ 3)) = true ∧
      is_empty_element (get_elem example_filter 0) = false ∧
      get_remainder (get_elem example_filter 0)
        < get_remainder (get_elem example_filter ((0 + 1) % 2 ^ 3)) :=
  ⟨example_reach, by decide,
    sorted_runs 3 3 (by decide) (by decide) (by decide) (by decide) (by decide)
      example_filter [1, 0] example_reach 0 (by decide) (by decide)⟩

/-- The head of the run of an occupied quotient: `find_run_index` returns its slot `s`; the
entry there is no continuation, belongs to the quotient, has the least remainder of the run,
and is shifted exactly when `s` is not the canonical slot. -/
theorem run_head {q r : Nat} {qf : quotient_filter} {D : Nat → Nat} (inv : Inv q r qf D)
    {fq : Nat} (hfq : fq < 2 ^ q) (hocc : is_occupied (slot q qf fq) = true)
    {fuel : Nat} (hf : 2 * 2 ^ q < fuel) :
    ∃ s, find_run_index fuel qf fq = some s ∧ s < 2 ^ q ∧
      is_empty_element (get_elem qf s) = false ∧
      is_continuation (get_elem qf s) = false ∧
      Stored q qf D fq (get_remainder (get_elem qf s)) ∧
      (∀ fr, Stored q qf D fq fr → get_remainder (get_elem qf s) ≤ fr) ∧
      (s ≠ fq ↔ is_shifted (get_elem qf s) = true) := by
  have hn := inv.wf.n_pos
  have view := OccView.refl q qf hocc
  obtain ⟨b, φ, σ, i, res, h1, h2, h3, h4, h5, h6, _, _, h9, h10, _, _, _⟩ :=
    run_lookup inv inv.wf view hfq hocc hf 0
  have hslot : get_elem qf ((b + σ) % 2 ^ q) = slot q qf (b + σ) := rfl
  obtain ⟨hne, hD⟩ := h10 0 (Nat.zero_le _)
  have hne' : is_empty_element (slot q qf (b + σ)) = false := hne
  have hD' : D (b + σ) + φ = σ := hD
  refine ⟨(b + σ) % 2 ^ q, h6, Nat.mod_lt _ hn, ?_, ?_, ?_, ?_, ?_⟩
  · rw [hslot]; exact hne'
  · rw [hslot]
    rcases Nat.eq_zero_or_pos σ with h0 | h0
    · subst h0
      have hb : D (b + 0) = 0 := by omega
      have := inv.not_continuation_period hb
      rwa [slot_add_period] at this
    · obtain ⟨σ', rfl⟩ : ∃ σ', σ = σ' + 1 := ⟨σ - 1, by omega⟩
      have hb := (h9 σ' (by omega)).2
      by_contra hcon
      have hc : is_continuation (slot q qf (b + σ' + 1)) = true := by simpa using hcon
      have := (inv.cont (b + σ') hne').1 hc
      have e : D (b + (σ' + 1)) = D (b + σ' + 1) := rfl
      omega
  · rw [hslot]
    have e : (fq + D (b + σ)) % 2 ^ q = (b + σ) % 2 ^ q := by
      have e1 := add_mod_congr (show fq % 2 ^ q = (b + φ) % 2 ^ q by
        rw [h1, Nat.mod_eq_of_lt hfq]) (D (b + σ))
      rw [e1]
      congr 1
      omega
    exact ⟨D (b + σ), by rw [slot_congr q qf e]; exact hne', inv.D_congr e,
      by rw [slot_congr q qf e]⟩
  · intro fr hst
    obtain ⟨b', φ', σ', i', res', _, _, _, _, _, g6, _, _, _, _, g11, g12, g13⟩ :=
      run_lookup inv inv.wf view hfq hocc hf fr
    have heq : (b + σ) % 2 ^ q = (b' + σ') % 2 ^ q := by
      rw [h6] at g6
      exact Option.some.inj g6
    rw [heq]
    have hslot' : get_elem qf ((b' + σ') % 2 ^ q) = slot q qf (b' + σ') := rfl
    rw [hslot']
    have hres := g13.1 hst
    rcases g12 with ⟨_, hrem⟩ | ⟨hr2, _⟩ | ⟨hr3, _⟩
    · rcases Nat.eq_zero_or_pos i' with hi | hi
      · subst hi
        have : get_remainder (slot q qf (b' + σ' + 0)) = fr := hrem
        exact Nat.le_of_eq this
      · have := (g11 0 hi).1
        exact Nat.le_of_lt this
    · rw [hres] at hr2; exact absurd hr2 (by simp)
    · rw [hres] at hr3; exact absurd hr3 (by simp)
  · rw [hslot, ← h1]
    constructor
    · intro hne2
      apply (inv.shf _ hne').2
      intro hz
      apply hne2
      have : σ = φ := by omega
      rw [this]
    · intro hsh heq
      have hz := (inv.shf _ hne').1 hsh
      have := pos_mod_inj h5 h2 heq
      omega


theorem example_reach_1_2_3_9 : Reach 3 3 example_filter_1_2_3_9 [9, 3, 2, 1] :=
  @Reach.insert_true 3 3
    { example_filter with entries := 3, table := [124297] } example_filter_1_2_3_9 [3, 2, 1] 17 9
    (@Reach.insert_true 3 3
      { example_filter with entries := 2, table := [1417] }
      { example_filter with entries := 3, table := [124297] } [2, 1] 17 3
      (@Reach.insert_true 3 3
        { example_filter with entries := 1, table := [9] }
        { example_filter with entries := 2, table := [1417] } [1] 17 2
        (@Reach.insert_true 3 3 (init_fields 3 3 (List.replicate 1 0))
          { example_filter with entries := 1, table := [9] } [] 17 1
          (Reach.init 1 (by decide)) (by decide))
        (by decide))
      (by decide))
    (by decide)

/-- On a fresh table that holds all `2^q` slots, the property of C16: in every state reached
from a fresh filter (1 ≤ q ≤ 30, 1 ≤ r ≤ 60, q + r ≤ 64) by
`qf_insert` calls, for the quotient `fq` of a hash whose `qf_insert` returned `true`,
`find_run_index` returns a slot index `s` below `2^q`; slot `s` is no continuation, its
remainder is the remainder of an accepted hash with quotient `fq` and the least among the
accepted hashes with quotient `fq`, and `s` differs from `fq` exactly when slot `s` is
shifted. -/
theorem run_location (q r : Nat) (hq : 1 ≤ q) (hq' : q ≤ 30) (hr : 1 ≤ r)
    (hr' : r ≤ 60) (_hqr : q + r ≤ 64) (qf : quotient_filter) (ok : List Nat)
    (hreach : Reach q r qf ok) (h0 : Nat) (hmem : h0 ∈ ok) (fuel : Nat)
    (hf : 2 * 2 ^ q < fuel) :
    ∃ s, find_run_index fuel qf (hash_to_quotient qf h0) = some s ∧ s < 2 ^ q ∧
      is_continuation (get_elem qf s) = false ∧
      (∃ h, h ∈ ok ∧ hash_to_quotient qf h = hash_to_quotient qf h0 ∧
        hash_to_remainder qf h = get_remainder (get_elem qf s)) ∧
      (∀ h, h ∈ ok → hash_to_quotient qf h = hash_to_quotient qf h0 →
        get_remainder (get_elem qf s) ≤ hash_to_remainder qf h) ∧
      (s ≠ hash_to_quotient qf h0 ↔ is_shifted (get_elem qf s) = true) := by
  obtain ⟨D, inv, hst⟩ := reach_inv hq hq' hr hr' hreach
  have hfq := hash_to_quotient_lt inv.wf h0
  have hstored : ∀ h, h ∈ ok →
      Stored q qf D (hash_to_quotient qf h) (hash_to_remainder qf h) := by
    intro h hm
    rw [hst _ _ (hash_to_quotient_lt inv.wf h)]
    exact ⟨h, hm, (hash_to_quotient_eq inv.wf h).symm, (hash_to_remainder_eq inv.wf h).symm⟩
  have hocc : is_occupied (slot q qf (hash_to_quotient qf h0)) = true := by
    obtain ⟨k, h1, h2, _⟩ := hstored h0 hmem
    exact (inv.occ _).2 ⟨k, h1, h2⟩
  obtain ⟨s, g1, g2, _, g4, g5, g6, g7⟩ := run_head inv hfq hocc hf
  refine ⟨s, g1, g2, g4, ?_, ?_, g7⟩
  · obtain ⟨h, hm, e1, e2⟩ := (hst _ _ hfq).1 g5
    exact ⟨h, hm, by rw [hash_to_quotient_eq inv.wf h, e1],
      by rw [hash_to_remainder_eq inv.wf h, e2]⟩
  · intro h hm he
    have := hstored h hm
    rw [he] at this
    exact g6 _ this

theorem run_location_witness :
    Reach 3 3 example_filter_1_2_3_9 [9, 3, 2, 1] ∧ 9 ∈ [9, 3, 2, 1] ∧
      hash_to_quotient example_filter_1_2_3_9 9 = 1 ∧
      find_run_index 17 example_filter_1_2_3_9 1 = some 3 ∧
      is_shifted (get_elem example_filter_1_2_3_9 3) = true ∧
      ∃ s, find_run_index 17 example_filter_1_2_3_9
          (hash_to_quotient example_filter_1_2_3_9 9) = some s ∧ s < 2 ^ 3 ∧
        is_continuation (get_elem example_filter_1_2_3_9 s) = false ∧
        (∃ h, h ∈ [9, 3, 2, 1] ∧
          hash_to_quotient example_filter_1_2_3_9 h = hash_to_quotient example_filter_1_2_3_9 9 ∧
          hash_to_remainder example_filter_1_2_3_9 h
            = get_remainder (get_elem example_filter_1_2_3_9 s)) ∧
        (∀ h, h ∈ [9, 3, 2, 1] →
          hash_to_quotient example_filter_1_2_3_9 h = hash_to_quotient example_filter_1_2_3_9 9 →
          get_remainder (get_elem example_filter_1_2_3_9 s)
            ≤ hash_to_remainder example_filter_1_2_3_9 h) ∧
        (s ≠ hash_to_quotient example_filter_1_2_3_9 9 ↔
          is_shifted (get_elem example_filter_1_2_3_9 s) = true) :=
  ⟨example_reach_1_2_3_9, by decide, by decide, by decide, by decide,
    run_location 3 3 (by decide) (by decide) (by decide) (by decide) (by decide)
      example_filter_1_2_3_9 [9, 3, 2, 1] example_reach_1_2_3_9 9 (by decide) 17 (by decide)⟩

/-! ## Cluster starts -/

/-- On a fresh table that holds all `2^q` slots, the property of C19: in every state reached
from a fresh filter (1 ≤ q ≤ 30, 1 ≤ r ≤ 60, q + r ≤ 64) by
`qf_insert` calls that holds an entry, full or not, some slot is a cluster start; the forward
scan of `qfi_start` stops at one, an index below `2^q`; and from every slot index
the backward scan of `find_run_index` over shifted slots stops within `2^q` tests of the loop
condition, at an index below `2^q` whose slot is not shifted, a cluster start when the scan
began at a non-empty slot. -/
theorem cluster_start_exists (q r : Nat) (hq : 1 ≤ q) (hq' : q ≤ 30) (hr : 1 ≤ r)
    (hr' : r ≤ 60) (_hqr : q + r ≤ 64) (qf : quotient_filter) (ok : List Nat)
    (hreach : Reach q r qf ok) (hpos : 0 < qf.entries) :
    (∃ a, a < 2 ^ q ∧ is_cluster_start (get_elem qf a) = true ∧
      cluster_scan qf qf.max_size 0 = a) ∧
    ∀ fq, fq < 2 ^ q → ∃ b, cluster_start_loop qf (2 ^ q) fq = some b ∧ b < 2 ^ q ∧
      is_shifted (get_elem qf b) = false ∧
      (is_empty_element (get_elem qf fq) = false → is_cluster_start (get_elem qf b) = true) := by
  obtain ⟨D, inv, _⟩ := reach_inv hq hq' hr hr' hreach
  have hn := inv.wf.n_pos
  constructor
  · obtain ⟨a, ha, hscan, _, hcs⟩ := inv.first_cluster_start hpos
    refine ⟨a, ha, ?_, hscan⟩
    rwa [slot_of_lt q qf ha] at hcs
  · intro fq hfq
    by_cases hne : is_empty_element (slot q qf fq) = false
    · obtain ⟨b, φ, h1, h2, h3, h4, h5⟩ := inv.cluster_start hne
      have hb0 : is_empty_element (slot q qf b) = false := h5 0 (Nat.zero_le _)
      have hsh : is_shifted (slot q qf b) = false := by
        by_contra h
        exact ((inv.shf b hb0).1 (by simpa using h)) h3
      have c1 := cluster_start_loop_spec inv.wf b hsh φ (2 ^ q) (by
        intro j hj
        exact (inv.shf _ (h5 (j + 1) (by omega))).2 (h4 j hj)) h2
      rw [h1, Nat.mod_eq_of_lt hfq] at c1
      refine ⟨b % 2 ^ q, c1, Nat.mod_lt _ hn, hsh, fun _ => ?_⟩
      have h1' : is_occupied (slot q qf b) = true := (inv.occ b).2 ⟨0, hb0, h3⟩
      have h2' : is_continuation (slot q qf b) = false := by
        have := inv.not_continuation_period h3
        rwa [slot_add_period] at this
      show is_cluster_start (slot q qf b) = true
      unfold is_cluster_start
      rw [h1', h2', hsh]; rfl
    · have he : is_empty_element (get_elem qf fq) = true := by
        rw [slot_of_lt q qf hfq] at hne
        simpa using hne
      have hsh : is_shifted (get_elem qf fq) = false := by
        rw [is_empty_element_eq] at he
        revert he
        cases is_shifted (get_elem qf fq) <;> simp
      obtain ⟨f, hf⟩ : ∃ f, 2 ^ q = f + 1 := ⟨2 ^ q - 1, by omega⟩
      refine ⟨fq, ?_, hfq, hsh, fun h => ?_⟩
      · rw [hf, cluster_start_loop, hsh]; rfl
      · rw [he] at h; exact absurd h (by decide)

theorem cluster_start_exists_witness :
    Reach 3 3 example_filter [1, 0] ∧ 0 < example_filter.entries ∧
    ((∃ a, a < 2 ^ 3 ∧ is_cluster_start (get_elem example_filter a) = true ∧
      cluster_scan example_filter example_filter.max_size 0 = a) ∧
    ∀ fq, fq < 2 ^ 3 → ∃ b, cluster_start_loop example_filter (2 ^ 3) fq = some b ∧ b < 2 ^ 3 ∧
      is_shifted (get_elem example_filter b) = false ∧
      (is_empty_element (get_elem example_filter fq) = false →
        is_cluster_start (get_elem example_filter b) = true)) :=
  ⟨example_reach, by decide,
    cluster_start_exists 3 3 (by decide) (by decide) (by decide) (by decide) (by decide)
      example_filter [1, 0] example_reach (by decide)⟩


/-! ## The slot array -/

/-- C20 (the code falls short of the claim): with `q = r = 3`, `qf_init` allocates
`qf_table_size 3 3 = 6` bytes, and `get_elem` and `set_elem` for slot 0 dereference the
64-bit word 0 of the table, which ends at byte 8. -/
theorem table_word_beyond_allocation :
    3 + 3 ≤ 64 ∧ qf_init 3 3 = some (init_fields 3 3 [0]) ∧ qf_table_size 3 3 = 6 ∧
      elem_words (init_fields 3 3 [0]) 0 = [0] ∧ word_within (qf_table_size 3 3) 0 = false := by
  refine ⟨by decide, by decide, by decide, by decide, by decide⟩

/-- Where the slots fill whole 64-bit words (`q ≥ 6`) and the table size fits 32 bits, every
word that `get_elem` and `set_elem` dereference lies within the `qf_table_size q r` bytes. -/
theorem elem_words_within {q r : Nat} {qf : quotient_filter} (wf : WF q r qf) (hq : 6 ≤ q)
    (hfit : 2 ^ q * (r + 3) < 2 ^ 32) {i : Nat} (hi : i < 2 ^ q) :
    ∀ w, w ∈ elem_words qf i → word_within (qf_table_size q r) w = true := by
  have hq30 := wf.q_le
  obtain ⟨K, hK⟩ : ∃ K, 2 ^ q * (r + 3) = 64 * K := by
    refine ⟨2 ^ (q - 6) * (r + 3), ?_⟩
    have : 2 ^ q = 64 * 2 ^ (q - 6) := by
      rw [show (64 : Nat) = 2 ^ 6 by norm_num, ← Nat.pow_add]
      congr 1
      omega
    rw [this]; ring
  have hsize : qf_table_size q r = 8 * K := by
    rw [qf_table_size_eq (by omega) hfit, hK]; omega
  have hb : (r + 3) * i + (r + 3) ≤ 2 ^ q * (r + 3) := by
    calc (r + 3) * i + (r + 3) = (i + 1) * (r + 3) := by ring
      _ ≤ 2 ^ q * (r + 3) := Nat.mul_le_mul_right _ hi
  have hmod : (qf.elem_bits * i) % 2 ^ 64 = (r + 3) * i := by
    rw [wf.elem_bits_eq]
    exact Nat.mod_eq_of_lt (by
      have : (2 : Nat) ^ 32 < 2 ^ 64 := by norm_num
      omega)
  intro w hw
  unfold elem_words at hw
  simp only [hmod, wf.elem_bits_eq] at hw
  unfold word_within
  rw [hsize]
  have hr := wf.r_pos
  split at hw
  · simp only [List.mem_cons, List.mem_singleton, List.not_mem_nil, or_false] at hw
    rcases hw with rfl | rfl <;> simp <;> omega
  · simp only [List.mem_singleton] at hw
    subst hw
    simp
    omega

/-- Every table that `qf_init` allocates has fewer than `2^58` words: `qf_table_size` is below
`2^29` bytes. -/
theorem qf_init_table_length {q r : Nat} {qf : quotient_filter} (h : qf_init q r = some qf) :
    qf.table.length ≤ 2 ^ 58 := by
  unfold qf_init at h
  split at h
  · exact absurd h (by simp)
  · injection h with h
    rw [← h]
    have hb : qf_table_size q r ≤ 2 ^ 29 := by
      unfold qf_table_size
      simp only
      have := Nat.mod_lt (int_one_shl q * ((r + 3) % 2 ^ 32)) (show 0 < 2 ^ 32 by norm_num)
      split <;> omega
    show (calloc_words (qf_table_size q r)).length ≤ 2 ^ 58
    unfold calloc_words
    rw [List.length_replicate]
    have : (2 : Nat) ^ 29 + 7 < 2 ^ 58 := by norm_num
    omega

/-- The store/select law of the slot array, where the bit positions of all slots fit 64
bits. -/
theorem get_set_law {q r : Nat} (hr : 1 ≤ r) (hr' : r ≤ 60) {qf : quotient_filter}
    (heb : qf.elem_bits = r + 3) (hmask : qf.elem_mask = 2 ^ (r + 3) - 1)
    (hwords : ∀ w, w ∈ qf.table → w < 2 ^ 64)
    (hlen : 2 ^ q * (r + 3) ≤ 64 * qf.table.length) (hfit : 2 ^ q * (r + 3) ≤ 2 ^ 64)
    {i : Nat} (hi : i < 2 ^ q) (elt : Nat) :
    get_elem (set_elem qf i elt) i = elt % 2 ^ (r + 3) ∧
      ∀ j, j < 2 ^ q → j ≠ i → get_elem (set_elem qf i elt) j = get_elem qf j := by
  have ok : TableOK qf := ⟨by omega, by omega, by rw [hmask, heb], hwords⟩
  have bound : ∀ k, k < 2 ^ q → qf.elem_bits * k + qf.elem_bits ≤ 2 ^ q * (r + 3) := by
    intro k hk
    rw [heb]
    calc (r + 3) * k + (r + 3) = (k + 1) * (r + 3) := by ring
      _ ≤ 2 ^ q * (r + 3) := Nat.mul_le_mul_right _ hk
  have hpos : 0 < qf.elem_bits := by omega
  have hi1 := bound i hi
  constructor
  · have := get_set_same ok (show qf.elem_bits * i < 2 ^ 64 by omega) (by omega) elt
    rwa [heb] at this
  · intro j hj hne
    have hj1 := bound j hj
    exact get_set_other ok (show qf.elem_bits * i < 2 ^ 64 by omega)
      (show qf.elem_bits * j < 2 ^ 64 by omega) (by omega) (Ne.symm hne) elt

/-- C17: for every `q`, every filter with slots of `r + 3` bits, 1 ≤ r ≤ 60, and every table
of 64-bit words that holds `2^q` slots and takes at most `2^61` bytes (`2^58` words), as every
table in the memory of a machine and every table that `qf_init` allocates does
(`qf_init_table_length`): for all slot indices `i, j < 2^q` and every value
`elt`, after `set_elem` for slot `i`, `get_elem` returns `elt mod 2^(r+3)` for slot `i` and
the value from before the write for every slot `j ≠ i`, whether or not a slot straddles two
words. -/
theorem store_select (q r : Nat) (hr : 1 ≤ r) (hr' : r ≤ 60) (qf : quotient_filter)
    (heb : qf.elem_bits = r + 3) (hmask : qf.elem_mask = 2 ^ (r + 3) - 1)
    (hwords : ∀ w, w ∈ qf.table → w < 2 ^ 64)
    (hlen : 2 ^ q * (r + 3) ≤ 64 * qf.table.length) (hmem : qf.table.length ≤ 2 ^ 58)
    (i : Nat) (hi : i < 2 ^ q) (elt : Nat) :
    get_elem (set_elem qf i elt) i = elt % 2 ^ (r + 3) ∧
      ∀ j, j < 2 ^ q → j ≠ i → get_elem (set_elem qf i elt) j = get_elem qf j :=
  get_set_law hr hr' heb hmask hwords hlen (by
    have : (64 : Nat) * 2 ^ 58 = 2 ^ 64 := by norm_num
    omega) hi elt

theorem store_select_witness :
    (init_fields 4 4 [0, 0]).elem_bits = 4 + 3 ∧
      elem_words (init_fields 4 4 [0, 0]) 9 = [0, 1] ∧
      get_elem (set_elem (init_fields 4 4 [0, 0]) 9 255) 9 = 255 % 2 ^ (4 + 3) ∧
      ∀ j, j < 2 ^ 4 → j ≠ 9 →
        get_elem (set_elem (init_fields 4 4 [0, 0]) 9 255) j
          = get_elem (init_fields 4 4 [0, 0]) j :=
  ⟨by decide, by decide,
    store_select 4 4 (by decide) (by decide) (init_fields 4 4 [0, 0]) (by decide) (by decide)
      (by decide) (by decide) (by decide) 9 (by decide) 255⟩


/-! ## The canonical layout -/

/-- A slot value is determined by its three metadata bits and its remainder. -/
theorem slot_ext {x y : Nat} (h0 : is_occupied x = is_occupied y)
    (h1 : is_continuation x = is_continuation y) (h2 : is_shifted x = is_shifted y)
    (h3 : get_remainder x = get_remainder y) : x = y := by
  rw [is_occupied_eq, is_occupied_eq] at h0
  rw [is_continuation_eq, is_continuation_eq] at h1
  rw [is_shifted_eq, is_shifted_eq] at h2
  apply Nat.eq_of_testBit_eq
  intro i
  rcases i with _ | _ | _ | i
  · exact h0
  · exact h1
  · exact h2
  · have := congrArg (fun v => v.testBit i) h3
    simp only [get_remainder, Nat.testBit_shiftRight] at this
    have e : i + 1 + 1 + 1 = 3 + i := by omega
    rw [e]; exact this

theorem length_yieldsFrom_le {q r : Nat} {qf : quotient_filter} {D : Nat → Nat} :
    ∀ (len p : Nat), (yieldsFrom q r qf D p len).length ≤ len := by
  intro len
  induction len with
  | zero => intro p; exact Nat.le_refl _
  | succ len ih =>
    intro p
    rw [yieldsFrom]
    split
    · rw [List.length_cons]; exact Nat.succ_le_succ (ih (p + 1))
    · exact Nat.le_succ_of_le (ih (p + 1))

theorem length_yieldsFrom_full {q r : Nat} {qf : quotient_filter} {D : Nat → Nat} :
    ∀ (len p : Nat), (∀ j, j < len → is_empty_element (slot q qf (p + j)) = false) →
      (yieldsFrom q r qf D p len).length = len := by
  intro len
  induction len with
  | zero => intro p _; rfl
  | succ len ih =>
    intro p h
    have h0 : is_empty_element (slot q qf p) = false := h 0 (by omega)
    rw [yieldsFrom, if_pos h0, List.length_cons, ih (p + 1) (fun j hj => by
      have := h (j + 1) (by omega)
      have e : p + (j + 1) = p + 1 + j := by omega
      rwa [e] at this)]

/-- Two tables with the same stored fingerprints hold the same values on their windows. -/
theorem same_values {q r : Nat} {qf1 qf2 : quotient_filter} {D1 D2 : Nat → Nat}
    (inv1 : Inv q r qf1 D1) (inv2 : Inv q r qf2 D2) (hqr : q + r ≤ 64)
    (hS : ∀ c fr, c < 2 ^ q → (Stored q qf1 D1 c fr ↔ Stored q qf2 D2 c fr))
    {a1 a2 : Nat} (h1 : D1 a1 = 0) (h2 : D2 a2 = 0) (v : Nat) :
    v ∈ yieldsFrom q r qf1 D1 a1 (2 ^ q) ↔ v ∈ yieldsFrom q r qf2 D2 a2 (2 ^ q) := by
  rw [mem_yieldsFrom_window inv1 hqr h1, mem_yieldsFrom_window inv2 hqr h2]
  constructor
  · rintro ⟨c, fr, hc, hs, hv⟩
    exact ⟨c, fr, hc, (hS c fr hc).1 hs, hv⟩
  · rintro ⟨c, fr, hc, hs, hv⟩
    exact ⟨c, fr, hc, (hS c fr hc).2 hs, hv⟩

/-- Along a window, the pairs of canonical slot and remainder increase strictly. -/
theorem key_lt {q r : Nat} {qf : quotient_filter} {D : Nat → Nat} (inv : Inv q r qf D)
    {a j1 j2 : Nat} (hlt : j1 < j2)
    (hne2 : is_empty_element (slot q qf (a + j2)) = false) :
    j1 + D (a + j2) < j2 + D (a + j1) ∨
      (j1 + D (a + j2) = j2 + D (a + j1) ∧
        get_remainder (slot q qf (a + j1)) < get_remainder (slot q qf (a + j2))) := by
  have d3 := inv.D_add_le (a + j1) (j2 - j1)
  have e3 : a + j1 + (j2 - j1) = a + j2 := by omega
  rw [e3] at d3
  by_cases hs : j1 + D (a + j2) < j2 + D (a + j1)
  · exact Or.inl hs
  · right
    have hD : D (a + j1 + (j2 - j1)) = D (a + j1) + (j2 - j1) := by rw [e3]; omega
    have seg := inv.run_segment (by rw [e3]; exact hne2) hD
    have mono := inv.rem_mono (a + j1) (j2 - j1) (fun j hj => (seg j hj).1) 0 (by omega)
    rw [e3] at mono
    exact ⟨by omega, mono⟩

/-- An entry of one table is found in the other, with the same canonical slot and the same
remainder, when both windows start at `a` and hold the same values. -/
theorem transfer {q r : Nat} {qf qf' : quotient_filter} {D D' : Nat → Nat}
    (inv : Inv q r qf D) (inv' : Inv q r qf' D') (hqr : q + r ≤ 64) {a : Nat}
    (hv : ∀ v, v ∈ yieldsFrom q r qf D a (2 ^ q) → v ∈ yieldsFrom q r qf' D' a (2 ^ q))
    (ha : D a = 0) (ha' : D' a = 0) {j : Nat} (hj : j < 2 ^ q)
    (hne : is_empty_element (slot q qf (a + j)) = false) :
    ∃ j', j' < 2 ^ q ∧ is_empty_element (slot q qf' (a + j')) = false ∧
      D' (a + j') + j = D (a + j) + j' ∧
      get_remainder (slot q qf' (a + j')) = get_remainder (slot q qf (a + j)) := by
  have hm : fpAt q r qf D (a + j) ∈ yieldsFrom q r qf D a (2 ^ q) :=
    (mem_yieldsFrom _ _ _).2 ⟨j, hj, hne, rfl⟩
  obtain ⟨j', hj', hne', heq⟩ := (mem_yieldsFrom _ _ _).1 (hv _ hm)
  rw [fpAt_eq inv hqr, fpAt_eq inv' hqr] at heq
  obtain ⟨hc, hrem⟩ := pair_inj (get_remainder_lt inv.wf _) (get_remainder_lt inv'.wf _) heq
  have d1 := inv.D_add_le a j
  have d2 := inv'.D_add_le a j'
  have e1 : a + j - D (a + j) = a + (j - D (a + j)) := by omega
  have e2 : a + j' - D' (a + j') = a + (j' - D' (a + j')) := by omega
  rw [e1, e2] at hc
  have := pos_mod_inj (by omega) (by omega) hc
  exact ⟨j', hj', hne', by omega, hrem.symm⟩


/-- A position where no entry of one table is displaced is such a position in every table with
the same stored fingerprints. -/
theorem common_anchor {q r : Nat} {qf1 qf2 : quotient_filter} {D1 D2 : Nat → Nat}
    (inv1 : Inv q r qf1 D1) (inv2 : Inv q r qf2 D2) (hqr : q + r ≤ 64)
    (hS : ∀ c fr, c < 2 ^ q → (Stored q qf1 D1 c fr ↔ Stored q qf2 D2 c fr))
    {a : Nat} (h1 : D1 a = 0) : D2 a = 0 := by
  have hn := inv1.wf.n_pos
  by_contra hne0
  have hne : is_empty_element (slot q qf2 a) = false := by
    by_contra hcon
    exact hne0 (inv2.emp a (by simpa using hcon))
  obtain ⟨b, φ, hmod, hφ, hb, _, hfull⟩ := inv2.cluster_start hne
  have hD1 : D1 (b + φ) = 0 := by rw [inv1.D_congr hmod]; exact h1
  have hD2 : D2 (b + φ) ≠ 0 := by rw [inv2.D_congr hmod]; exact hne0
  have hD2le := inv2.D_add_le b φ
  have lenA : (yieldsFrom q r qf2 D2 b (φ + 1)).length = φ + 1 :=
    length_yieldsFrom_full (φ + 1) b (fun j hj => hfull j (by omega))
  have ndA : (yieldsFrom q r qf2 D2 b (φ + 1)).Nodup :=
    nodup_yieldsFrom inv2 hqr hb (φ + 1) 0 (by omega)
  have lenB := @length_yieldsFrom_le q r qf1 D1 φ (b + 2 ^ q)
  have sub : yieldsFrom q r qf2 D2 b (φ + 1) ⊆ yieldsFrom q r qf1 D1 (b + 2 ^ q) φ := by
    intro v hvA
    obtain ⟨j, hj, hnej, hv⟩ := (mem_yieldsFrom _ _ _).1 hvA
    have hw2 : v ∈ yieldsFrom q r qf2 D2 b (2 ^ q) :=
      (mem_yieldsFrom _ _ _).2 ⟨j, by omega, hnej, hv⟩
    have hw1 := (same_values inv1 inv2 hqr hS hD1 hb v).2 hw2
    obtain ⟨j', hj', hnej', hv'⟩ := (mem_yieldsFrom _ _ _).1 hw1
    have heq : fpAt q r qf2 D2 (b + j) = fpAt q r qf1 D1 (b + φ + j') := by rw [← hv, ← hv']
    rw [fpAt_eq inv2 hqr, fpAt_eq inv1 hqr] at heq
    obtain ⟨hc, _⟩ := pair_inj (get_remainder_lt inv2.wf _) (get_remainder_lt inv1.wf _) heq
    have d2 := inv2.D_add_le b j
    have d1 := inv1.D_add_le (b + φ) j'
    have d3 := inv2.D_add_le (b + j) (φ - j)
    have e3 : b + j + (φ - j) = b + φ := by omega
    rw [e3] at d3
    have hw : j' - D1 (b + φ + j') = j - D2 (b + j) + 2 ^ q - φ := by
      apply @pos_mod_inj (2 ^ q) (b + φ) _ _ (by omega) (by omega)
      have e4 : b + φ + (j' - D1 (b + φ + j')) = b + φ + j' - D1 (b + φ + j') := by omega
      have e5 : b + φ + (j - D2 (b + j) + 2 ^ q - φ) = b + j - D2 (b + j) + 2 ^ q := by omega
      rw [e4, e5, Nat.add_mod_right, ← hc]
    rw [mem_yieldsFrom]
    refine ⟨j' - (2 ^ q - φ), by omega, ?_, ?_⟩
    · have e6 : b + 2 ^ q + (j' - (2 ^ q - φ)) = b + φ + j' := by omega
      rw [e6]; exact hnej'
    · have e6 : b + 2 ^ q + (j' - (2 ^ q - φ)) = b + φ + j' := by omega
      rw [e6]; exact hv'
  have := (List.subperm_of_subset ndA sub).length_le
  omega

/-- One step of the comparison of two tables along a common window: an entry of the first at
offset `j` is an entry of the second at offset `j`, when the tables agree below `j`. -/
theorem layout_step {q r : Nat} {qf qf' : quotient_filter} {D D' : Nat → Nat}
    (inv : Inv q r qf D) (inv' : Inv q r qf' D') (hqr : q + r ≤ 64) {a : Nat}
    (hv : ∀ v, v ∈ yieldsFrom q r qf D a (2 ^ q) ↔ v ∈ yieldsFrom q r qf' D' a (2 ^ q))
    (ha : D a = 0) (ha' : D' a = 0) {j : Nat} (hj : j < 2 ^ q)
    (ih : ∀ x, x < j →
      is_empty_element (slot q qf (a + x)) = is_empty_element (slot q qf' (a + x)) ∧
      D (a + x) = D' (a + x) ∧
      get_remainder (slot q qf (a + x)) = get_remainder (slot q qf' (a + x)))
    (hne : is_empty_element (slot q qf (a + j)) = false) :
    is_empty_element (slot q qf' (a + j)) = false ∧ D (a + j) = D' (a + j) ∧
      get_remainder (slot q qf (a + j)) = get_remainder (slot q qf' (a + j)) := by
  obtain ⟨j', hj', hne', T1, R1⟩ := transfer inv inv' hqr (fun v => (hv v).1) ha ha' hj hne
  have dj := inv.D_add_le a j
  have dj' := inv'.D_add_le a j'
  rcases Nat.lt_trichotomy j' j with hlt | heq | hgt
  · obtain ⟨i1, i2, i3⟩ := ih j' hlt
    have K := key_lt inv hlt hne
    omega
  · subst heq
    exact ⟨hne', by omega, R1.symm⟩
  · -- the entry of the second table sits further on, so offset `j` is taken there as well
    have hk : D' (a + j') ≤ D' (a + (j' - D' (a + j')) + D' (a + j')) := by
      have e : a + (j' - D' (a + j')) + D' (a + j') = a + j' := by omega
      rw [e]
    have hne2 : is_empty_element (slot q qf' (a + (j' - D' (a + j')) + D' (a + j'))) = false := by
      have e : a + (j' - D' (a + j')) + D' (a + j') = a + j' := by omega
      rw [e]; exact hne'
    have ch := inv'.chain' hne2 hk (D (a + j)) (by omega)
    have e : a + (j' - D' (a + j')) + D (a + j) = a + j := by omega
    rw [e] at ch
    have hnej' : is_empty_element (slot q qf' (a + j)) = false := ch.1
    have K' := key_lt inv' hgt hne'
    obtain ⟨j'', hj'', hne'', T2, R2⟩ :=
      transfer inv' inv hqr (fun v => (hv v).2) ha' ha hj hnej'
    rcases Nat.lt_trichotomy j'' j with hlt2 | heq2 | hgt2
    · obtain ⟨i1, i2, i3⟩ := ih j'' hlt2
      have K2 := key_lt inv' hlt2 hnej'
      omega
    · subst heq2
      omega
    · have K := key_lt inv hgt2 hne''
      omega

/-- Two tables that satisfy the invariant and store the same fingerprints hold the same value
in every slot. -/
theorem canonical_layout {q r : Nat} {qf1 qf2 : quotient_filter} {D1 D2 : Nat → Nat}
    (inv1 : Inv q r qf1 D1) (inv2 : Inv q r qf2 D2) (hqr : q + r ≤ 64)
    (hS : ∀ c fr, c < 2 ^ q → (Stored q qf1 D1 c fr ↔ Stored q qf2 D2 c fr)) :
    ∀ p, slot q qf1 p = slot q qf2 p := by
  have hn := inv1.wf.n_pos
  obtain ⟨a, ha1⟩ := inv1.anchor
  have ha2 := common_anchor inv1 inv2 hqr hS ha1
  have hv := same_values inv1 inv2 hqr hS ha1 ha2
  have Q : ∀ j, j < 2 ^ q →
      is_empty_element (slot q qf1 (a + j)) = is_empty_element (slot q qf2 (a + j)) ∧
      D1 (a + j) = D2 (a + j) ∧
      get_remainder (slot q qf1 (a + j)) = get_remainder (slot q qf2 (a + j)) := by
    intro j
    induction j using Nat.strong_induction_on with
    | _ j ih =>
      intro hj
      have ih' : ∀ x, x < j →
          is_empty_element (slot q qf1 (a + x)) = is_empty_element (slot q qf2 (a + x)) ∧
          D1 (a + x) = D2 (a + x) ∧
          get_remainder (slot q qf1 (a + x)) = get_remainder (slot q qf2 (a + x)) :=
        fun x hx => ih x hx (by omega)
      by_cases hne1 : is_empty_element (slot q qf1 (a + j)) = false
      · obtain ⟨s1, s2, s3⟩ := layout_step inv1 inv2 hqr hv ha1 ha2 hj ih' hne1
        exact ⟨by rw [hne1, s1], s2, s3⟩
      · by_cases hne2 : is_empty_element (slot q qf2 (a + j)) = false
        · obtain ⟨s1, _, _⟩ := layout_step inv2 inv1 hqr (fun v => (hv v).symm) ha2 ha1 hj
            (fun x hx => ⟨(ih' x hx).1.symm, (ih' x hx).2.1.symm, (ih' x hx).2.2.symm⟩) hne2
          exact absurd s1 hne1
        · have he1 : is_empty_element (slot q qf1 (a + j)) = true := by simpa using hne1
          have he2 : is_empty_element (slot q qf2 (a + j)) = true := by simpa using hne2
          exact ⟨by rw [he1, he2], by rw [inv1.emp _ he1, inv2.emp _ he2],
            by rw [inv1.clean _ he1, inv2.clean _ he2]⟩
  have hocc : ∀ p, is_occupied (slot q qf1 p) = is_occupied (slot q qf2 p) := by
    intro p
    rw [Bool.eq_iff_iff, inv1.occ, inv2.occ]
    have key : ∀ (qf : quotient_filter) (D : Nat → Nat), Inv q r qf D →
        ((∃ k, is_empty_element (slot q qf (p + k)) = false ∧ D (p + k) = k) ↔
          ∃ fr, Stored q qf D (p % 2 ^ q) fr) := by
      intro qf D inv
      constructor
      · rintro ⟨k, k1, k2⟩
        exact ⟨_, (Stored.congr inv (Nat.mod_mod _ _).symm _).1 ⟨k, k1, k2, rfl⟩⟩
      · rintro ⟨fr, hs⟩
        obtain ⟨k, k1, k2, _⟩ := (Stored.congr inv (Nat.mod_mod _ _).symm _).2 hs
        exact ⟨k, k1, k2⟩
    rw [key qf1 D1 inv1, key qf2 D2 inv2]
    constructor
    · rintro ⟨fr, hs⟩; exact ⟨fr, (hS _ fr (Nat.mod_lt _ hn)).1 hs⟩
    · rintro ⟨fr, hs⟩; exact ⟨fr, (hS _ fr (Nat.mod_lt _ hn)).2 hs⟩
  refine periodic_window hn (fun x => by simp only [slot_add_period]) a (fun j hj => ?_)
  obtain ⟨q1, q2, q3⟩ := Q j hj
  apply slot_ext (hocc _) ?_ ?_ q3
  · -- continuation
    rcases Nat.eq_zero_or_pos j with h0 | h0
    · subst h0
      have c1 := inv1.not_continuation_period ha1
      have c2 := inv2.not_continuation_period ha2
      rw [slot_add_period] at c1 c2
      show is_continuation (slot q qf1 a) = is_continuation (slot q qf2 a)
      rw [c1, c2]
    · obtain ⟨j0, rfl⟩ : ∃ j0, j = j0 + 1 := ⟨j - 1, by omega⟩
      obtain ⟨_, p2, _⟩ := Q j0 (by omega)
      by_cases hne : is_empty_element (slot q qf1 (a + (j0 + 1))) = false
      · have hne2 : is_empty_element (slot q qf2 (a + (j0 + 1))) = false := by rw [← q1]; exact hne
        rw [Bool.eq_iff_iff]
        have c1 := inv1.cont (a + j0) hne
        have c2 := inv2.cont (a + j0) hne2
        have e : a + (j0 + 1) = a + j0 + 1 := rfl
        rw [e] at q2 ⊢
        rw [c1, c2, q2, p2]
      · have he1 : is_empty_element (slot q qf1 (a + (j0 + 1))) = true := by simpa using hne
        have he2 : is_empty_element (slot q qf2 (a + (j0 + 1))) = true := by rw [← q1]; exact he1
        rw [is_empty_element_eq] at he1 he2
        revert he1 he2
        cases is_continuation (slot q qf1 (a + (j0 + 1))) <;>
          cases is_continuation (slot q qf2 (a + (j0 + 1))) <;> simp
  · -- shifted
    by_cases hne : is_empty_element (slot q qf1 (a + j)) = false
    · have hne2 : is_empty_element (slot q qf2 (a + j)) = false := by rw [← q1]; exact hne
      rw [Bool.eq_iff_iff, inv1.shf _ hne, inv2.shf _ hne2, q2]
    · have he1 : is_empty_element (slot q qf1 (a + j)) = true := by simpa using hne
      have he2 : is_empty_element (slot q qf2 (a + j)) = true := by rw [← q1]; exact he1
      rw [is_empty_element_eq] at he1 he2
      revert he1 he2
      cases is_shifted (slot q qf1 (a + j)) <;>
        cases is_shifted (slot q qf2 (a + j)) <;> simp


/-! ## The bits outside the slots -/

theorem frame_self (q r : Nat) (qf : quotient_filter) : Frame q r qf qf :=
  ⟨rfl, fun _ _ => rfl⟩

theorem Frame.trans {q r : Nat} {qf1 qf2 qf3 : quotient_filter} (h1 : Frame q r qf1 qf2)
    (h2 : Frame q r qf2 qf3) : Frame q r qf1 qf3 :=
  ⟨h2.1.trans h1.1, fun k hk => (h2.2 k hk).trans (h1.2 k hk)⟩

theorem incr_lt {q r : Nat} {qf : quotient_filter} (wf : WF q r qf) (x : Nat) :
    incr qf x < 2 ^ q := by
  unfold incr
  rw [wf.index_mask_eq, and_mask_eq_mod]
  exact Nat.mod_lt _ wf.n_pos

theorem decr_lt {q r : Nat} {qf : quotient_filter} (wf : WF q r qf) (x : Nat) :
    decr qf x < 2 ^ q := by
  unfold decr
  rw [wf.index_mask_eq, and_mask_eq_mod]
  exact Nat.mod_lt _ wf.n_pos

theorem frame_set_elem {q r : Nat} {qf : quotient_filter} (wf : WF q r qf) {i : Nat}
    (hi : i < 2 ^ q) (v : Nat) : Frame q r qf (set_elem qf i v) := by
  obtain ⟨h1, h2⟩ := wf.idx_ok hi
  refine ⟨(set_elem_fields qf i v).2.2.2.2.2.2.2.2, fun k hk => ?_⟩
  rw [set_elem_tbit wf.tableOK h1 h2, if_neg]
  rw [wf.elem_bits_eq]
  have : (r + 3) * i + (r + 3) ≤ 2 ^ q * (r + 3) := by
    calc (r + 3) * i + (r + 3) = (i + 1) * (r + 3) := by ring
      _ ≤ 2 ^ q * (r + 3) := Nat.mul_le_mul_right _ hi
  omega

theorem cluster_start_loop_lt {q r : Nat} {qf : quotient_filter} (wf : WF q r qf) :
    ∀ (fuel b b' : Nat), b < 2 ^ q → cluster_start_loop qf fuel b = some b' → b' < 2 ^ q := by
  intro fuel
  induction fuel with
  | zero => intro b b' _ h; simp [cluster_start_loop] at h
  | succ f ih =>
    intro b b' hb h
    rw [cluster_start_loop] at h
    split at h
    · exact ih _ _ (decr_lt wf b) h
    · injection h with h; rw [← h]; exact hb

theorem next_run_loop_lt {q r : Nat} {qf : quotient_filter} (wf : WF q r qf) :
    ∀ (fuel s s' : Nat), next_run_loop qf fuel s = some s' → s' < 2 ^ q := by
  intro fuel
  induction fuel with
  | zero => intro s s' h; simp [next_run_loop] at h
  | succ f ih =>
    intro s s' h
    rw [next_run_loop] at h
    try simp only at h
    split at h
    · exact ih _ _ h
    · injection h with h; rw [← h]; exact incr_lt wf s

theorem next_occupied_loop_lt {q r : Nat} {qf : quotient_filter} (wf : WF q r qf) :
    ∀ (fuel b b' : Nat), next_occupied_loop qf fuel b = some b' → b' < 2 ^ q := by
  intro fuel
  induction fuel with
  | zero => intro b b' h; simp [next_occupied_loop] at h
  | succ f ih =>
    intro b b' h
    rw [next_occupied_loop] at h
    try simp only at h
    split at h
    · exact ih _ _ h
    · injection h with h; rw [← h]; exact incr_lt wf b

theorem run_index_loop_lt {q r : Nat} {qf : quotient_filter} (wf : WF q r qf) (fq : Nat) :
    ∀ (fuel b s s' : Nat), s < 2 ^ q → run_index_loop qf fq fuel b s = some s' →
      s' < 2 ^ q := by
  intro fuel
  induction fuel with
  | zero => intro b s s' _ h; simp [run_index_loop] at h
  | succ f ih =>
    intro b s s' hs h
    rw [run_index_loop] at h
    split at h
    · cases h1 : next_run_loop qf f s with
      | none => rw [h1] at h; simp at h
      | some s1 =>
        cases h2 : next_occupied_loop qf f b with
        | none => rw [h1, h2] at h; simp at h
        | some b1 =>
          rw [h1, h2] at h
          exact ih _ _ _ (next_run_loop_lt wf _ _ _ h1) h
    · injection h with h; rw [← h]; exact hs

theorem find_run_index_lt {q r : Nat} {qf : quotient_filter} (wf : WF q r qf) {fq fuel s : Nat}
    (hfq : fq < 2 ^ q) (h : find_run_index fuel qf fq = some s) : s < 2 ^ q := by
  unfold find_run_index at h
  cases h1 : cluster_start_loop qf fuel fq with
  | none => rw [h1] at h; simp at h
  | some b =>
    rw [h1] at h
    exact run_index_loop_lt wf fq _ _ _ _ (cluster_start_loop_lt wf _ _ _ hfq h1) h

theorem scan_run_lt {q r : Nat} {qf : quotient_filter} (wf : WF q r qf) (fr : Nat) :
    ∀ (fuel s : Nat) (res : Scan), s < 2 ^ q → scan_run qf fr fuel s = some res →
      ∀ t, (res = Scan.found t ∨ res = Scan.greater t ∨ res = Scan.ended t) → t < 2 ^ q := by
  intro fuel
  induction fuel with
  | zero => intro s res _ h; simp [scan_run] at h
  | succ f ih =>
    intro s res hs h t ht
    rw [scan_run] at h
    try simp only at h
    split at h
    · injection h with h
      subst h
      rcases ht with ht | ht | ht <;> first | (cases ht; done) | (cases ht; exact hs)
    · split at h
      · injection h with h
        subst h
        rcases ht with ht | ht | ht <;> first | (cases ht; done) | (cases ht; exact hs)
      · split at h
        · exact ih _ _ (incr_lt wf s) h t ht
        · injection h with h
          subst h
          rcases ht with ht | ht | ht <;> first | (cases ht; done) | (cases ht; exact incr_lt wf s)

theorem frame_insert_into {q r : Nat} :
    ∀ (fuel : Nat) (qf : quotient_filter) (s curr : Nat) (qf' : quotient_filter),
      WF q r qf → s < 2 ^ q → insert_into fuel qf s curr = some qf' →
      WF q r qf' ∧ Frame q r qf qf' := by
  intro fuel
  induction fuel with
  | zero => intro qf s curr qf' _ _ h; simp [insert_into] at h
  | succ f ih =>
    intro qf s curr qf' wf hs h
    rw [insert_into] at h
    try simp only at h
    split at h
    · obtain ⟨w, fr⟩ := ih _ _ _ _ (wf.set_elem _ _) (incr_lt (wf.set_elem _ _) s) h
      exact ⟨w, (frame_set_elem wf hs _).trans fr⟩
    · injection h with h
      rw [← h]
      exact ⟨wf.set_elem _ _, frame_set_elem wf hs _⟩


/-- The function `qf_insert` keeps the fields for `q` and `r`, the length of the table and
the bits of the table after the slots. -/
theorem frame_qf_insert {q r : Nat} {qf : quotient_filter} (wf : WF q r qf)
    {fuel hash : Nat} {res : Bool × quotient_filter}
    (h : qf_insert fuel qf hash = some res) : Frame q r qf res.2 := by
  have hfq := hash_to_quotient_lt wf hash
  unfold qf_insert at h
  try simp only at h
  split at h
  · injection h with h; rw [← h]; exact frame_self q r qf
  · split at h
    · injection h with h
      rw [← h]
      exact frame_set_elem wf hfq _
    · have hqf1 : ∀ qf1, qf1 = (if (!is_occupied (get_elem qf (hash_to_quotient qf hash))) = true
          then set_elem qf (hash_to_quotient qf hash)
            (set_occupied (get_elem qf (hash_to_quotient qf hash))) else qf) →
          WF q r qf1 ∧ Frame q r qf qf1 := by
        intro qf1 e
        rw [e]
        split
        · exact ⟨wf.set_elem _ _, frame_set_elem wf hfq _⟩
        · exact ⟨wf, frame_self q r qf⟩
      generalize (if (!is_occupied (get_elem qf (hash_to_quotient qf hash))) = true then
        set_elem qf (hash_to_quotient qf hash)
          (set_occupied (get_elem qf (hash_to_quotient qf hash))) else qf) = qf1 at h hqf1
      obtain ⟨wf1, fr1⟩ := hqf1 qf1 rfl
      cases h1 : find_run_index fuel qf1 (hash_to_quotient qf hash) with
      | none => rw [h1] at h; simp at h
      | some start =>
        rw [h1] at h
        have hstart := find_run_index_lt wf1 hfq h1
        try simp only at h
        have place : ∀ (qf2 : quotient_filter) (s e : Nat), WF q r qf2 → Frame q r qf qf2 →
            s < 2 ^ q →
            (match insert_into fuel qf2 s e with
              | none => none
              | some qf3 => some (true, { qf3 with entries := (qf3.entries + 1) % 2 ^ 32 }))
              = some res → Frame q r qf res.2 := by
          intro qf2 s e wf2 fr2 hs hp
          cases h2 : insert_into fuel qf2 s e with
          | none => rw [h2] at hp; simp at hp
          | some qf3 =>
            rw [h2] at hp
            injection hp with hp
            rw [← hp]
            exact fr2.trans (frame_insert_into fuel qf2 s e qf3 wf2 hs h2).2
        split at h
        · cases h3 : scan_run qf1 (hash_to_remainder qf hash) fuel start with
          | none => rw [h3] at h; simp at h
          | some sres =>
            rw [h3] at h
            have hcur := scan_run_lt wf1 _ fuel start sres hstart h3
            cases sres with
            | found s =>
              injection h with h
              rw [← h]; exact fr1
            | greater s =>
              have hs := hcur s (Or.inr (Or.inl rfl))
              try simp only at h
              split at h
              · exact place _ _ _ (wf1.set_elem _ _)
                  (fr1.trans (frame_set_elem wf1 hstart _)) hs h
              · exact place _ _ _ wf1 fr1 hs h
            | ended s =>
              have hs := hcur s (Or.inr (Or.inr rfl))
              try simp only at h
              split at h
              · exact place _ _ _ (wf1.set_elem _ _)
                  (fr1.trans (frame_set_elem wf1 hstart _)) hs h
              · exact place _ _ _ wf1 fr1 hs h
        · exact place _ _ _ wf1 fr1 hstart h

/-- Tables of 64-bit words of the same length with the same bits are equal. -/
theorem table_ext {t1 t2 : List Nat} (hl : t1.length = t2.length)
    (h1 : ∀ w, w ∈ t1 → w < 2 ^ 64) (h2 : ∀ w, w ∈ t2 → w < 2 ^ 64)
    (hb : ∀ k, tbit t1 k = tbit t2 k) : t1 = t2 := by
  apply List.ext_getElem hl
  intro w hw1 hw2
  apply Nat.eq_of_testBit_eq
  intro j
  by_cases hj : j < 64
  · have := hb (64 * w + j)
    unfold tbit at this
    have e1 : (64 * w + j) / 64 = w := by omega
    have e2 : (64 * w + j) % 64 = j := by omega
    rw [e1, e2, List.getElem?_eq_getElem hw1, List.getElem?_eq_getElem hw2] at this
    exact this
  · have b1 : t1[w] < 2 ^ 64 := h1 _ (List.getElem_mem _)
    have b2 : t2[w] < 2 ^ 64 := h2 _ (List.getElem_mem _)
    have hp : (2 : Nat) ^ 64 ≤ 2 ^ j := Nat.pow_le_pow_right (by decide) (by omega)
    rw [Nat.testBit_lt_two_pow (Nat.lt_of_lt_of_le b1 hp),
      Nat.testBit_lt_two_pow (Nat.lt_of_lt_of_le b2 hp)]

/-- A bit of the table inside the slots is a bit of a slot. -/
theorem tbit_slot {q r : Nat} {qf : quotient_filter} (wf : WF q r qf) {k : Nat}
    (hk : k < 2 ^ q * (r + 3)) :
    k / (r + 3) < 2 ^ q ∧ tbit qf.table k = (get_elem qf (k / (r + 3))).testBit (k % (r + 3)) := by
  have hpos : 0 < r + 3 := by omega
  have hi : k / (r + 3) < 2 ^ q := Nat.div_lt_of_lt_mul (by rw [Nat.mul_comm]; exact hk)
  refine ⟨hi, ?_⟩
  rw [get_elem_testBit wf.tableOK (wf.idx_ok hi).1, wf.elem_bits_eq,
    Nat.div_add_mod k (r + 3)]
  simp [Nat.mod_lt k hpos]

/-- Two filters for `q` and `r` with the same slots, the same `entries`, tables of the same
length and the same bits after the slots are equal. -/
theorem same_filter {q r : Nat} {qf1 qf2 : quotient_filter} (wf1 : WF q r qf1)
    (wf2 : WF q r qf2) (hent : qf1.entries = qf2.entries)
    (hlen : qf1.table.length = qf2.table.length)
    (hpad : ∀ k, 2 ^ q * (r + 3) ≤ k → tbit qf1.table k = tbit qf2.table k)
    (hslots : ∀ i, i < 2 ^ q → get_elem qf1 i = get_elem qf2 i) : qf1 = qf2 := by
  have ht : qf1.table = qf2.table := by
    apply table_ext hlen wf1.words wf2.words
    intro k
    by_cases hk : k < 2 ^ q * (r + 3)
    · obtain ⟨hi, e1⟩ := tbit_slot wf1 hk
      obtain ⟨_, e2⟩ := tbit_slot wf2 hk
      rw [e1, e2, hslots _ hi]
    · exact hpad k (by omega)
  have a1 := wf1.qbits_eq
  have a2 := wf1.rbits_eq
  have a3 := wf1.elem_bits_eq
  have a4 := wf1.index_mask_eq
  have a5 := wf1.rmask_eq
  have a6 := wf1.elem_mask_eq
  have a7 := wf1.max_size_eq
  have b1 := wf2.qbits_eq
  have b2 := wf2.rbits_eq
  have b3 := wf2.elem_bits_eq
  have b4 := wf2.index_mask_eq
  have b5 := wf2.rmask_eq
  have b6 := wf2.elem_mask_eq
  have b7 := wf2.max_size_eq
  cases qf1
  cases qf2
  simp only at a1 a2 a3 a4 a5 a6 a7 b1 b2 b3 b4 b5 b6 b7 hent ht
  subst a1 a2 a3 a4 a5 a6 a7 hent ht
  simp only [quotient_filter.mk.injEq, and_true, true_and]
  exact ⟨b1.symm, b2.symm, b3.symm, b4.symm, b5.symm, b6.symm, b7.symm⟩


/-- On a fresh table that holds all `2^q` slots, the property of C18: in every state reached
from a fresh filter (1 ≤ q ≤ 30, 1 ≤ r ≤ 60, q + r ≤ 64) by
`qf_insert` calls with `entries + 2 ≤ 2^q`, for all hashes `a` and `b` all four insertions
return `true`, and `qf_insert a` then `qf_insert b` ends in the same filter as `qf_insert b`
then `qf_insert a`: the same value in every slot, the same `entries` counter, the same words
of the table. -/
theorem insert_order_independent (q r : Nat) (hq : 1 ≤ q) (hq' : q ≤ 30) (hr : 1 ≤ r)
    (hr' : r ≤ 60) (hqr : q + r ≤ 64) (qf : quotient_filter) (ok : List Nat)
    (hreach : Reach q r qf ok) (hroom : qf.entries + 2 ≤ 2 ^ q) (a b fuel : Nat)
    (hf : 2 * 2 ^ q < fuel) :
    ∃ qa qab qb qba, qf_insert fuel qf a = some (true, qa) ∧
      qf_insert fuel qa b = some (true, qab) ∧ qf_insert fuel qf b = some (true, qb) ∧
      qf_insert fuel qb a = some (true, qba) ∧ qab.entries = qba.entries ∧
      (∀ i, i < 2 ^ q → get_elem qab i = get_elem qba i) ∧ qab = qba := by
  obtain ⟨D, inv, _⟩ := reach_inv hq hq' hr hr' hreach
  obtain ⟨qa, Da, ea, inva, sa, _, _, la⟩ := qf_insert_ok inv (by omega) a hf
  obtain ⟨qab, Dab, eab, invab, sab, _, _, _⟩ := qf_insert_ok inva (by omega) b hf
  obtain ⟨qb, Db, eb, invb, sb, _, _, lb⟩ := qf_insert_ok inv (by omega) b hf
  obtain ⟨qba, Dba, eba, invba, sba, _, _, _⟩ := qf_insert_ok invb (by omega) a hf
  have hS : ∀ c fr, c < 2 ^ q → (Stored q qab Dab c fr ↔ Stored q qba Dba c fr) := by
    intro c fr _
    rw [sab, sa, sba, sb]
    simp only [hash_to_quotient_eq inv.wf, hash_to_quotient_eq inva.wf,
      hash_to_quotient_eq invb.wf, hash_to_remainder_eq inv.wf, hash_to_remainder_eq inva.wf,
      hash_to_remainder_eq invb.wf]
    constructor
    · rintro ((h | h) | h)
      · exact Or.inl (Or.inl h)
      · exact Or.inr h
      · exact Or.inl (Or.inr h)
    · rintro ((h | h) | h)
      · exact Or.inl (Or.inl h)
      · exact Or.inr h
      · exact Or.inl (Or.inr h)
  have hslots := canonical_layout invab invba hqr hS
  have hent : qab.entries = qba.entries := by
    rw [invab.count, invba.count]
    simp only [hslots]
  have hget : ∀ i, i < 2 ^ q → get_elem qab i = get_elem qba i := by
    intro i hi
    have := hslots i
    rwa [slot_of_lt q qab hi, slot_of_lt q qba hi] at this
  have f1 : Frame q r qf qab := (frame_qf_insert inv.wf ea).trans (frame_qf_insert inva.wf eab)
  have f2 : Frame q r qf qba := (frame_qf_insert inv.wf eb).trans (frame_qf_insert invb.wf eba)
  exact ⟨qa, qab, qb, qba, ea, eab, eb, eba, hent, hget,
    same_filter invab.wf invba.wf hent (f1.1.trans f2.1.symm)
      (fun k hk => (f1.2 k hk).trans (f2.2 k hk).symm) hget⟩

theorem insert_order_independent_witness :
    Reach 3 3 example_filter [1, 0] ∧ example_filter.entries + 2 ≤ 2 ^ 3 ∧
    ∃ qa qab qb qba, qf_insert 17 example_filter 2 = some (true, qa) ∧
      qf_insert 17 qa 8 = some (true, qab) ∧ qf_insert 17 example_filter 8 = some (true, qb) ∧
      qf_insert 17 qb 2 = some (true, qba) ∧ qab.entries = qba.entries ∧
      (∀ i, i < 2 ^ 3 → get_elem qab i = get_elem qba i) ∧ qab = qba :=
  ⟨example_reach, by decide,
    insert_order_independent 3 3 (by decide) (by decide) (by decide) (by decide) (by decide)
      example_filter [1, 0] example_reach (by decide) 2 8 17 (by decide)⟩


/-- In a table that satisfies the invariant, `entries` is the number of non-empty slots. -/
theorem Inv.entries_count {q r : Nat} {qf : quotient_filter} {D : Nat → Nat}
    (inv : Inv q r qf D) : nonempty_slots qf = qf.entries := by
  unfold nonempty_slots
  rw [inv.wf.max_size_eq, inv.count]
  have e : (List.range (2 ^ q)).filter (fun i => !is_empty_element (get_elem qf i))
      = (List.range (2 ^ q)).filter
          (fun i => decide (is_empty_element (slot q qf i) = false)) := by
    apply List.filter_congr
    intro i hi
    rw [slot_of_lt q qf (List.mem_range.1 hi)]
    cases is_empty_element (get_elem qf i) <;> rfl
  rw [e]
  rfl

/-- In every state reached from a fresh filter by `qf_insert` calls alone, `entries` is the
number of non-empty slots. -/
theorem reach_entries_count {q r : Nat} (hq : 1 ≤ q) (hq' : q ≤ 30) (hr : 1 ≤ r) (hr' : r ≤ 60)
    {qf : quotient_filter} {ok : List Nat} (hreach : Reach q r qf ok) :
    nonempty_slots qf = qf.entries := by
  obtain ⟨D, inv, _⟩ := reach_inv hq hq' hr hr' hreach
  exact inv.entries_count


/-! ## The table that `qf_init` allocates for `q = 30`, `r = 1`

`qf_table_size 30 1` is 0 (the 32-bit product wraps), `qf_init 30 1` succeeds, and every
table access of the filter it builds lies outside the allocation. -/

end QF
